import Mathlib

set_option autoImplicit false

/-!
# The Substrait TextPlan grammar (tree-sitter-substrait/grammar.js)

The source is a context-free grammar written with the tree-sitter combinators
`seq`, `choice`, `repeat`, `optional`, string terminals and regular expressions.

* Lexical layer: the regular expressions of the "Basic tokens" section are
  transcribed as `Regex` values and run by a derivative matcher.
* Terminals: a `Token` is one terminal of the grammar, with its text.  A terminal
  written as a string in the grammar (`'schema'`, `'{'`, `'NULL'`) is `Token.lit`;
  text matched by the pattern of `identifier` is `Token.word`; `number`, `string`
  and `uri` texts are tokens of their own kind.  Where a string terminal and the
  identifier pattern both fit the same text, tree-sitter lexes the string terminal
  (a string is preferred to a regular expression of the same length).  This is why
  the rule `identifier` lists fourteen words next to its pattern: a listed word is
  an identifier although it is a string terminal; an unlisted string terminal
  (`'TRUE'`, `'RELATION'`, `'LIST'`) is not.
* Syntax: every rule is a type of parse trees, one constructor per alternative
  of its `choice`, one field per named part of its `seq`; `repeat` is a `List`,
  `optional` an `Option` (a `Bool` for an optional fixed terminal).
  `yield` flattens a tree to the token sequence it derives, so
  "rule `r` derives `w`" is `∃ t : r, t.yield = w`.
* `extras` (white space and comments between tokens) and `conflicts` do not
  change which token sequences a rule derives.
* The parser that runs the grammar is not part of the source.  Where a statement is
  about its error recovery, the parser is modelled from the spec, for the one rule
  concerned (`schema_definition`); these definitions say so in their comments.
-/

namespace Substrait

/-! ## Lexical layer -/

/-- Regular expressions over characters. -/
inductive Regex
  | nothing
  | empty
  | cls (p : Char → Bool)
  | seq (a b : Regex)
  | choice (a b : Regex)
  | star (a : Regex)

namespace Regex

/-- Does the expression match the empty text? -/
def nullable : Regex → Bool
  | nothing => false
  | empty => true
  | cls _ => false
  | seq a b => a.nullable && b.nullable
  | choice a b => a.nullable || b.nullable
  | star _ => true

/-- Brzozowski derivative: what remains to be matched after reading `c`. -/
def deriv (c : Char) : Regex → Regex
  | nothing => nothing
  | empty => nothing
  | cls p => if p c then empty else nothing
  | seq a b => if a.nullable then choice (seq (a.deriv c) b) (b.deriv c) else seq (a.deriv c) b
  | choice a b => choice (a.deriv c) (b.deriv c)
  | star a => seq (a.deriv c) (star a)

/-- Whole-text match. -/
def matches_ (r : Regex) : List Char → Bool
  | [] => r.nullable
  | c :: cs => matches_ (r.deriv c) cs

/-- One given character. -/
def chr (c : Char) : Regex := cls (fun d => d == c)

/-- A fixed text, character by character. -/
def str (s : String) : Regex := s.toList.foldr (fun c r => seq (chr c) r) empty

/-- `r?` -/
def opt (r : Regex) : Regex := choice r empty

/-- `r+` -/
def plus (r : Regex) : Regex := seq r (star r)

/-- `[A-Za-z]` -/
def letter (c : Char) : Bool := ('A' ≤ c && c ≤ 'Z') || ('a' ≤ c && c ≤ 'z')

/-- `[0-9]` -/
def digit (c : Char) : Bool := '0' ≤ c && c ≤ '9'

/-- `.`: any character but a line terminator. -/
def dot : Regex :=
  cls (fun c => c.toNat != 10 && c.toNat != 13 && c.toNat != 0x2028 && c.toNat != 0x2029)

end Regex

open Regex in
/-- The pattern of `identifier`: `/[A-Za-z][A-Za-z0-9$]*/`. -/
def identifier_pattern : Regex :=
  seq (cls letter) (star (cls (fun c => letter c || digit c || c == '$')))

open Regex in
/-- Rule `number`: `/[-+]?[0-9]+(\.[0-9]+)?([eE][-+]?[0-9]+)?/`. -/
def number_pattern : Regex :=
  seq (opt (cls (fun c => c == '-' || c == '+')))
    (seq (plus (cls digit))
      (seq (opt (seq (chr '.') (plus (cls digit))))
        (opt (seq (cls (fun c => c == 'e' || c == 'E'))
          (seq (opt (cls (fun c => c == '-' || c == '+'))) (plus (cls digit)))))))

open Regex in
/-- First alternative of `string`: `seq('"', repeat(choice(/[^"\\]/, /\\./)), '"')`. -/
def string_double_quoted : Regex :=
  seq (chr '"')
    (seq (star (choice (cls (fun c => c != '"' && c != '\\')) (seq (chr '\\') dot)))
      (chr '"'))

open Regex in
/-- Second alternative of `string`: one backtick, `repeat(/[^`]/)`, one backtick. -/
def string_backtick : Regex :=
  seq (str "`") (seq (star (cls (fun c => c != '`'))) (str "`"))

open Regex in
/-- Third alternative of `string`: two backticks, `repeat(/./)`, two backticks. -/
def string_double_backtick : Regex :=
  seq (str "``") (seq (star dot) (str "``"))

open Regex in
/-- Fourth alternative of `string`: three backticks, `repeat(/./)`, three backticks. -/
def string_triple_backtick : Regex :=
  seq (str "```") (seq (star dot) (str "```"))

open Regex in
/-- Rule `string`: the choice of its four surface forms. -/
def string_pattern : Regex :=
  choice string_double_quoted
    (choice string_backtick (choice string_double_backtick string_triple_backtick))

open Regex in
/-- The class `[A-Za-z0-9-._]` of the `uri` rule. -/
def uri_char (c : Char) : Bool :=
  letter c || digit c || c == '-' || c == '.' || c == '_'

open Regex in
/-- The pattern `/[A-Za-z0-9-._]+(\/[A-Za-z0-9-._]+)*/` of the `uri` rule. -/
def uri_path : Regex :=
  seq (plus (cls uri_char)) (star (seq (chr '/') (plus (cls uri_char))))

open Regex in
/-- Rule `uri`: scheme, `:`, optional `//host/`, path; or an optional `/` and a path. -/
def uri_pattern : Regex :=
  choice
    (seq (plus (cls letter))
      (seq (chr ':')
        (seq (opt (seq (str "//")
            (seq (plus (cls (fun c => letter c || digit c || c == '-' || c == '.'))) (chr '/'))))
          uri_path)))
    (seq (opt (chr '/')) uri_path)

/-! ## Terminals -/

/-- One terminal of the grammar, with its text. -/
inductive Token
  | lit (s : String)
  | word (s : String)
  | number (s : String)
  | string (s : String)
  | uri (s : String)
deriving DecidableEq

/-- Every terminal that the grammar writes as a string. -/
def string_terminals : List String :=
  [";", "schema", "\x7b", "\x7d", "NAMED", "source", "LOCAL_FILES", "ADVANCED_EXTENSION",
   "ITEMS", "=", "[", ",", "]", "PARTITION_INDEX", ":", "START", "LENGTH", "ORC",
   "PARQUET", "URI_FILE", "URI_PATH", "URI_PATH_GLOB", "URI_FOLDER", "VIRTUAL_TABLE",
   "NAMED_TABLE", "NAMES", "EXTENSION_TABLE", "RELATION", "(", "SCHEMA", ")", "COMMON",
   "BASE_SCHEMA", "FILTER", "EXPRESSION", "GROUPING", "MEASURE", "COUNT", "TYPE", "EMIT",
   "-", "->", "@", "INVOCATION", "SORT", "BY", "ROOT", "PIPELINES", "EXTENSION_SPACE",
   "FUNCTION", "AS", "_", "NULL", "TRUE", "FALSE", ".", "SUBQUERY", "IN", "UNIQUE",
   "EXISTS", "ALL", "ANY", "EQ", "NE", "LT", "GT", "LE", "GE", "SOURCE", "?", "LIST",
   "<", ">", "MAP", "STRUCT"]

/-- The text of a token is text its terminal matches. -/
def Token.valid : Token → Bool
  | .lit s => string_terminals.contains s
  | .word s => identifier_pattern.matches_ s.toList
  | .number s => number_pattern.matches_ s.toList
  | .string s => string_pattern.matches_ s.toList
  | .uri s => uri_pattern.matches_ s.toList

/-- An optional fixed terminal: `optional('x')`. -/
def opt_lit (present : Bool) (s : String) : List Token :=
  if present then [Token.lit s] else []

/-- Yield of `optional(x)`. -/
def opt {α : Type} (f : α → List Token) : Option α → List Token
  | none => []
  | some x => f x

/-- Yield of `repeat(x)`. -/
def rep {α : Type} (f : α → List Token) : List α → List Token
  | [] => []
  | x :: xs => f x ++ rep f xs

/-! ## Parse trees: basic tokens -/

/-- Rule `identifier`: the pattern, or one of fourteen listed words. -/
inductive identifier
  | pattern (text : String)
  | FILTER
  | ROOT
  | SOURCE
  | SCHEMA
  | NULL
  | SORT
  | MEASURE
  | GROUPING
  | COUNT
  | TYPE
  | EMIT
  | NAMED
  | ALL
  | ANY
deriving DecidableEq

/-- Rule `number`. -/
structure number where
  text : String
deriving DecidableEq

/-- Rule `string`. -/
structure string where
  text : String
deriving DecidableEq

/-- Rule `uri`. -/
structure uri where
  text : String
deriving DecidableEq

/-! ## Parse trees: types -/

/-- Rule `type_specifier`: `seq('<', number, repeat(seq(',', number)), '>')`. -/
structure type_specifier where
  first : number
  rest : List number
deriving DecidableEq

/-- Rule `simple_type`: `seq(identifier, optional('?'), optional(type_specifier))`. -/
structure simple_type where
  name : identifier
  nullable : Bool
  specifier : Option type_specifier
deriving DecidableEq

mutual
/-- Rule `type`: `choice(simple_type, list_type, map_type, struct_type)`. -/
inductive type
  | simple_type (t : simple_type)
  | list_type (t : list_type)
  | map_type (t : map_type)
  | struct_type (t : struct_type)
/-- Rule `list_type`: `seq('LIST', optional('?'), '<', optional(type), '>')`. -/
inductive list_type
  | mk (nullable : Bool) (element : Option type)
/-- Rule `map_type`:
`seq('MAP', optional('?'), '<', optional(simple_type), optional(','), optional(type), '>')`. -/
inductive map_type
  | mk (nullable : Bool) (key : Option simple_type) (comma : Bool) (value : Option type)
/-- Rule `struct_type`:
`seq('STRUCT', optional('?'), '<', optional(seq(type, repeat(seq(',', type)))), '>')`. -/
inductive struct_type
  | mk (nullable : Bool) (fields : Option (type × List type))
end

/-! ## Parse trees: expressions -/

/-- Rule `relation_ref`: `seq(identifier, optional(seq('(', 'SCHEMA', identifier, ')')))`. -/
structure relation_ref where
  name : identifier
  schema : Option identifier
deriving DecidableEq

/-- Rule `column_name`: `seq(optional(seq(identifier, '.')), identifier)`. -/
structure column_name where
  qualifier : Option identifier
  name : identifier
deriving DecidableEq

/-- Rule `column_reference`: `column_name`. -/
structure column_reference where
  name : column_name
deriving DecidableEq

/-- Rule `subquery_expression`: `seq('SUBQUERY', relation_ref)`. -/
structure subquery_expression where
  ref : relation_ref
deriving DecidableEq

/-- The `choice('UNIQUE', 'EXISTS')` of `set_predicate_subquery`. -/
inductive set_predicate
  | UNIQUE
  | EXISTS
deriving DecidableEq

/-- Rule `set_predicate_subquery`:
`seq(choice('UNIQUE', 'EXISTS'), 'IN', 'SUBQUERY', relation_ref)`. -/
structure set_predicate_subquery where
  predicate : set_predicate
  ref : relation_ref
deriving DecidableEq

/-- Rule `comparison_operator`: `choice('EQ', 'NE', 'LT', 'GT', 'LE', 'GE')`. -/
inductive comparison_operator
  | EQ
  | NE
  | LT
  | GT
  | LE
  | GE
deriving DecidableEq

/-- The `choice('ALL', 'ANY')` of `set_comparison_subquery`. -/
inductive set_quantifier
  | ALL
  | ANY
deriving DecidableEq

mutual
/-- Rule `constant`: seven alternatives, each with `optional(seq('_', type))`. -/
inductive constant
  | number (n : number) (suffix : Option type)
  | string (s : string) (suffix : Option type)
  | map_literal (m : map_literal) (suffix : Option type)
  | struct_literal (s : struct_literal) (suffix : Option type)
  | NULL (suffix : Option type)
  | TRUE (suffix : Option type)
  | FALSE (suffix : Option type)
/-- Rule `map_literal`:
`choice(seq('{', '}'), seq('{', map_entry, repeat(seq(',', map_entry)), '}'))`. -/
inductive map_literal
  | empty
  | entries (first : map_entry) (rest : List map_entry)
/-- Rule `map_entry`: `seq(constant, ':', constant)`. -/
inductive map_entry
  | mk (key : constant) (value : constant)
/-- Rule `struct_literal`:
`choice(seq('{', '}'), seq('{', constant, repeat(seq(',', constant)), '}'))`. -/
inductive struct_literal
  | empty
  | fields (first : constant) (rest : List constant)
end

mutual
/-- Rule `expression`: the choice of its eight alternatives. -/
inductive expression
  | function_call (f : function_call)
  | constant (c : constant)
  | column_reference (c : column_reference)
  | cast_expression (c : cast_expression)
  | subquery_expression (s : subquery_expression)
  | in_predicate_subquery (s : in_predicate_subquery)
  | set_predicate_subquery (s : set_predicate_subquery)
  | set_comparison_subquery (s : set_comparison_subquery)
/-- Rule `function_call`: `seq(identifier, '(',
optional(seq(expression, repeat(seq(',', expression)), optional(','))), ')',
optional(seq('->', type)))`. -/
inductive function_call
  | mk (name : identifier) (arguments : Option (expression × List expression × Bool))
      (result : Option type)
/-- Rule `cast_expression`: `seq(expression, 'AS', type)`. -/
inductive cast_expression
  | mk (operand : expression) (target : type)
/-- Rule `in_predicate_subquery`: `seq(expression_list, 'IN', 'SUBQUERY', relation_ref)`. -/
inductive in_predicate_subquery
  | mk (list : expression_list) (ref : relation_ref)
/-- Rule `expression_list`: `seq('(', expression, repeat(seq(',', expression)), ')')`. -/
inductive expression_list
  | mk (first : expression) (rest : List expression)
/-- Rule `set_comparison_subquery`:
`seq(expression, comparison_operator, choice('ALL', 'ANY'), 'SUBQUERY', relation_ref)`. -/
inductive set_comparison_subquery
  | mk (operand : expression) (op : comparison_operator) (quantifier : set_quantifier)
      (ref : relation_ref)
end

/-! ## Parse trees: declarations -/

/-- Rule `schema_item`:
`seq(identifier, type, optional(seq('NAMED', identifier)), ';')`. -/
structure schema_item where
  name : identifier
  ty : type
  named : Option identifier

/-- Rule `schema_definition`: `seq('schema', identifier, '{', repeat(schema_item), '}')`. -/
structure schema_definition where
  name : identifier
  items : List schema_item

/-- Rule `file_location`: `URI_FILE`, `URI_PATH`, `URI_PATH_GLOB` or `URI_FOLDER`,
then `':'` and a string. -/
inductive file_location
  | URI_FILE (s : string)
  | URI_PATH (s : string)
  | URI_PATH_GLOB (s : string)
  | URI_FOLDER (s : string)
deriving DecidableEq

/-- Rule `file_detail`. -/
inductive file_detail
  | PARTITION_INDEX (n : number)
  | START (n : number)
  | LENGTH (n : number)
  | ORC
  | PARQUET
  | file_location (l : file_location)
deriving DecidableEq

/-- Rule `file`: `seq('{', repeat(file_detail), '}')`. -/
structure file where
  details : List file_detail
deriving DecidableEq

/-- Rule `local_files_detail`: `seq('ADVANCED_EXTENSION', identifier)` or
`seq('ITEMS', '=', '[', repeat(seq(file, optional(','))), ']')`. -/
inductive local_files_detail
  | ADVANCED_EXTENSION (id : identifier)
  | ITEMS (files : List (file × Bool))
deriving DecidableEq

/-- Rule `local_files`:
`seq('LOCAL_FILES', identifier, '{', repeat(local_files_detail), '}')`. -/
structure local_files where
  name : identifier
  details : List local_files_detail
deriving DecidableEq

/-- Rule `virtual_table`: `seq('VIRTUAL_TABLE', identifier, '{', '}')`. -/
structure virtual_table where
  name : identifier
deriving DecidableEq

/-- Rule `named_table_detail`: `seq('ADVANCED_EXTENSION', identifier)` or
`seq('NAMES', '=', '[', repeat(seq(string, optional(','))), ']')`. -/
inductive named_table_detail
  | ADVANCED_EXTENSION (id : identifier)
  | NAMES (names : List (string × Bool))
deriving DecidableEq

/-- Rule `named_table`:
`seq('NAMED_TABLE', identifier, '{', repeat(named_table_detail), '}')`. -/
structure named_table where
  name : identifier
  details : List named_table_detail
deriving DecidableEq

/-- Rule `extension_table`: `seq('EXTENSION_TABLE', identifier, '{', '}')`. -/
structure extension_table where
  name : identifier
deriving DecidableEq

/-- Rule `read_type`. -/
inductive read_type
  | local_files (t : local_files)
  | virtual_table (t : virtual_table)
  | named_table (t : named_table)
  | extension_table (t : extension_table)
deriving DecidableEq

/-- Rule `source_definition`: `seq('source', read_type)`. -/
structure source_definition where
  read : read_type
deriving DecidableEq

/-- Rule `relation_type`: `identifier`. -/
structure relation_type where
  id : identifier
deriving DecidableEq

/-- Rule `relation_filter_behavior`:
`choice(identifier, seq(identifier, '-', identifier), seq(identifier, identifier))`. -/
inductive relation_filter_behavior
  | one (a : identifier)
  | dashed (a b : identifier)
  | two (a b : identifier)
deriving DecidableEq

/-- Rule `source_reference`: `seq('SOURCE', identifier)`. -/
structure source_reference where
  id : identifier
deriving DecidableEq

/-- Rule `sort_field`:
`seq('SORT', expression, optional(seq('BY', identifier)), ';')`. -/
structure sort_field where
  e : expression
  by_ : Option identifier

/-- Rule `measure_detail`. -/
inductive measure_detail
  | MEASURE (e : expression) (result : Option type) (invocation : Option identifier)
      (named : Option identifier)
  | FILTER (e : expression)
  | INVOCATION (id : identifier)
  | sort_field (s : sort_field)

/-- Rule `relation_detail`: the choice of its twelve alternatives. -/
inductive relation_detail
  | COMMON
  | BASE_SCHEMA (id : identifier)
  | FILTER (behavior : Option relation_filter_behavior) (e : expression)
  | EXPRESSION (e : expression) (named : Option identifier)
  | ADVANCED_EXTENSION
  | source_reference (s : source_reference)
  | GROUPING (e : expression)
  | MEASURE (details : List measure_detail)
  | sort_field (s : sort_field)
  | COUNT (n : number)
  | TYPE (id : identifier)
  | EMIT (c : column_name)

/-- Rule `relation`:
`seq(relation_type, 'RELATION', relation_ref, '{', repeat(relation_detail), '}')`. -/
structure relation where
  relation_type : relation_type
  relation_ref : relation_ref
  details : List relation_detail

/-- Rule `root_relation`: `seq('ROOT', '{', 'NAMES', '=', '[', identifier,
repeat(seq(',', identifier)), optional(','), ']', '}')`. -/
structure root_relation where
  first : identifier
  rest : List identifier
  comma : Bool
deriving DecidableEq

/-- Rule `pipeline`: `choice(seq(pipeline, '->', relation_ref), relation_ref)`. -/
inductive pipeline
  | step (p : pipeline) (r : relation_ref)
  | relation_ref (r : relation_ref)
deriving DecidableEq

/-- Rule `pipelines`: `seq('PIPELINES', '{', repeat(seq(pipeline, ';')), '}')`. -/
structure pipelines where
  items : List pipeline
deriving DecidableEq

/-- Rule `signature`: `identifier`. -/
structure signature where
  id : identifier
deriving DecidableEq

/-- Rule `name`: `seq(identifier, optional(seq(':', optional(signature))))`. -/
structure name where
  id : identifier
  signature : Option (Option signature)
deriving DecidableEq

/-- Rule `function`: `seq('FUNCTION', name, optional(seq('AS', identifier)), ';')`. -/
structure function where
  name : name
  alias_ : Option identifier
deriving DecidableEq

/-- Rule `extension_space`:
`seq('EXTENSION_SPACE', optional(uri), '{', repeat(function), '}')`. -/
structure extension_space where
  uri : Option uri
  functions : List function
deriving DecidableEq

/-- Rule `plan_detail`: the choice of the six top-level blocks. -/
inductive plan_detail
  | pipelines (p : pipelines)
  | relation (r : relation)
  | root_relation (r : root_relation)
  | schema_definition (s : schema_definition)
  | source_definition (s : source_definition)
  | extension_space (e : extension_space)

/-- Rule `plan`, the entry point: `seq(repeat(plan_detail), optional(';'))`. -/
structure plan where
  details : List plan_detail
  semicolon : Bool

/-! ## Yields: the token sequence a tree derives -/

/-- Yield of `repeat(seq(',', x))`. -/
def commas {α : Type} (f : α → List Token) : List α → List Token
  | [] => []
  | x :: xs => Token.lit "," :: f x ++ commas f xs

/-- The one terminal an identifier consists of: a word matched by the pattern, or one of
the fourteen terminals listed in the rule. -/
def identifier.token : identifier → Token
  | .pattern s => Token.word s
  | .FILTER => Token.lit "FILTER"
  | .ROOT => Token.lit "ROOT"
  | .SOURCE => Token.lit "SOURCE"
  | .SCHEMA => Token.lit "SCHEMA"
  | .NULL => Token.lit "NULL"
  | .SORT => Token.lit "SORT"
  | .MEASURE => Token.lit "MEASURE"
  | .GROUPING => Token.lit "GROUPING"
  | .COUNT => Token.lit "COUNT"
  | .TYPE => Token.lit "TYPE"
  | .EMIT => Token.lit "EMIT"
  | .NAMED => Token.lit "NAMED"
  | .ALL => Token.lit "ALL"
  | .ANY => Token.lit "ANY"

/-- Yield of an identifier. -/
def identifier.yield (i : identifier) : List Token := [i.token]

/-- Yield of a number. -/
def number.yield (n : number) : List Token := [Token.number n.text]

/-- Yield of a string. -/
def string.yield (s : string) : List Token := [Token.string s.text]

/-- Yield of a uri. -/
def uri.yield (u : uri) : List Token := [Token.uri u.text]

/-- Yield of a type specifier. -/
def type_specifier.yield (t : type_specifier) : List Token :=
  Token.lit "<" :: t.first.yield ++ commas number.yield t.rest ++ [Token.lit ">"]

/-- Yield of a simple type. -/
def simple_type.yield (t : simple_type) : List Token :=
  t.name.yield ++ opt_lit t.nullable "?" ++ opt type_specifier.yield t.specifier

mutual
/-- Yield of a type. -/
def type.yield : type → List Token
  | .simple_type t => t.yield
  | .list_type t => t.yield
  | .map_type t => t.yield
  | .struct_type t => t.yield
/-- Yield of a list type. -/
def list_type.yield : list_type → List Token
  | .mk q e =>
    Token.lit "LIST" :: opt_lit q "?" ++ Token.lit "<" :: type.yield_opt e ++ [Token.lit ">"]
/-- Yield of a map type. -/
def map_type.yield : map_type → List Token
  | .mk q k c v =>
    Token.lit "MAP" :: opt_lit q "?" ++ Token.lit "<" :: opt simple_type.yield k
      ++ opt_lit c "," ++ type.yield_opt v ++ [Token.lit ">"]
/-- Yield of a struct type. -/
def struct_type.yield : struct_type → List Token
  | .mk q none => Token.lit "STRUCT" :: opt_lit q "?" ++ [Token.lit "<", Token.lit ">"]
  | .mk q (some (t, ts)) =>
    Token.lit "STRUCT" :: opt_lit q "?" ++ Token.lit "<" :: t.yield
      ++ type.yield_commas ts ++ [Token.lit ">"]
/-- Yield of `optional(type)`. -/
def type.yield_opt : Option type → List Token
  | none => []
  | some t => t.yield
/-- Yield of `repeat(seq(',', type))`. -/
def type.yield_commas : List type → List Token
  | [] => []
  | t :: ts => Token.lit "," :: t.yield ++ type.yield_commas ts
end

/-- Yield of `optional(seq('_', type))`. -/
def type_suffix (s : Option type) : List Token :=
  opt (fun t => Token.lit "_" :: t.yield) s

/-- Yield of `optional(seq('->', type))`. -/
def arrow_type (s : Option type) : List Token :=
  opt (fun t => Token.lit "->" :: t.yield) s

/-- Yield of `optional(seq('NAMED', identifier))`. -/
def named_clause (s : Option identifier) : List Token :=
  opt (fun i => Token.lit "NAMED" :: i.yield) s

/-- Yield of a relation reference. -/
def relation_ref.yield (r : relation_ref) : List Token :=
  r.name.yield
    ++ opt (fun s => Token.lit "(" :: Token.lit "SCHEMA" :: s.yield ++ [Token.lit ")"]) r.schema

/-- Yield of a column name. -/
def column_name.yield (c : column_name) : List Token :=
  opt (fun q => q.yield ++ [Token.lit "."]) c.qualifier ++ c.name.yield

/-- Yield of a column reference. -/
def column_reference.yield (c : column_reference) : List Token := c.name.yield

/-- Yield of a subquery expression. -/
def subquery_expression.yield (s : subquery_expression) : List Token :=
  Token.lit "SUBQUERY" :: s.ref.yield

/-- Yield of `choice('UNIQUE', 'EXISTS')`. -/
def set_predicate.yield : set_predicate → List Token
  | .UNIQUE => [Token.lit "UNIQUE"]
  | .EXISTS => [Token.lit "EXISTS"]

/-- Yield of a set predicate subquery. -/
def set_predicate_subquery.yield (s : set_predicate_subquery) : List Token :=
  s.predicate.yield ++ Token.lit "IN" :: Token.lit "SUBQUERY" :: s.ref.yield

/-- Yield of a comparison operator. -/
def comparison_operator.yield : comparison_operator → List Token
  | .EQ => [Token.lit "EQ"]
  | .NE => [Token.lit "NE"]
  | .LT => [Token.lit "LT"]
  | .GT => [Token.lit "GT"]
  | .LE => [Token.lit "LE"]
  | .GE => [Token.lit "GE"]

/-- Yield of `choice('ALL', 'ANY')`. -/
def set_quantifier.yield : set_quantifier → List Token
  | .ALL => [Token.lit "ALL"]
  | .ANY => [Token.lit "ANY"]

mutual
/-- Yield of a constant. -/
def constant.yield : constant → List Token
  | .number n s => n.yield ++ type_suffix s
  | .string t s => t.yield ++ type_suffix s
  | .map_literal m s => m.yield ++ type_suffix s
  | .struct_literal t s => t.yield ++ type_suffix s
  | .NULL s => Token.lit "NULL" :: type_suffix s
  | .TRUE s => Token.lit "TRUE" :: type_suffix s
  | .FALSE s => Token.lit "FALSE" :: type_suffix s
/-- Yield of a map literal. -/
def map_literal.yield : map_literal → List Token
  | .empty => [Token.lit "\x7b", Token.lit "\x7d"]
  | .entries e es => Token.lit "\x7b" :: e.yield ++ map_entry.yield_commas es ++ [Token.lit "\x7d"]
/-- Yield of a map entry. -/
def map_entry.yield : map_entry → List Token
  | .mk k v => k.yield ++ Token.lit ":" :: v.yield
/-- Yield of a struct literal. -/
def struct_literal.yield : struct_literal → List Token
  | .empty => [Token.lit "\x7b", Token.lit "\x7d"]
  | .fields c cs => Token.lit "\x7b" :: c.yield ++ constant.yield_commas cs ++ [Token.lit "\x7d"]
/-- Yield of `repeat(seq(',', map_entry))`. -/
def map_entry.yield_commas : List map_entry → List Token
  | [] => []
  | e :: es => Token.lit "," :: e.yield ++ map_entry.yield_commas es
/-- Yield of `repeat(seq(',', constant))`. -/
def constant.yield_commas : List constant → List Token
  | [] => []
  | c :: cs => Token.lit "," :: c.yield ++ constant.yield_commas cs
end

mutual
/-- Yield of an expression. -/
def expression.yield : expression → List Token
  | .function_call f => f.yield
  | .constant c => c.yield
  | .column_reference c => c.yield
  | .cast_expression c => c.yield
  | .subquery_expression s => s.yield
  | .in_predicate_subquery s => s.yield
  | .set_predicate_subquery s => s.yield
  | .set_comparison_subquery s => s.yield
/-- Yield of a function call. -/
def function_call.yield : function_call → List Token
  | .mk n none r => n.yield ++ Token.lit "(" :: Token.lit ")" :: arrow_type r
  | .mk n (some (e, es, c)) r =>
    n.yield ++ Token.lit "(" :: e.yield ++ expression.yield_commas es ++ opt_lit c ","
      ++ Token.lit ")" :: arrow_type r
/-- Yield of a cast. -/
def cast_expression.yield : cast_expression → List Token
  | .mk e t => e.yield ++ Token.lit "AS" :: t.yield
/-- Yield of an IN predicate. -/
def in_predicate_subquery.yield : in_predicate_subquery → List Token
  | .mk l r => l.yield ++ Token.lit "IN" :: Token.lit "SUBQUERY" :: r.yield
/-- Yield of an expression list. -/
def expression_list.yield : expression_list → List Token
  | .mk e es => Token.lit "(" :: e.yield ++ expression.yield_commas es ++ [Token.lit ")"]
/-- Yield of a set comparison. -/
def set_comparison_subquery.yield : set_comparison_subquery → List Token
  | .mk e op q r => e.yield ++ op.yield ++ q.yield ++ Token.lit "SUBQUERY" :: r.yield
/-- Yield of `repeat(seq(',', expression))`. -/
def expression.yield_commas : List expression → List Token
  | [] => []
  | e :: es => Token.lit "," :: e.yield ++ expression.yield_commas es
end

/-- Yield of a schema item. -/
def schema_item.yield (i : schema_item) : List Token :=
  i.name.yield ++ i.ty.yield ++ named_clause i.named ++ [Token.lit ";"]

/-- Yield of a schema definition. -/
def schema_definition.yield (s : schema_definition) : List Token :=
  Token.lit "schema" :: s.name.yield ++ Token.lit "\x7b" :: rep schema_item.yield s.items
    ++ [Token.lit "\x7d"]

/-- Yield of a file location. -/
def file_location.yield : file_location → List Token
  | .URI_FILE s => Token.lit "URI_FILE" :: Token.lit ":" :: s.yield
  | .URI_PATH s => Token.lit "URI_PATH" :: Token.lit ":" :: s.yield
  | .URI_PATH_GLOB s => Token.lit "URI_PATH_GLOB" :: Token.lit ":" :: s.yield
  | .URI_FOLDER s => Token.lit "URI_FOLDER" :: Token.lit ":" :: s.yield

/-- Yield of a file detail. -/
def file_detail.yield : file_detail → List Token
  | .PARTITION_INDEX n => Token.lit "PARTITION_INDEX" :: Token.lit ":" :: n.yield
  | .START n => Token.lit "START" :: Token.lit ":" :: n.yield
  | .LENGTH n => Token.lit "LENGTH" :: Token.lit ":" :: n.yield
  | .ORC => [Token.lit "ORC", Token.lit ":", Token.lit "\x7b", Token.lit "\x7d"]
  | .PARQUET => [Token.lit "PARQUET", Token.lit ":", Token.lit "\x7b", Token.lit "\x7d"]
  | .file_location l => l.yield

/-- Yield of a file. -/
def file.yield (f : file) : List Token :=
  Token.lit "\x7b" :: rep file_detail.yield f.details ++ [Token.lit "\x7d"]

/-- Yield of a detail of `LOCAL_FILES`. -/
def local_files_detail.yield : local_files_detail → List Token
  | .ADVANCED_EXTENSION i => Token.lit "ADVANCED_EXTENSION" :: i.yield
  | .ITEMS fs =>
    Token.lit "ITEMS" :: Token.lit "=" :: Token.lit "["
      :: rep (fun fc => fc.1.yield ++ opt_lit fc.2 ",") fs ++ [Token.lit "]"]

/-- Yield of a `LOCAL_FILES` source. -/
def local_files.yield (t : local_files) : List Token :=
  Token.lit "LOCAL_FILES" :: t.name.yield ++ Token.lit "\x7b"
    :: rep local_files_detail.yield t.details ++ [Token.lit "\x7d"]

/-- Yield of a `VIRTUAL_TABLE` source. -/
def virtual_table.yield (t : virtual_table) : List Token :=
  Token.lit "VIRTUAL_TABLE" :: t.name.yield ++ [Token.lit "\x7b", Token.lit "\x7d"]

/-- Yield of a detail of `NAMED_TABLE`. -/
def named_table_detail.yield : named_table_detail → List Token
  | .ADVANCED_EXTENSION i => Token.lit "ADVANCED_EXTENSION" :: i.yield
  | .NAMES ns =>
    Token.lit "NAMES" :: Token.lit "=" :: Token.lit "["
      :: rep (fun sc => sc.1.yield ++ opt_lit sc.2 ",") ns ++ [Token.lit "]"]

/-- Yield of a `NAMED_TABLE` source. -/
def named_table.yield (t : named_table) : List Token :=
  Token.lit "NAMED_TABLE" :: t.name.yield ++ Token.lit "\x7b"
    :: rep named_table_detail.yield t.details ++ [Token.lit "\x7d"]

/-- Yield of an `EXTENSION_TABLE` source. -/
def extension_table.yield (t : extension_table) : List Token :=
  Token.lit "EXTENSION_TABLE" :: t.name.yield ++ [Token.lit "\x7b", Token.lit "\x7d"]

/-- Yield of a read type. -/
def read_type.yield : read_type → List Token
  | .local_files t => t.yield
  | .virtual_table t => t.yield
  | .named_table t => t.yield
  | .extension_table t => t.yield

/-- Yield of a source definition. -/
def source_definition.yield (s : source_definition) : List Token :=
  Token.lit "source" :: s.read.yield

/-- Yield of a relation type. -/
def relation_type.yield (t : relation_type) : List Token := t.id.yield

/-- Yield of a filter behavior. -/
def relation_filter_behavior.yield : relation_filter_behavior → List Token
  | .one a => a.yield
  | .dashed a b => a.yield ++ Token.lit "-" :: b.yield
  | .two a b => a.yield ++ b.yield

/-- Yield of a source reference. -/
def source_reference.yield (s : source_reference) : List Token :=
  Token.lit "SOURCE" :: s.id.yield

/-- Yield of a sort field. -/
def sort_field.yield (s : sort_field) : List Token :=
  Token.lit "SORT" :: s.e.yield ++ opt (fun i => Token.lit "BY" :: i.yield) s.by_
    ++ [Token.lit ";"]

/-- Yield of a measure detail. -/
def measure_detail.yield : measure_detail → List Token
  | .MEASURE e r i n =>
    Token.lit "MEASURE" :: e.yield ++ arrow_type r
      ++ opt (fun i => Token.lit "@" :: i.yield) i ++ named_clause n ++ [Token.lit ";"]
  | .FILTER e => Token.lit "FILTER" :: e.yield ++ [Token.lit ";"]
  | .INVOCATION i => Token.lit "INVOCATION" :: i.yield ++ [Token.lit ";"]
  | .sort_field s => s.yield

/-- Yield of a relation detail. -/
def relation_detail.yield : relation_detail → List Token
  | .COMMON => [Token.lit "COMMON", Token.lit ";"]
  | .BASE_SCHEMA i => Token.lit "BASE_SCHEMA" :: i.yield ++ [Token.lit ";"]
  | .FILTER b e =>
    opt relation_filter_behavior.yield b ++ Token.lit "FILTER" :: e.yield ++ [Token.lit ";"]
  | .EXPRESSION e n => Token.lit "EXPRESSION" :: e.yield ++ named_clause n ++ [Token.lit ";"]
  | .ADVANCED_EXTENSION => [Token.lit "ADVANCED_EXTENSION", Token.lit ";"]
  | .source_reference s => s.yield ++ [Token.lit ";"]
  | .GROUPING e => Token.lit "GROUPING" :: e.yield ++ [Token.lit ";"]
  | .MEASURE ds =>
    Token.lit "MEASURE" :: Token.lit "\x7b" :: rep measure_detail.yield ds ++ [Token.lit "\x7d"]
  | .sort_field s => s.yield
  | .COUNT n => Token.lit "COUNT" :: n.yield ++ [Token.lit ";"]
  | .TYPE i => Token.lit "TYPE" :: i.yield ++ [Token.lit ";"]
  | .EMIT c => Token.lit "EMIT" :: c.yield ++ [Token.lit ";"]

/-- Yield of a relation. -/
def relation.yield (r : relation) : List Token :=
  r.relation_type.yield ++ Token.lit "RELATION" :: r.relation_ref.yield
    ++ Token.lit "\x7b" :: rep relation_detail.yield r.details ++ [Token.lit "\x7d"]

/-- Yield of the root relation. -/
def root_relation.yield (r : root_relation) : List Token :=
  Token.lit "ROOT" :: Token.lit "\x7b" :: Token.lit "NAMES" :: Token.lit "=" :: Token.lit "["
    :: r.first.yield ++ commas identifier.yield r.rest ++ opt_lit r.comma ","
    ++ [Token.lit "]", Token.lit "\x7d"]

/-- Yield of a pipeline. -/
def pipeline.yield : pipeline → List Token
  | .step p r => p.yield ++ Token.lit "->" :: r.yield
  | .relation_ref r => r.yield

/-- Yield of the pipelines block. -/
def pipelines.yield (p : pipelines) : List Token :=
  Token.lit "PIPELINES" :: Token.lit "\x7b" :: rep (fun q => q.yield ++ [Token.lit ";"]) p.items
    ++ [Token.lit "\x7d"]

/-- Yield of a signature. -/
def signature.yield (s : signature) : List Token := s.id.yield

/-- Yield of a function name. -/
def name.yield (n : name) : List Token :=
  n.id.yield ++ opt (fun s => Token.lit ":" :: opt signature.yield s) n.signature

/-- Yield of a function declaration. -/
def function.yield (f : function) : List Token :=
  Token.lit "FUNCTION" :: f.name.yield ++ opt (fun i => Token.lit "AS" :: i.yield) f.alias_
    ++ [Token.lit ";"]

/-- Yield of an extension space. -/
def extension_space.yield (e : extension_space) : List Token :=
  Token.lit "EXTENSION_SPACE" :: opt uri.yield e.uri ++ Token.lit "\x7b"
    :: rep function.yield e.functions ++ [Token.lit "\x7d"]

/-- Yield of a plan detail. -/
def plan_detail.yield : plan_detail → List Token
  | .pipelines p => p.yield
  | .relation r => r.yield
  | .root_relation r => r.yield
  | .schema_definition s => s.yield
  | .source_definition s => s.yield
  | .extension_space e => e.yield

/-- Yield of a plan. -/
def plan.yield (p : plan) : List Token :=
  rep plan_detail.yield p.details ++ opt_lit p.semicolon ";"

/-! ## Derived notions used by the statements -/

/-- The fourteen words listed in the `identifier` rule. -/
def reserved_words : List String :=
  ["FILTER", "ROOT", "SOURCE", "SCHEMA", "NULL", "SORT", "MEASURE", "GROUPING", "COUNT",
   "TYPE", "EMIT", "NAMED", "ALL", "ANY"]

/-- The terminals that `identifier` accepts. -/
def Token.is_identifier : Token → Bool
  | .word _ => true
  | .lit s => reserved_words.contains s
  | _ => false

/-- The left-recursive alternatives of `expression` put a suffix behind an expression:
`AS type` (cast_expression) or `comparison_operator (ALL|ANY) SUBQUERY relation_ref`
(set_comparison_subquery). -/
inductive expression_suffix
  | cast (target : type)
  | set_comparison (op : comparison_operator) (quantifier : set_quantifier) (ref : relation_ref)

/-- Yield of a suffix. -/
def expression_suffix.yield : expression_suffix → List Token
  | .cast t => Token.lit "AS" :: t.yield
  | .set_comparison op q r => op.yield ++ q.yield ++ Token.lit "SUBQUERY" :: r.yield

/-- Put a suffix behind an expression. -/
def expression_suffix.apply (e : expression) : expression_suffix → expression
  | .cast t => .cast_expression (.mk e t)
  | .set_comparison op q r => .set_comparison_subquery (.mk e op q r)

/-- The leftmost primary of an expression: follow the operand of every cast and set
comparison down to the first expression that is neither. -/
def expression.leftmost : expression → expression
  | .cast_expression (.mk e _) => e.leftmost
  | .set_comparison_subquery (.mk e _ _ _) => e.leftmost
  | .function_call f => .function_call f
  | .constant c => .constant c
  | .column_reference c => .column_reference c
  | .subquery_expression s => .subquery_expression s
  | .in_predicate_subquery s => .in_predicate_subquery s
  | .set_predicate_subquery s => .set_predicate_subquery s

/-- The suffixes behind the leftmost primary, in source order. -/
def expression.suffixes : expression → List expression_suffix
  | .cast_expression (.mk e t) => e.suffixes ++ [.cast t]
  | .set_comparison_subquery (.mk e op q r) => e.suffixes ++ [.set_comparison op q r]
  | .function_call _ => []
  | .constant _ => []
  | .column_reference _ => []
  | .subquery_expression _ => []
  | .in_predicate_subquery _ => []
  | .set_predicate_subquery _ => []

/-- An expression that is not a cast and not a set comparison. -/
def expression.is_primary : expression → Bool
  | .cast_expression _ => false
  | .set_comparison_subquery _ => false
  | _ => true

/-- The terminals an expression can begin with. -/
def Token.starts_expression : Token → Bool
  | .word _ => true
  | .number _ => true
  | .string _ => true
  | .lit s =>
    reserved_words.contains s
      || ["\x7b", "TRUE", "FALSE", "SUBQUERY", "(", "UNIQUE", "EXISTS"].contains s
  | .uri _ => false

/-- The terminals an expression suffix begins with: `AS` or a comparison operator. -/
def Token.starts_suffix : Token → Bool
  | .lit s => ["AS", "EQ", "NE", "LT", "GT", "LE", "GE"].contains s
  | _ => false

/-- The relation references of a pipeline, in source order. -/
def pipeline.refs : pipeline → List Substrait.relation_ref
  | .step p r => p.refs ++ [r]
  | .relation_ref r => [r]

/-- The iterative form of the spec, `relation_ref ('->' relation_ref)*`: its token
sequence, for a first reference and the references behind the arrows. -/
def pipeline_iterative (first : relation_ref) (rest : List relation_ref) : List Token :=
  first.yield ++ rep (fun r => Token.lit "->" :: r.yield) rest

/-- The left-nested pipeline tree over a first reference and the references behind the
arrows: every arrow takes all that stands to its left as its operand. -/
def pipeline.left_nested (first : Substrait.relation_ref)
    (rest : List Substrait.relation_ref) : pipeline :=
  rest.foldl pipeline.step (pipeline.relation_ref first)

/-- The six alternatives of `plan_detail`. -/
inductive plan_detail_kind
  | pipelines
  | relation
  | root_relation
  | schema_definition
  | source_definition
  | extension_space
deriving DecidableEq

/-- Which alternative of `plan_detail` a tree is. -/
def plan_detail.kind : plan_detail → plan_detail_kind
  | .pipelines _ => .pipelines
  | .relation _ => .relation
  | .root_relation _ => .root_relation
  | .schema_definition _ => .schema_definition
  | .source_definition _ => .source_definition
  | .extension_space _ => .extension_space

/-- Dispatch on the first two tokens, as the spec words it: `PIPELINES`; an identifier
followed by `RELATION`; `ROOT` followed by `{`; `schema`; `source`; `EXTENSION_SPACE`. -/
def dispatch (t₁ t₂ : Token) : Option plan_detail_kind :=
  if t₁ = Token.lit "PIPELINES" then some .pipelines
  else if t₁.is_identifier = true ∧ t₂ = Token.lit "RELATION" then some .relation
  else if t₁ = Token.lit "ROOT" ∧ t₂ = Token.lit "\x7b" then some .root_relation
  else if t₁ = Token.lit "schema" then some .schema_definition
  else if t₁ = Token.lit "source" then some .source_definition
  else if t₁ = Token.lit "EXTENSION_SPACE" then some .extension_space
  else none

/-- The terminals that can occur in the yield of a type. -/
def Token.in_type : Token → Bool
  | .word _ => true
  | .number _ => true
  | .lit s => reserved_words.contains s || ["?", "<", ">", ",", "LIST", "MAP", "STRUCT"].contains s
  | _ => false

/-- What a token adds to the brace depth: `{` opens, `}` closes. -/
def Token.depth_change : Token → Int
  | .lit s => if s = "\x7b" then 1 else if s = "\x7d" then -1 else 0
  | _ => 0

/-- Brace depth reached at the end of a token sequence that starts at depth 0. -/
def brace_depth (l : List Token) : Int := (l.map Token.depth_change).sum

/-- Every `:` of the sequence stands inside braces when the sequence starts at depth `d`:
the depth just before it is at least 1. -/
def colons_nested (d : Int) (l : List Token) : Prop :=
  ∀ u v, l = u ++ Token.lit ":" :: v → 1 ≤ d + brace_depth u

/-! ## Derived notions for types -/

/-- The four alternatives of `type`. -/
inductive type_kind
  | simple_type
  | list_type
  | map_type
  | struct_type
deriving DecidableEq

/-- Which alternative of `type` a tree is. -/
def type.kind : type → type_kind
  | .simple_type _ => .simple_type
  | .list_type _ => .list_type
  | .map_type _ => .map_type
  | .struct_type _ => .struct_type

/-- Dispatch on the leading token, as the spec words it: `LIST`, `MAP` and `STRUCT` anchor
their alternatives, anything else falls through to simple_type. -/
def type_dispatch (t : Token) : type_kind :=
  if t = Token.lit "LIST" then .list_type
  else if t = Token.lit "MAP" then .map_type
  else if t = Token.lit "STRUCT" then .struct_type
  else .simple_type

/-- The output column names of a root relation, in source order. -/
def root_relation.names (r : root_relation) : List identifier := r.first :: r.rest

/-! ## The lexical rules in the words of the spec -/

/-- One or more decimal digits. -/
def is_digits (s : List Char) : Prop := s ≠ [] ∧ ∀ c ∈ s, Regex.digit c = true

/-- An optional sign: nothing, `+` or `-`. -/
def is_sign (s : List Char) : Prop := s = [] ∨ s = ['+'] ∨ s = ['-']

/-- A number in the words of the spec: an optional sign, one or more digits, an optional
fractional part (`.` and one or more digits) and an optional exponent (`e` or `E`, an
optional sign, one or more digits). -/
def is_number (s : List Char) : Prop :=
  ∃ sign int frac exp, s = sign ++ int ++ frac ++ exp ∧ is_sign sign ∧ is_digits int ∧
    (frac = [] ∨ ∃ ds, frac = '.' :: ds ∧ is_digits ds) ∧
    (exp = [] ∨ ∃ e sg ds, exp = e :: (sg ++ ds) ∧ (e = 'e' ∨ e = 'E') ∧ is_sign sg ∧
      is_digits ds)

/-- Rule `comment`: `seq('//', /[^\r\n]*/, choice('\r\n', '\n', '\r'))`. -/
def comment_pattern : Regex :=
  Regex.seq (Regex.str "//")
    (Regex.seq (Regex.star (Regex.cls (fun c => c != '\r' && c != '\n')))
      (Regex.choice (Regex.str "\r\n") (Regex.choice (Regex.str "\n") (Regex.str "\r"))))

/-- A line break: LF, CRLF or CR. -/
def is_line_break (t : List Char) : Prop := t = ['\n'] ∨ t = ['\r', '\n'] ∨ t = ['\r']

/-- The text holds no CR and no LF. -/
def no_line_break (s : List Char) : Prop := ∀ c ∈ s, c ≠ '\r' ∧ c ≠ '\n'

/-- A line terminator, which `.` does not match: LF, CR, U+2028 or U+2029. -/
def is_line_terminator (c : Char) : Bool :=
  c.toNat == 10 || c.toNat == 13 || c.toNat == 0x2028 || c.toNat == 0x2029

/-- The body of a double-quoted string in the words of the spec: a sequence of characters
other than `"` and `\` and of two-character escapes, `\` and a character that `esc`
admits. -/
inductive quoted_body (esc : Char → Bool) : List Char → Prop
  | nil : quoted_body esc []
  | plain (c : Char) (rest : List Char) :
    c ≠ '"' → c ≠ '\\' → quoted_body esc rest → quoted_body esc (c :: rest)
  | escape (c : Char) (rest : List Char) :
    esc c = true → quoted_body esc rest → quoted_body esc ('\\' :: c :: rest)

/-- An identifier in the words of the spec: an ASCII letter, then ASCII letters, digits or
`$`. -/
def is_identifier_text (s : List Char) : Prop :=
  ∃ c rest, s = c :: rest ∧ Regex.letter c = true ∧
    ∀ d ∈ rest, Regex.letter d = true ∨ Regex.digit d = true ∨ d = '$'

/-- The characters of a token. -/
def Token.text : Token → List Char
  | .lit s => s.toList
  | .word s => s.toList
  | .number s => s.toList
  | .string s => s.toList
  | .uri s => s.toList

/-- The characters of a token sequence written without blanks. -/
def Token.texts : List Token → List Char
  | [] => []
  | t :: ts => t.text ++ Token.texts ts

/-! ## The parser with error recovery

The source is the grammar alone; the Grammar Engine and the Error/Recovery Controller that
the spec describes (4.2, 4.4) are modelled here for rule `schema_definition`: a
recursive-descent parser for `schema_item` and its types that follows the rules of the
grammar, and the recovery inside the braces of the schema. -/

/-- Modelled from the spec: a Diagnostic of spec 3 and 4.2.  The repository holds the grammar
only, the parser with its error recovery is not under src/.  A Diagnostic names the expected
construct and the found token (`none` at the end of the input) and carries its span, the
tokens of the error node; severity and message text are left out. -/
structure Diagnostic where
  expected : String
  found : Option Token
  span : List Token
deriving DecidableEq

/-- Modelled from the spec: a child of a `{ ... }` body in a tree with error nodes (spec
4.2), a matched item or a placeholder error node over the skipped tokens. -/
inductive body_node (α : Type)
  | matched (item : α)
  | error (skipped : List Token)

/-- Modelled from the spec: the Grammar Engine (spec 4.2) matching a fixed terminal at the
current position; a mismatch names the expected terminal and the found token. -/
def expect_lit (s : String) : List Token → Except Diagnostic (List Token)
  | [] => .error ⟨s, none, []⟩
  | t :: ts => if t = Token.lit s then .ok ts else .error ⟨s, some t, []⟩

/-- Modelled from the spec: the Grammar Engine on an optional fixed terminal,
`optional('x')`, with one token of lookahead. -/
def accept_lit (s : String) : List Token → Bool × List Token
  | [] => (false, [])
  | t :: ts => if t = Token.lit s then (true, ts) else (false, t :: ts)

/-- The fourteen words listed in rule `identifier`. -/
def identifier.listed : List identifier :=
  [.FILTER, .ROOT, .SOURCE, .SCHEMA, .NULL, .SORT, .MEASURE, .GROUPING, .COUNT, .TYPE, .EMIT,
   .NAMED, .ALL, .ANY]

/-- The identifier that a token is, if any: the inverse of `identifier.token`. -/
def identifier.of_token : Token → Option identifier
  | .word s => some (.pattern s)
  | t => identifier.listed.find? (fun i => i.token == t)

/-- Modelled from the spec: the Grammar Engine on rule `identifier` at the current
position. -/
def identifier.parse : List Token → Except Diagnostic (identifier × List Token)
  | [] => .error ⟨"identifier", none, []⟩
  | t :: ts =>
    match identifier.of_token t with
    | some i => .ok (i, ts)
    | none => .error ⟨"identifier", some t, []⟩

/-- Modelled from the spec: the Grammar Engine on rule `number` at the current position. -/
def number.parse : List Token → Except Diagnostic (number × List Token)
  | Token.number s :: ts => .ok (⟨s⟩, ts)
  | t :: _ => .error ⟨"number", some t, []⟩
  | [] => .error ⟨"number", none, []⟩

/-- Modelled from the spec: the Grammar Engine on the `repeat(seq(',', number))` of
`type_specifier`. -/
def number.parse_commas : List Token → List number × List Token
  | t :: Token.number s :: ts =>
    if t = Token.lit "," then
      ((⟨s⟩ : number) :: (number.parse_commas ts).1, (number.parse_commas ts).2)
    else ([], t :: Token.number s :: ts)
  | ts => ([], ts)

/-- Modelled from the spec: the Grammar Engine on rule `type_specifier`:
`seq('<', number, repeat(seq(',', number)), '>')`. -/
def type_specifier.parse (ts : List Token) : Except Diagnostic (type_specifier × List Token) :=
  match expect_lit "<" ts with
  | .error d => .error d
  | .ok ts₁ =>
    match number.parse ts₁ with
    | .error d => .error d
    | .ok (n, ts₂) =>
      match expect_lit ">" (number.parse_commas ts₂).2 with
      | .error d => .error d
      | .ok ts₃ => .ok (⟨n, (number.parse_commas ts₂).1⟩, ts₃)

/-- Modelled from the spec: the Grammar Engine on rule `simple_type`:
`seq(identifier, optional('?'), optional(type_specifier))`; a type_specifier that does not
match is taken as absent (local backtracking). -/
def simple_type.parse (ts : List Token) : Except Diagnostic (simple_type × List Token) :=
  match identifier.parse ts with
  | .error d => .error d
  | .ok (i, ts₁) =>
    match type_specifier.parse (accept_lit "?" ts₁).2 with
    | .ok (s, ts₂) => .ok (⟨i, (accept_lit "?" ts₁).1, some s⟩, ts₂)
    | .error _ => .ok (⟨i, (accept_lit "?" ts₁).1, none⟩, (accept_lit "?" ts₁).2)

mutual
/-- Modelled from the spec: the Grammar Engine on rule `type`, anchored on the leading
keyword (`LIST`, `MAP`, `STRUCT`, else simple_type; spec 4.2); an optional part that does
not match is taken as absent.  The first argument bounds the nesting depth. -/
def type.parse : Nat → List Token → Except Diagnostic (type × List Token)
  | 0, ts => .error ⟨"type", ts.head?, []⟩
  | _ + 1, [] => .error ⟨"type", none, []⟩
  | n + 1, t :: ts =>
    if t = Token.lit "LIST" then
      match expect_lit "<" (accept_lit "?" ts).2 with
      | .error d => .error d
      | .ok ts₁ =>
        match expect_lit ">" (type.parse_opt n ts₁).2 with
        | .error d => .error d
        | .ok ts₂ => .ok (.list_type (.mk (accept_lit "?" ts).1 (type.parse_opt n ts₁).1), ts₂)
    else if t = Token.lit "MAP" then
      match expect_lit "<" (accept_lit "?" ts).2 with
      | .error d => .error d
      | .ok ts₁ =>
        match simple_type.parse ts₁ with
        | .ok (k, ts₂) =>
          match expect_lit ">" (type.parse_opt n (accept_lit "," ts₂).2).2 with
          | .error d => .error d
          | .ok ts₃ =>
            .ok (.map_type (.mk (accept_lit "?" ts).1 (some k) (accept_lit "," ts₂).1
              (type.parse_opt n (accept_lit "," ts₂).2).1), ts₃)
        | .error _ =>
          match expect_lit ">" (type.parse_opt n (accept_lit "," ts₁).2).2 with
          | .error d => .error d
          | .ok ts₃ =>
            .ok (.map_type (.mk (accept_lit "?" ts).1 none (accept_lit "," ts₁).1
              (type.parse_opt n (accept_lit "," ts₁).2).1), ts₃)
    else if t = Token.lit "STRUCT" then
      match expect_lit "<" (accept_lit "?" ts).2 with
      | .error d => .error d
      | .ok ts₁ =>
        match type.parse n ts₁ with
        | .ok (f, ts₂) =>
          match expect_lit ">" (type.parse_commas n ts₂).2 with
          | .error d => .error d
          | .ok ts₃ =>
            .ok (.struct_type (.mk (accept_lit "?" ts).1
              (some (f, (type.parse_commas n ts₂).1))), ts₃)
        | .error _ =>
          match expect_lit ">" ts₁ with
          | .error d => .error d
          | .ok ts₃ => .ok (.struct_type (.mk (accept_lit "?" ts).1 none), ts₃)
    else
      match simple_type.parse (t :: ts) with
      | .ok (s, ts₁) => .ok (.simple_type s, ts₁)
      | .error _ => .error ⟨"type", some t, []⟩
/-- Modelled from the spec: the Grammar Engine on the `optional(type)` of the type rules. -/
def type.parse_opt : Nat → List Token → Option type × List Token
  | 0, ts => (none, ts)
  | n + 1, ts =>
    match type.parse n ts with
    | .ok (t, ts₁) => (some t, ts₁)
    | .error _ => (none, ts)
/-- Modelled from the spec: the Grammar Engine on the `repeat(seq(',', type))` of
`struct_type`. -/
def type.parse_commas : Nat → List Token → List type × List Token
  | 0, ts => ([], ts)
  | _ + 1, [] => ([], [])
  | n + 1, t :: ts =>
    if t = Token.lit "," then
      match type.parse n ts with
      | .ok (x, ts₁) => (x :: (type.parse_commas n ts₁).1, (type.parse_commas n ts₁).2)
      | .error _ => ([], t :: ts)
    else ([], t :: ts)
end

/-- Modelled from the spec: the Grammar Engine on rule `schema_item`:
`seq(identifier, type, optional(seq('NAMED', identifier)), ';')`. -/
def schema_item.parse (ts : List Token) : Except Diagnostic (schema_item × List Token) :=
  match identifier.parse ts with
  | .error d => .error d
  | .ok (i, ts₁) =>
    match type.parse (ts₁.length + 1) ts₁ with
    | .error d => .error d
    | .ok (ty, ts₂) =>
      if (accept_lit "NAMED" ts₂).1 then
        match identifier.parse (accept_lit "NAMED" ts₂).2 with
        | .error d => .error d
        | .ok (a, ts₃) =>
          match expect_lit ";" ts₃ with
          | .error d => .error d
          | .ok ts₄ => .ok (⟨i, ty, some a⟩, ts₄)
      else
        match expect_lit ";" ts₂ with
        | .error d => .error d
        | .ok ts₄ => .ok (⟨i, ty, none⟩, ts₄)

/-- Modelled from the spec: the error node spans up to the next recovery token (spec 4.2);
inside a body that is the next top-level `;`, which the error node takes in, or the closing
brace of the body, which is left for the enclosing rule (spec 4.4); the first argument is
the depth in nested braces.  Returns the skipped tokens and the rest. -/
def skip_to_recovery : Nat → List Token → List Token × List Token
  | _, [] => ([], [])
  | 0, t :: ts =>
    if t = Token.lit "\x7d" then ([], t :: ts)
    else if t = Token.lit ";" then ([t], ts)
    else if t = Token.lit "\x7b" then
      (t :: (skip_to_recovery 1 ts).1, (skip_to_recovery 1 ts).2)
    else (t :: (skip_to_recovery 0 ts).1, (skip_to_recovery 0 ts).2)
  | d + 1, t :: ts =>
    if t = Token.lit "\x7d" then (t :: (skip_to_recovery d ts).1, (skip_to_recovery d ts).2)
    else if t = Token.lit "\x7b" then
      (t :: (skip_to_recovery (d + 2) ts).1, (skip_to_recovery (d + 2) ts).2)
    else (t :: (skip_to_recovery (d + 1) ts).1, (skip_to_recovery (d + 1) ts).2)

/-- Modelled from the spec: the result of the recovering parse of a body, its nodes, its
Diagnostics in source order, and the tokens left. -/
structure body_result (α : Type) where
  nodes : List (body_node α)
  diagnostics : List Diagnostic
  rest : List Token

/-- Modelled from the spec: the Error/Recovery Controller inside a `{ ... }` body (spec 4.2
failure semantics, 4.4).  Items are matched one after the other up to the closing brace or
the end of the input; an item that cannot match at the current position emits a Diagnostic
naming the expected construct and the found token, leaves an error node spanning up to the
recovery token, and the body is resumed there.  The first argument bounds the number of
nodes. -/
def recover_body {α : Type} (item : List Token → Except Diagnostic (α × List Token)) :
    Nat → List Token → body_result α
  | 0, ts => ⟨[], [], ts⟩
  | _ + 1, [] => ⟨[], [], []⟩
  | n + 1, t :: ts =>
    if t = Token.lit "\x7d" then ⟨[], [], t :: ts⟩
    else
      match item (t :: ts) with
      | .ok (i, ts₁) =>
        ⟨.matched i :: (recover_body item n ts₁).nodes,
          (recover_body item n ts₁).diagnostics, (recover_body item n ts₁).rest⟩
      | .error d =>
        ⟨.error (skip_to_recovery 0 (t :: ts)).1
            :: (recover_body item n (skip_to_recovery 0 (t :: ts)).2).nodes,
          ⟨d.expected, d.found, (skip_to_recovery 0 (t :: ts)).1⟩
            :: (recover_body item n (skip_to_recovery 0 (t :: ts)).2).diagnostics,
          (recover_body item n (skip_to_recovery 0 (t :: ts)).2).rest⟩

/-- Modelled from the spec: a schema_definition node of a tree with error nodes. -/
structure recovered_schema where
  name : identifier
  body : List (body_node schema_item)
  closed : Bool

/-- Modelled from the spec: the parse of rule `schema_definition` with error recovery in
its body.  A missing closing brace at the end of the input is reported by one more
Diagnostic (spec 7).  Fails when the head `schema identifier {` does not match, which the
enclosing top level would recover from. -/
def schema_definition.parse_recovering (ts : List Token) :
    Except Diagnostic (recovered_schema × List Diagnostic × List Token) :=
  match expect_lit "schema" ts with
  | .error d => .error d
  | .ok ts₁ =>
    match identifier.parse ts₁ with
    | .error d => .error d
    | .ok (n, ts₂) =>
      match expect_lit "\x7b" ts₂ with
      | .error d => .error d
      | .ok ts₃ =>
        match expect_lit "\x7d" (recover_body schema_item.parse ts₃.length ts₃).rest with
        | .ok ts₄ =>
          .ok (⟨n, (recover_body schema_item.parse ts₃.length ts₃).nodes, true⟩,
            (recover_body schema_item.parse ts₃.length ts₃).diagnostics, ts₄)
        | .error d =>
          .ok (⟨n, (recover_body schema_item.parse ts₃.length ts₃).nodes, false⟩,
            (recover_body schema_item.parse ts₃.length ts₃).diagnostics ++ [d],
            (recover_body schema_item.parse ts₃.length ts₃).rest)

/-- The tokens that a node of a body covers. -/
def body_node.tokens {α : Type} (f : α → List Token) : body_node α → List Token
  | .matched i => f i
  | .error skipped => skipped

/-- Whether a node of a body is an error node. -/
def body_node.is_error {α : Type} : body_node α → Bool
  | .matched _ => false
  | .error _ => true

/-- The tokens that a schema_definition node with error nodes covers. -/
def recovered_schema.tokens (r : recovered_schema) : List Token :=
  Token.lit "schema" :: r.name.token :: Token.lit "\x7b"
    :: rep (body_node.tokens schema_item.yield) r.body ++ opt_lit r.closed "\x7d"

/-- The number of error nodes of a schema_definition node. -/
def recovered_schema.errors (r : recovered_schema) : Nat :=
  (r.body.filter body_node.is_error).length

/-! ## Basic facts about yields -/

theorem rep_append {α : Type} (f : α → List Token) (xs ys : List α) :
    rep f (xs ++ ys) = rep f xs ++ rep f ys := by
  induction xs with
  | nil => rfl
  | cons x xs ih => simp [rep, ih]

theorem identifier.token_is_identifier (i : identifier) : i.token.is_identifier = true := by
  cases i <;> rfl

theorem identifier.token_injective {i j : identifier} (h : i.token = j.token) : i = j := by
  cases i <;> cases j <;> simp_all [identifier.token]

theorem identifier.token_ne (i : identifier) {t : Token} (h : t.is_identifier = false) :
    i.token ≠ t := by
  intro e
  rw [← e, identifier.token_is_identifier] at h
  exact Bool.noConfusion h

theorem expression.yield_eq_leftmost : ∀ e : expression,
    e.yield = e.leftmost.yield ++ rep expression_suffix.yield e.suffixes
  | .cast_expression (.mk e t) => by
    simp [expression.yield, cast_expression.yield, expression.leftmost, expression.suffixes,
      expression.yield_eq_leftmost e, rep_append, rep, expression_suffix.yield]
  | .set_comparison_subquery (.mk e op q r) => by
    simp [expression.yield, set_comparison_subquery.yield, expression.leftmost,
      expression.suffixes, expression.yield_eq_leftmost e, rep_append, rep,
      expression_suffix.yield]
  | .function_call f => by simp [expression.leftmost, expression.suffixes, rep]
  | .constant c => by simp [expression.leftmost, expression.suffixes, rep]
  | .column_reference c => by simp [expression.leftmost, expression.suffixes, rep]
  | .subquery_expression s => by simp [expression.leftmost, expression.suffixes, rep]
  | .in_predicate_subquery s => by simp [expression.leftmost, expression.suffixes, rep]
  | .set_predicate_subquery s => by simp [expression.leftmost, expression.suffixes, rep]

theorem expression.leftmost_is_primary : ∀ e : expression, e.leftmost.is_primary = true
  | .cast_expression (.mk e t) => by
    simp [expression.leftmost, expression.leftmost_is_primary e]
  | .set_comparison_subquery (.mk e op q r) => by
    simp [expression.leftmost, expression.leftmost_is_primary e]
  | .function_call f => rfl
  | .constant c => rfl
  | .column_reference c => rfl
  | .subquery_expression s => rfl
  | .in_predicate_subquery s => rfl
  | .set_predicate_subquery s => rfl

theorem expression.rebuild : ∀ e : expression,
    e = e.suffixes.foldl expression_suffix.apply e.leftmost
  | .cast_expression (.mk e t) => by
    simp [expression.leftmost, expression.suffixes, List.foldl_append, expression_suffix.apply,
      ← expression.rebuild e]
  | .set_comparison_subquery (.mk e op q r) => by
    simp [expression.leftmost, expression.suffixes, List.foldl_append, expression_suffix.apply,
      ← expression.rebuild e]
  | .function_call f => rfl
  | .constant c => rfl
  | .column_reference c => rfl
  | .subquery_expression s => rfl
  | .in_predicate_subquery s => rfl
  | .set_predicate_subquery s => rfl

theorem identifier.token_eq_iff_false (i : identifier) {t : Token}
    (h : t.is_identifier = false) : (i.token = t ↔ False) ∧ (t = i.token ↔ False) :=
  ⟨⟨fun e => i.token_ne h e, False.elim⟩, ⟨fun e => i.token_ne h e.symm, False.elim⟩⟩

/-! ## First tokens -/

theorem Token.starts_expression_of_is_identifier {t : Token} (h : t.is_identifier = true) :
    t.starts_expression = true := by
  cases t <;> simp_all [Token.is_identifier, Token.starts_expression]

theorem type.type_yield_ne_nil (t : type) : t.yield ≠ [] := by
  cases t with
  | simple_type t => simp [type.yield, simple_type.yield, identifier.yield]
  | list_type t => cases t; simp [type.yield, list_type.yield]
  | map_type t => cases t; simp [type.yield, map_type.yield]
  | struct_type t =>
    cases t with
    | mk q f =>
      cases f with
      | none => simp [type.yield, struct_type.yield]
      | some p => cases p; simp [type.yield, struct_type.yield]

theorem expression_suffix.expression_suffix_yield_cons (s : expression_suffix) :
    ∃ t ts, s.yield = t :: ts ∧ t.starts_suffix = true := by
  cases s with
  | cast t => exact ⟨_, _, rfl, rfl⟩
  | set_comparison op q r => cases op <;> exact ⟨_, _, rfl, rfl⟩

theorem expression_suffix.rep_yield_cases (l : List expression_suffix) :
    l = [] ∨ ∃ t ts, rep expression_suffix.yield l = t :: ts ∧ t.starts_suffix = true := by
  cases l with
  | nil => exact Or.inl rfl
  | cons s l =>
    obtain ⟨t, ts, h, ht⟩ := s.expression_suffix_yield_cons
    exact Or.inr ⟨t, ts ++ rep expression_suffix.yield l, by simp [rep, h], ht⟩

theorem constant.constant_yield_cons (c : constant) :
    ∃ t ts, c.yield = t :: ts ∧ t.starts_expression = true ∧ (t.is_identifier = true →
      t = Token.lit "NULL" ∧ ∃ s, c = constant.NULL s) := by
  cases c with
  | number n s => exact ⟨_, _, rfl, rfl, by simp [Token.is_identifier]⟩
  | string n s => exact ⟨_, _, rfl, rfl, by simp [Token.is_identifier]⟩
  | map_literal m s =>
    cases m <;> exact ⟨_, _, rfl, rfl, by simp [Token.is_identifier, reserved_words]⟩
  | struct_literal m s =>
    cases m <;> exact ⟨_, _, rfl, rfl, by simp [Token.is_identifier, reserved_words]⟩
  | NULL s => exact ⟨_, _, rfl, rfl, fun _ => ⟨rfl, s, rfl⟩⟩
  | TRUE s => exact ⟨_, _, rfl, rfl, by simp [Token.is_identifier, reserved_words]⟩
  | FALSE s => exact ⟨_, _, rfl, rfl, by simp [Token.is_identifier, reserved_words]⟩

theorem function_call.function_call_yield_cons (f : function_call) :
    ∃ (n : identifier) (ts : List Token), f.yield = n.token :: Token.lit "(" :: ts := by
  cases f with
  | mk n a r =>
    cases a with
    | none => exact ⟨n, _, rfl⟩
    | some p => obtain ⟨e, es, c⟩ := p; exact ⟨n, _, rfl⟩

theorem column_name.yield_cases (c : column_name) :
    (c.qualifier = none ∧ c.yield = [c.name.token]) ∨
      ∃ q, c.qualifier = some q ∧ c.yield = [q.token, Token.lit ".", c.name.token] := by
  obtain ⟨q, n⟩ := c
  cases q with
  | none => exact Or.inl ⟨rfl, rfl⟩
  | some q => exact Or.inr ⟨q, rfl, rfl⟩

theorem expression.primary_identifier_head (p : expression) (hp : p.is_primary = true)
    (t : Token) (ts : List Token) (h : p.yield = t :: ts) (ht : t.is_identifier = true) :
    (∃ f, p = .function_call f ∧ ∃ us, ts = Token.lit "(" :: us) ∨
    (∃ c, p = .column_reference c ∧ (ts = [] ∨ ∃ i : identifier, ts = [Token.lit ".", i.token])) ∨
    (∃ s, p = .constant (.NULL s) ∧ t = Token.lit "NULL" ∧ ts = type_suffix s) := by
  cases p with
  | function_call f =>
    obtain ⟨n, us, hf⟩ := f.function_call_yield_cons
    simp only [expression.yield, hf, List.cons.injEq] at h
    exact Or.inl ⟨f, rfl, us, h.2.symm⟩
  | constant c =>
    obtain ⟨u, us, hc, _, hid⟩ := c.constant_yield_cons
    simp only [expression.yield, hc, List.cons.injEq] at h
    obtain ⟨rfl, rfl⟩ := h
    obtain ⟨hu, s, rfl⟩ := hid ht
    refine Or.inr (Or.inr ⟨s, rfl, hu, ?_⟩)
    simp [constant.yield] at hc
    exact hc.2.symm
  | column_reference c =>
    refine Or.inr (Or.inl ⟨c, rfl, ?_⟩)
    rcases c.name.yield_cases with ⟨_, hc⟩ | ⟨q, _, hc⟩
    · simp only [expression.yield, column_reference.yield, hc, List.cons.injEq] at h
      exact Or.inl h.2.symm
    · simp only [expression.yield, column_reference.yield, hc, List.cons.injEq] at h
      exact Or.inr ⟨c.name.name, h.2.symm⟩
  | cast_expression c => simp [expression.is_primary] at hp
  | set_comparison_subquery c => simp [expression.is_primary] at hp
  | subquery_expression s =>
    simp only [expression.yield, subquery_expression.yield, List.cons.injEq] at h
    rw [← h.1] at ht
    simp [Token.is_identifier, reserved_words] at ht
  | in_predicate_subquery s =>
    obtain ⟨⟨e, es⟩, r⟩ := s
    simp only [expression.yield, in_predicate_subquery.yield, expression_list.yield,
      List.cons_append, List.cons.injEq] at h
    rw [← h.1] at ht
    simp [Token.is_identifier, reserved_words] at ht
  | set_predicate_subquery s =>
    obtain ⟨p, r⟩ := s
    cases p <;>
    · simp only [expression.yield, set_predicate_subquery.yield, set_predicate.yield,
        List.cons_append, List.nil_append, List.cons.injEq] at h
      rw [← h.1] at ht
      simp [Token.is_identifier, reserved_words] at ht

theorem expression.primary_yield_cons (p : expression) (hp : p.is_primary = true) :
    ∃ t ts, p.yield = t :: ts ∧ t.starts_expression = true := by
  cases p with
  | function_call f =>
    obtain ⟨n, us, hf⟩ := f.function_call_yield_cons
    exact ⟨_, _, hf, Token.starts_expression_of_is_identifier n.token_is_identifier⟩
  | constant c =>
    obtain ⟨u, us, hc, hu, _⟩ := c.constant_yield_cons
    exact ⟨_, _, hc, hu⟩
  | column_reference c =>
    rcases c.name.yield_cases with ⟨_, hc⟩ | ⟨q, _, hc⟩
    · exact ⟨_, _, hc, Token.starts_expression_of_is_identifier (identifier.token_is_identifier _)⟩
    · exact ⟨_, _, hc, Token.starts_expression_of_is_identifier (identifier.token_is_identifier _)⟩
  | cast_expression c => simp [expression.is_primary] at hp
  | set_comparison_subquery c => simp [expression.is_primary] at hp
  | subquery_expression s => exact ⟨_, _, rfl, rfl⟩
  | in_predicate_subquery s => obtain ⟨⟨e, es⟩, r⟩ := s; exact ⟨_, _, rfl, rfl⟩
  | set_predicate_subquery s => obtain ⟨p, r⟩ := s; cases p <;> exact ⟨_, _, rfl, rfl⟩

theorem expression.expression_yield_cons (e : expression) :
    ∃ t ts, e.yield = t :: ts ∧ t.starts_expression = true := by
  obtain ⟨t, ts, h, ht⟩ := e.leftmost.primary_yield_cons e.leftmost_is_primary
  exact ⟨t, ts ++ rep expression_suffix.yield e.suffixes,
    by rw [e.yield_eq_leftmost, h]; rfl, ht⟩

theorem expression.expression_yield_ne_nil (e : expression) : e.yield ≠ [] := by
  obtain ⟨t, ts, h, _⟩ := e.expression_yield_cons
  simp [h]

theorem relation_ref.relation_ref_yield_cons (r : relation_ref) :
    ∃ ts, r.yield = r.name.token :: ts ∧ (ts = [] ∨ ∃ us, ts = Token.lit "(" :: us) := by
  obtain ⟨n, s⟩ := r
  cases s with
  | none => exact ⟨_, rfl, Or.inl rfl⟩
  | some s => exact ⟨_, rfl, Or.inr ⟨_, rfl⟩⟩

theorem expression.eq_leftmost_of_suffixes_nil (e : expression) (h : e.suffixes = []) :
    e = e.leftmost := by
  have hr := e.rebuild
  rw [h] at hr
  exact hr

theorem type_suffix_eq_nil (s : Option type) (h : type_suffix s = []) : s = none := by
  cases s with
  | none => rfl
  | some t => simp [type_suffix, opt] at h

theorem arrow_type_eq_nil (s : Option type) (h : arrow_type s = []) : s = none := by
  cases s with
  | none => rfl
  | some t => simp [arrow_type, opt] at h

/-- An expression of one token is a primary: a constant or an unqualified column. -/
theorem expression.yield_singleton (e : expression) (t : Token) (h : e.yield = [t]) :
    (∃ c, e = .constant c ∧ c.yield = [t]) ∨
      (∃ i : identifier, e = .column_reference ⟨⟨none, i⟩⟩ ∧ i.token = t) := by
  obtain ⟨u, us, hu, -⟩ := e.leftmost.primary_yield_cons e.leftmost_is_primary
  have hy := e.yield_eq_leftmost
  rw [h, hu, List.cons_append, List.cons.injEq] at hy
  obtain ⟨rfl, hnil⟩ := hy
  have hnil2 := List.append_eq_nil.mp hnil.symm
  have hs : e.suffixes = [] := by
    rcases expression_suffix.rep_yield_cases e.suffixes with hs | ⟨s, ss, hs, -⟩
    · exact hs
    · rw [hs] at hnil2; simp at hnil2
  have he := e.eq_leftmost_of_suffixes_nil hs
  have hp := e.leftmost_is_primary
  rw [← he] at hp
  cases e with
  | function_call f =>
    obtain ⟨n, vs, hf⟩ := f.function_call_yield_cons
    simp [expression.yield, hf] at h
  | constant c => exact Or.inl ⟨c, rfl, h⟩
  | column_reference c =>
    rcases c.name.yield_cases with ⟨hq, hc⟩ | ⟨q, _, hc⟩
    · simp only [expression.yield, column_reference.yield, hc, List.cons.injEq] at h
      obtain ⟨⟨q, n⟩⟩ := c
      simp only at hq h
      subst hq
      exact Or.inr ⟨n, rfl, h.1⟩
    · simp [expression.yield, column_reference.yield, hc] at h
  | cast_expression c => simp [expression.is_primary] at hp
  | set_comparison_subquery c => simp [expression.is_primary] at hp
  | subquery_expression s =>
    obtain ⟨ts, hr, -⟩ := s.ref.relation_ref_yield_cons
    simp [expression.yield, subquery_expression.yield, hr] at h
  | in_predicate_subquery s =>
    obtain ⟨⟨e, es⟩, r⟩ := s
    simp [expression.yield, in_predicate_subquery.yield, expression_list.yield] at h
  | set_predicate_subquery s =>
    obtain ⟨p, r⟩ := s
    cases p <;> simp [expression.yield, set_predicate_subquery.yield, set_predicate.yield] at h

/-! ## The first two tokens of a plan detail -/

theorem dispatch_relation (i : identifier) :
    dispatch i.token (Token.lit "RELATION") = some .relation := by
  have h := i.token_is_identifier
  have h₁ : i.token ≠ Token.lit "PIPELINES" := i.token_ne rfl
  simp [dispatch, h, h₁]

theorem plan_detail.yield_dispatch (d : plan_detail) :
    ∃ t₁ t₂ rest, d.yield = t₁ :: t₂ :: rest ∧ dispatch t₁ t₂ = some d.kind := by
  cases d with
  | pipelines p => exact ⟨_, _, _, rfl, rfl⟩
  | relation r => exact ⟨_, _, _, rfl, dispatch_relation _⟩
  | root_relation r => exact ⟨_, _, _, rfl, rfl⟩
  | schema_definition s => exact ⟨_, _, _, rfl, rfl⟩
  | source_definition s =>
    obtain ⟨r⟩ := s
    cases r <;> exact ⟨_, _, _, rfl, rfl⟩
  | extension_space e =>
    obtain ⟨u, fs⟩ := e
    cases u <;> exact ⟨_, _, _, rfl, rfl⟩

/-! ## Splitting a token sequence at a terminal -/

theorem append_cons_unique {α : Type} (a : α) :
    ∀ (l₁ l₁' l₂ l₂' : List α), a ∉ l₂ → a ∉ l₂' →
      l₁ ++ a :: l₂ = l₁' ++ a :: l₂' → l₁ = l₁' ∧ l₂ = l₂'
  | [], [], l₂, l₂', _, _, h => by simpa using h
  | [], b :: l₁', l₂, l₂', h₂, _, h => by
    simp only [List.nil_append, List.cons_append, List.cons.injEq] at h
    exact absurd (h.2 ▸ (by simp : a ∈ l₁' ++ a :: l₂')) h₂
  | b :: l₁, [], l₂, l₂', _, h₂', h => by
    simp only [List.nil_append, List.cons_append, List.cons.injEq] at h
    exact absurd (h.2 ▸ (by simp : a ∈ l₁ ++ a :: l₂)) h₂'
  | b :: l₁, c :: l₁', l₂, l₂', h₂, h₂', h => by
    simp only [List.cons_append, List.cons.injEq] at h
    obtain ⟨h₁, h₃⟩ := append_cons_unique a l₁ l₁' l₂ l₂' h₂ h₂' h.2
    exact ⟨by rw [h.1, h₁], h₃⟩

/-! ## C1: a relation with one EMIT detail -/

theorem relation_detail.yield_head (d : relation_detail) :
    ∃ t ts, d.yield = t :: ts ∧ t ≠ Token.lit "\x7d" := by
  cases d with
  | COMMON => exact ⟨_, _, rfl, by decide⟩
  | BASE_SCHEMA i => exact ⟨_, _, rfl, by decide⟩
  | FILTER b e =>
    cases b with
    | none => exact ⟨_, _, rfl, by decide⟩
    | some b => cases b <;> exact ⟨_, _, rfl, identifier.token_ne _ rfl⟩
  | EXPRESSION e n => exact ⟨_, _, rfl, by decide⟩
  | ADVANCED_EXTENSION => exact ⟨_, _, rfl, by decide⟩
  | source_reference s => exact ⟨_, _, rfl, by decide⟩
  | GROUPING e => exact ⟨_, _, rfl, by decide⟩
  | MEASURE ds => exact ⟨_, _, rfl, by decide⟩
  | sort_field s => exact ⟨_, _, rfl, by decide⟩
  | COUNT n => exact ⟨_, _, rfl, by decide⟩
  | TYPE i => exact ⟨_, _, rfl, by decide⟩
  | EMIT c => exact ⟨_, _, rfl, by decide⟩

/-- C1: for all identifiers t, r and c, the token sequence `t RELATION r { EMIT c ; }` is
derived by `plan` from the tree with exactly one plan_detail, a relation whose relation_type
is t, whose relation_ref is r (without schema) and whose body holds exactly one
relation_detail, the EMIT alternative with the unqualified column_name c; and every plan
tree that derives this token sequence is that tree. -/
theorem emit_relation_parse (t r c : identifier) :
    (plan.mk [.relation ⟨⟨t⟩, ⟨r, none⟩, [.EMIT ⟨none, c⟩]⟩] false).yield
      = t.yield ++ Token.lit "RELATION" :: r.yield ++ Token.lit "\x7b"
        :: Token.lit "EMIT" :: c.yield ++ [Token.lit ";", Token.lit "\x7d"] ∧
    ∀ p : plan,
      p.yield = t.yield ++ Token.lit "RELATION" :: r.yield ++ Token.lit "\x7b"
        :: Token.lit "EMIT" :: c.yield ++ [Token.lit ";", Token.lit "\x7d"] →
      p = plan.mk [.relation ⟨⟨t⟩, ⟨r, none⟩, [.EMIT ⟨none, c⟩]⟩] false := by
  refine ⟨rfl, fun p h => ?_⟩
  have n₁ := fun i : identifier => i.token_eq_iff_false (t := Token.lit "schema") rfl
  have n₂ := fun i : identifier => i.token_eq_iff_false (t := Token.lit "RELATION") rfl
  have n₃ := fun i : identifier => i.token_eq_iff_false (t := Token.lit "source") rfl
  have n₄ := fun i : identifier => i.token_eq_iff_false (t := Token.lit "PIPELINES") rfl
  have n₅ := fun i : identifier => i.token_eq_iff_false (t := Token.lit "EXTENSION_SPACE") rfl
  have n₆ := fun i : identifier => i.token_eq_iff_false (t := Token.lit "\x7b") rfl
  have n₇ := fun i : identifier => i.token_eq_iff_false (t := Token.lit "\x7d") rfl
  have n₈ := fun i : identifier => i.token_eq_iff_false (t := Token.lit ";") rfl
  have n₉ := fun i : identifier => i.token_eq_iff_false (t := Token.lit "-") rfl
  have n₁₀ := fun i : identifier => i.token_eq_iff_false (t := Token.lit ".") rfl
  obtain ⟨ds, sc⟩ := p
  simp only [plan.yield, identifier.yield, List.cons_append, List.nil_append] at h
  rcases ds with _ | ⟨d, ds⟩
  · cases sc <;> simp [rep, opt_lit] at h
  cases d with
  | pipelines p => simp [rep, plan_detail.yield, pipelines.yield, n₄] at h
  | root_relation r => simp [rep, plan_detail.yield, root_relation.yield] at h
  | schema_definition s => simp [rep, plan_detail.yield, schema_definition.yield, n₁] at h
  | source_definition s => simp [rep, plan_detail.yield, source_definition.yield, n₃] at h
  | extension_space e => simp [rep, plan_detail.yield, extension_space.yield, n₅] at h
  | relation rel =>
    obtain ⟨⟨ty⟩, ⟨rn, rs⟩, dets⟩ := rel
    cases rs with
    | some s =>
      simp [rep, plan_detail.yield, relation.yield, relation_type.yield, relation_ref.yield,
        identifier.yield, opt] at h
    | none =>
      simp only [rep, plan_detail.yield, relation.yield, relation_type.yield,
        relation_ref.yield, identifier.yield, opt, List.cons_append, List.nil_append,
        List.append_nil, List.append_assoc, List.cons.injEq, true_and] at h
      obtain ⟨hty, hrn, h⟩ := h
      have hty' := identifier.token_injective hty
      have hrn' := identifier.token_injective hrn
      subst hty' hrn'
      rcases dets with _ | ⟨d₁, dets⟩
      · simp [rep] at h
      cases d₁ with
      | COMMON => simp [rep, relation_detail.yield] at h
      | BASE_SCHEMA i => simp [rep, relation_detail.yield] at h
      | EXPRESSION e n => simp [rep, relation_detail.yield] at h
      | ADVANCED_EXTENSION => simp [rep, relation_detail.yield] at h
      | source_reference s => simp [rep, relation_detail.yield, source_reference.yield] at h
      | GROUPING e => simp [rep, relation_detail.yield] at h
      | MEASURE ms => simp [rep, relation_detail.yield] at h
      | sort_field s => simp [rep, relation_detail.yield, sort_field.yield] at h
      | COUNT n => simp [rep, relation_detail.yield] at h
      | TYPE i => simp [rep, relation_detail.yield] at h
      | FILTER b e =>
        obtain ⟨u, us, hu, hst⟩ := e.expression_yield_cons
        rcases b with _ | (a | ⟨a, b⟩ | ⟨a, b⟩) <;>
          simp [rep, relation_detail.yield, relation_filter_behavior.yield, identifier.yield,
            opt, hu, n₈, n₉] at h
        rw [h.2.2.1] at hst
        simp [Token.starts_expression, reserved_words] at hst
      | EMIT cn =>
        obtain ⟨q, n⟩ := cn
        cases q with
        | some q =>
          simp [rep, relation_detail.yield, column_name.yield, identifier.yield, opt] at h
        | none =>
          simp only [rep, relation_detail.yield, column_name.yield, identifier.yield, opt,
            List.cons_append, List.nil_append, List.append_assoc, List.cons.injEq,
            true_and] at h
          obtain ⟨hn, h⟩ := h
          have hn' := identifier.token_injective hn
          subst hn'
          rcases dets with _ | ⟨d₂, dets⟩
          swap
          · obtain ⟨u, us, hu, -⟩ := d₂.yield_head
            simp [rep, hu] at h
          rcases ds with _ | ⟨d, ds⟩
          swap
          · obtain ⟨t₁, t₂, r, hd, -⟩ := d.yield_dispatch
            simp [rep, hd] at h
          cases sc
          · rfl
          · simp [rep, opt_lit] at h

/-- C1 at its scenario input `READ RELATION r1 { EMIT col1 ; }`: valid tokens, derived from
the tree with relation type READ and one EMIT detail for col1, and from no other tree. -/
theorem emit_relation_parse_witness :
    List.all [Token.word "READ", Token.lit "RELATION", Token.word "r1", Token.lit "\x7b",
        Token.lit "EMIT", Token.word "col1", Token.lit ";", Token.lit "\x7d"]
      Token.valid = true ∧
    (plan.mk [.relation ⟨⟨.pattern "READ"⟩, ⟨.pattern "r1", none⟩,
        [.EMIT ⟨none, .pattern "col1"⟩]⟩] false).yield
      = [Token.word "READ", Token.lit "RELATION", Token.word "r1", Token.lit "\x7b",
        Token.lit "EMIT", Token.word "col1", Token.lit ";", Token.lit "\x7d"] ∧
    plan.mk [.relation ⟨⟨.pattern "READ"⟩, ⟨.pattern "r1", none⟩,
        [.EMIT ⟨none, .pattern "col1"⟩]⟩] false
      = plan.mk [.relation ⟨⟨.pattern "READ"⟩, ⟨.pattern "r1", none⟩,
        [.EMIT ⟨none, .pattern "col1"⟩]⟩] false :=
  ⟨by decide, rfl,
    (emit_relation_parse (.pattern "READ") (.pattern "r1") (.pattern "col1")).2 _ rfl⟩

/-! ## C2: casts, and the parse of `a(b, c) AS i32` -/

/-- An expression that starts with a word and is followed by a token that is neither `(`
nor `.` nor the start of a suffix is the unqualified column reference of that word. -/
theorem expression.word_then (e : expression) (s : String) (t₂ : Token)
    (rest more : List Token) (h : e.yield ++ rest = Token.word s :: t₂ :: more)
    (h₁ : t₂ ≠ Token.lit "(") (h₂ : t₂ ≠ Token.lit ".") (h₃ : t₂.starts_suffix = false) :
    e = .column_reference ⟨⟨none, .pattern s⟩⟩ ∧ rest = t₂ :: more := by
  obtain ⟨u, us, hu, -⟩ := e.leftmost.primary_yield_cons e.leftmost_is_primary
  rw [e.yield_eq_leftmost, hu] at h
  simp only [List.cons_append, List.append_assoc, List.cons.injEq] at h
  obtain ⟨rfl, h⟩ := h
  rcases e.leftmost.primary_identifier_head e.leftmost_is_primary _ us hu rfl with
    ⟨f, -, vs, rfl⟩ | ⟨c, hc, hus⟩ | ⟨ty, -, hn, -⟩
  · simp only [List.cons_append, List.cons.injEq] at h
    exact absurd h.1.symm h₁
  · rcases hus with rfl | ⟨i, rfl⟩
    · simp only [List.nil_append] at h
      have hs : e.suffixes = [] := by
        rcases expression_suffix.rep_yield_cases e.suffixes with hs | ⟨x, xs, hs, hx⟩
        · exact hs
        · rw [hs] at h
          simp only [List.cons_append, List.cons.injEq] at h
          rw [h.1, h₃] at hx
          exact Bool.noConfusion hx
      rw [hs] at h
      simp only [rep, List.nil_append] at h
      refine ⟨?_, h⟩
      rw [e.eq_leftmost_of_suffixes_nil hs, hc]
      rw [hc] at hu
      obtain ⟨⟨q, n⟩⟩ := c
      cases q with
      | some q => simp [expression.yield, column_reference.yield, column_name.yield, opt,
          identifier.yield] at hu
      | none =>
        simp only [expression.yield, column_reference.yield, column_name.yield, opt,
          identifier.yield, List.nil_append, List.cons.injEq, and_true] at hu
        rw [identifier.token_injective (j := .pattern s) hu]
    · simp only [List.cons_append, List.cons.injEq] at h
      exact absurd h.1.symm h₂
  · simp at hn

theorem simple_type.yield_word_singleton (t : type) (s : String)
    (h : t.yield = [Token.word s]) : t = .simple_type ⟨.pattern s, false, none⟩ := by
  cases t with
  | simple_type t =>
    obtain ⟨n, q, sp⟩ := t
    cases q <;> cases sp <;>
      simp [type.yield, simple_type.yield, identifier.yield, opt_lit, opt,
        type_specifier.yield] at h
    rw [identifier.token_injective (j := .pattern s) h]
  | list_type t => cases t; simp [type.yield, list_type.yield] at h
  | map_type t => cases t; simp [type.yield, map_type.yield] at h
  | struct_type t =>
    obtain ⟨q, f⟩ := t
    rcases f with _ | ⟨t, ts⟩ <;> simp [type.yield, struct_type.yield] at h

/-- C2: for every expression e and type t, the cast_expression with operand e and target
t derives `e AS t`.  The input `a ( b , c ) AS i32` is a sequence of valid tokens derived
from the cast_expression that wraps the function_call of identifier a with the two arguments
column_reference b and column_reference c, no trailing comma and no `->` type, with target
simple_type i32; and every expression tree that derives this input is that tree. -/
theorem cast_expression_parse :
    (∀ (e : expression) (t : type),
      (expression.cast_expression (.mk e t)).yield = e.yield ++ Token.lit "AS" :: t.yield) ∧
    List.all [Token.word "a", Token.lit "(", Token.word "b", Token.lit ",",
        Token.word "c", Token.lit ")", Token.lit "AS", Token.word "i32"] Token.valid = true ∧
    (expression.cast_expression (.mk (.function_call (.mk (.pattern "a")
        (some (.column_reference ⟨⟨none, .pattern "b"⟩⟩,
          [.column_reference ⟨⟨none, .pattern "c"⟩⟩], false)) none))
        (.simple_type ⟨.pattern "i32", false, none⟩))).yield
      = [Token.word "a", Token.lit "(", Token.word "b", Token.lit ",",
        Token.word "c", Token.lit ")", Token.lit "AS", Token.word "i32"] ∧
    (∀ e : expression,
      e.yield = [Token.word "a", Token.lit "(", Token.word "b", Token.lit ",",
        Token.word "c", Token.lit ")", Token.lit "AS", Token.word "i32"] →
      e = .cast_expression (.mk (.function_call (.mk (.pattern "a")
        (some (.column_reference ⟨⟨none, .pattern "b"⟩⟩,
          [.column_reference ⟨⟨none, .pattern "c"⟩⟩], false)) none))
        (.simple_type ⟨.pattern "i32", false, none⟩))) := by
  refine ⟨fun e t => rfl, by decide, rfl, fun e h => ?_⟩
  obtain ⟨u, us, hu, -⟩ := e.leftmost.primary_yield_cons e.leftmost_is_primary
  have hy := e.yield_eq_leftmost
  rw [h, hu] at hy
  simp only [List.cons_append, List.cons.injEq] at hy
  obtain ⟨rfl, hy⟩ := hy
  rcases e.leftmost.primary_identifier_head e.leftmost_is_primary _ us hu rfl with
    ⟨f, hf, vs, rfl⟩ | ⟨c, hc, hus⟩ | ⟨ty, -, hn, -⟩
  · rw [hf] at hu
    obtain ⟨n, args, res⟩ := f
    rcases args with _ | ⟨e₁, es, tc⟩
    · simp only [expression.yield, function_call.yield, identifier.yield, List.cons_append,
        List.nil_append, List.cons.injEq, true_and] at hu
      rw [← hu.2] at hy
      simp at hy
    simp only [expression.yield, function_call.yield, identifier.yield, List.cons_append,
      List.nil_append, List.append_assoc, List.cons.injEq, true_and] at hu
    obtain ⟨hn, hvs⟩ := hu
    rw [← hvs] at hy
    simp only [List.cons_append, List.append_assoc, List.cons.injEq, true_and] at hy
    obtain ⟨he₁, hy⟩ := e₁.word_then "b" _ _ _ hy.symm (by decide) (by decide) rfl
    rcases es with _ | ⟨e₂, es⟩
    · cases tc <;> simp [expression.yield_commas, opt_lit] at hy
    simp only [expression.yield_commas, List.cons_append, List.append_assoc, List.cons.injEq,
      true_and] at hy
    obtain ⟨he₂, hy⟩ := e₂.word_then "c" _ _ _ hy (by decide) (by decide) rfl
    rcases es with _ | ⟨e₃, es⟩
    swap
    · simp [expression.yield_commas] at hy
    cases tc
    swap
    · simp [expression.yield_commas, opt_lit] at hy
    cases res with
    | some ty => simp [expression.yield_commas, opt_lit, arrow_type, opt] at hy
    | none =>
      simp only [expression.yield_commas, opt_lit, arrow_type, opt, List.nil_append,
        Bool.false_eq_true, if_false, List.cons.injEq, true_and] at hy
      rcases hsx : e.suffixes with _ | ⟨x, xs⟩
      · simp [hsx, rep] at hy
      rw [hsx] at hy
      cases x with
      | set_comparison op q r =>
        cases op <;> simp [rep, expression_suffix.yield, comparison_operator.yield] at hy
      | cast ty =>
        simp only [rep, expression_suffix.yield, List.cons_append, List.cons.injEq,
          true_and] at hy
        have hxs : xs = [] := by
          rcases expression_suffix.rep_yield_cases xs with hxs | ⟨y, ys, hys, -⟩
          · exact hxs
          · rw [hys] at hy
            have hl := congrArg List.length hy
            have := List.length_pos.mpr ty.type_yield_ne_nil
            simp at hl
            omega
        subst hxs
        simp only [rep, List.append_nil] at hy
        have hty := simple_type.yield_word_singleton ty "i32" hy
        have hr := e.rebuild
        rw [hsx, hf, hty, he₁, he₂, identifier.token_injective (j := .pattern "a") hn] at hr
        exact hr
  · rcases hus with rfl | ⟨i, rfl⟩
    · rcases expression_suffix.rep_yield_cases e.suffixes with hs | ⟨x, xs, hs, hx⟩
      · simp [hs, rep] at hy
      · rw [hs] at hy
        simp only [List.nil_append, List.cons.injEq] at hy
        rw [← hy.1] at hx
        exact Bool.noConfusion hx
    · simp at hy
  · simp at hn

/-- C2 at `a ( b , c ) AS i32`: an expression that derives it is the cast of the call. -/
theorem cast_expression_parse_witness :
    (expression.cast_expression (.mk (.function_call (.mk (.pattern "a")
        (some (.column_reference ⟨⟨none, .pattern "b"⟩⟩,
          [.column_reference ⟨⟨none, .pattern "c"⟩⟩], false)) none))
        (.simple_type ⟨.pattern "i32", false, none⟩))).yield
      = [Token.word "a", Token.lit "(", Token.word "b", Token.lit ",",
        Token.word "c", Token.lit ")", Token.lit "AS", Token.word "i32"] ∧
    expression.cast_expression (.mk (.function_call (.mk (.pattern "a")
        (some (.column_reference ⟨⟨none, .pattern "b"⟩⟩,
          [.column_reference ⟨⟨none, .pattern "c"⟩⟩], false)) none))
        (.simple_type ⟨.pattern "i32", false, none⟩))
      = expression.cast_expression (.mk (.function_call (.mk (.pattern "a")
        (some (.column_reference ⟨⟨none, .pattern "b"⟩⟩,
          [.column_reference ⟨⟨none, .pattern "c"⟩⟩], false)) none))
        (.simple_type ⟨.pattern "i32", false, none⟩)) :=
  ⟨rfl, cast_expression_parse.2.2.2 _ rfl⟩

/-! ## C3: a LOCAL_FILES source with one file and a trailing comma -/

theorem not_mem_append_double {α : Type} (a : α) :
    ∀ (l r u v : List α), a ∉ l → l ++ r = u ++ a :: a :: v → ∃ u', r = u' ++ a :: a :: v
  | [], r, u, _, _, h => ⟨u, by simpa using h⟩
  | b :: l, r, [], v, hl, h => by
    simp only [List.cons_append, List.nil_append, List.cons.injEq] at h
    exact absurd h.1 (by intro e; exact hl (by simp [e]))
  | b :: l, r, c :: u, v, hl, h => by
    simp only [List.cons_append, List.cons.injEq] at h
    exact not_mem_append_double a l r u v (fun hm => hl (List.mem_cons_of_mem _ hm)) h.2

theorem file_detail.file_detail_comma_not_mem (d : file_detail) : Token.lit "," ∉ d.yield := by
  rcases d with n | n | n | _ | _ | (s | s | s | s) <;>
    simp [file_detail.yield, file_location.yield, number.yield, string.yield]

theorem file.file_comma_not_mem (f : file) : Token.lit "," ∉ f.yield := by
  obtain ⟨ds⟩ := f
  have h : Token.lit "," ∉ rep file_detail.yield ds := by
    induction ds with
    | nil => simp [rep]
    | cons d ds ih => simp [rep, ih, file_detail.file_detail_comma_not_mem d]
  simp [file.yield, h]

theorem local_files_detail.items_no_double_comma :
    ∀ (fs : List (file × Bool)) (tail u v : List Token),
      rep (fun fc : file × Bool => fc.1.yield ++ opt_lit fc.2 ",") fs ++ Token.lit "]" :: tail
        = u ++ Token.lit "," :: Token.lit "," :: v →
      ∃ u', tail = u' ++ Token.lit "," :: Token.lit "," :: v
  | [], tail, [], v, h => by simp [rep] at h
  | [], tail, b :: u, v, h => by
    simp only [rep, List.nil_append, List.cons_append, List.cons.injEq] at h
    exact ⟨u, h.2⟩
  | (f, c) :: fs, tail, u, v, h => by
    simp only [rep, List.append_assoc] at h
    obtain ⟨u₁, h₁⟩ := not_mem_append_double _ _ _ _ _ f.file_comma_not_mem h
    cases c with
    | false =>
      simp only [opt_lit, Bool.false_eq_true, if_false, List.nil_append] at h₁
      exact local_files_detail.items_no_double_comma fs tail u₁ v h₁
    | true =>
      simp only [opt_lit, if_true, List.cons_append, List.nil_append] at h₁
      rcases u₁ with _ | ⟨b, u₂⟩
      · simp only [List.nil_append, List.cons.injEq, true_and] at h₁
        rcases fs with _ | ⟨⟨g, c'⟩, fs⟩
        · simp [rep] at h₁
        · simp [rep, file.yield] at h₁
      · simp only [List.cons_append, List.cons.injEq] at h₁
        exact local_files_detail.items_no_double_comma fs tail u₂ v h₁.2

theorem local_files_detail.no_double_comma (d : local_files_detail) (u v : List Token) :
    d.yield ≠ u ++ Token.lit "," :: Token.lit "," :: v := by
  intro h
  cases d with
  | ADVANCED_EXTENSION i =>
    have hc : Token.lit "," ∉ (local_files_detail.ADVANCED_EXTENSION i).yield := by
      have : ¬ Token.lit "," = i.token := fun e => i.token_ne (t := Token.lit ",") rfl e.symm
      simp [local_files_detail.yield, identifier.yield, this]
    obtain ⟨u', h'⟩ := not_mem_append_double _ _ [] _ _ hc (by simpa using h)
    simp at h'
  | ITEMS fs =>
    have hc : Token.lit "," ∉ [Token.lit "ITEMS", Token.lit "=", Token.lit "["] := by simp
    obtain ⟨u₁, h₁⟩ := not_mem_append_double _ _ _ _ _ hc
      (by simpa [local_files_detail.yield] using h)
    obtain ⟨u₂, h₂⟩ := local_files_detail.items_no_double_comma fs [] u₁ v h₁
    simp at h₂

/-- C3: the input
`source LOCAL_FILES f { ITEMS = [ { URI_FILE: "a.parquet" PARQUET: {} }, ] }`
is a sequence of valid tokens derived by `plan` from the tree with one source_definition
whose read_type is local_files named f, with one ITEMS detail holding one file (followed by
a comma) whose two file_details are file_location URI_FILE "a.parquet" and then PARQUET;
every plan tree that derives the input is this tree.  In general a comma after the last
file of an ITEMS list is derived, and no local_files_detail derives two commas in a row. -/
theorem local_files_trailing_comma :
    (plan.mk [.source_definition ⟨.local_files ⟨.pattern "f",
        [.ITEMS [(⟨[.file_location (.URI_FILE ⟨"\"a.parquet\""⟩), .PARQUET]⟩, true)]]⟩⟩]
        false).yield
      = [Token.lit "source", Token.lit "LOCAL_FILES", Token.word "f", Token.lit "\x7b",
        Token.lit "ITEMS", Token.lit "=", Token.lit "[", Token.lit "\x7b", Token.lit "URI_FILE",
        Token.lit ":", Token.string "\"a.parquet\"", Token.lit "PARQUET", Token.lit ":",
        Token.lit "\x7b", Token.lit "\x7d", Token.lit "\x7d", Token.lit ",", Token.lit "]",
        Token.lit "\x7d"] ∧
    List.all [Token.lit "source", Token.lit "LOCAL_FILES", Token.word "f", Token.lit "\x7b",
        Token.lit "ITEMS", Token.lit "=", Token.lit "[", Token.lit "\x7b", Token.lit "URI_FILE",
        Token.lit ":", Token.string "\"a.parquet\"", Token.lit "PARQUET", Token.lit ":",
        Token.lit "\x7b", Token.lit "\x7d", Token.lit "\x7d", Token.lit ",", Token.lit "]",
        Token.lit "\x7d"] Token.valid = true ∧
    (∀ p : plan,
      p.yield = [Token.lit "source", Token.lit "LOCAL_FILES", Token.word "f", Token.lit "\x7b",
        Token.lit "ITEMS", Token.lit "=", Token.lit "[", Token.lit "\x7b", Token.lit "URI_FILE",
        Token.lit ":", Token.string "\"a.parquet\"", Token.lit "PARQUET", Token.lit ":",
        Token.lit "\x7b", Token.lit "\x7d", Token.lit "\x7d", Token.lit ",", Token.lit "]",
        Token.lit "\x7d"] →
      p = plan.mk [.source_definition ⟨.local_files ⟨.pattern "f",
        [.ITEMS [(⟨[.file_location (.URI_FILE ⟨"\"a.parquet\""⟩), .PARQUET]⟩, true)]]⟩⟩]
        false) ∧
    (∀ (fs : List (file × Bool)) (f : file),
      (local_files_detail.ITEMS (fs ++ [(f, true)])).yield
        = Token.lit "ITEMS" :: Token.lit "=" :: Token.lit "["
          :: rep (fun fc : file × Bool => fc.1.yield ++ opt_lit fc.2 ",") fs
          ++ f.yield ++ [Token.lit ",", Token.lit "]"]) ∧
    (∀ (d : local_files_detail) (u v : List Token),
      d.yield ≠ u ++ Token.lit "," :: Token.lit "," :: v) := by
  refine ⟨rfl, by decide, fun p h => ?_, fun fs f => ?_, local_files_detail.no_double_comma⟩
  · obtain ⟨ds, sc⟩ := p
    rcases ds with _ | ⟨d, ds⟩
    · cases sc <;> simp [plan.yield, rep, opt_lit] at h
    simp only [plan.yield, rep] at h
    cases d with
    | pipelines p => simp [plan_detail.yield, pipelines.yield] at h
    | relation r =>
      simp [plan_detail.yield, relation.yield, relation_type.yield, identifier.yield] at h
    | root_relation r => simp [plan_detail.yield, root_relation.yield] at h
    | schema_definition s => simp [plan_detail.yield, schema_definition.yield] at h
    | extension_space e => simp [plan_detail.yield, extension_space.yield] at h
    | source_definition s =>
      obtain ⟨r⟩ := s
      cases r with
      | virtual_table t =>
        simp [plan_detail.yield, source_definition.yield, read_type.yield,
          virtual_table.yield] at h
      | named_table t =>
        simp [plan_detail.yield, source_definition.yield, read_type.yield,
          named_table.yield] at h
      | extension_table t =>
        simp [plan_detail.yield, source_definition.yield, read_type.yield,
          extension_table.yield] at h
      | local_files t =>
        obtain ⟨n, ls⟩ := t
        simp [plan_detail.yield, source_definition.yield, read_type.yield, local_files.yield,
          identifier.yield] at h
        obtain ⟨hn, h⟩ := h
        have hn' : n = .pattern "f" := identifier.token_injective (j := .pattern "f") hn
        subst hn'
        rcases ls with _ | ⟨l, ls⟩
        · simp [rep] at h
        cases l with
        | ADVANCED_EXTENSION i => simp [rep, local_files_detail.yield] at h
        | ITEMS fs =>
          rcases fs with _ | ⟨⟨f, c⟩, fs⟩
          · simp [rep, local_files_detail.yield] at h
          obtain ⟨fds⟩ := f
          rcases fds with _ | ⟨fd₁, fds⟩
          · simp [rep, local_files_detail.yield, file.yield] at h
          simp only [rep, local_files_detail.yield, file.yield, List.cons_append,
            List.append_assoc, List.cons.injEq, true_and, List.nil_append] at h
          rcases fd₁ with n | n | n | _ | _ | (s | s | s | s) <;>
            simp [file_detail.yield, file_location.yield, number.yield, string.yield] at h
          obtain ⟨hs, h⟩ := h
          rcases fds with _ | ⟨fd₂, fds⟩
          · simp [rep] at h
          rcases fd₂ with n | n | n | _ | _ | (s | s | s | s) <;>
            simp [rep, file_detail.yield, file_location.yield, number.yield,
              string.yield] at h
          rcases fds with _ | ⟨fd₃, fds⟩
          swap
          · rcases fd₃ with n | n | n | _ | _ | (s | s | s | s) <;>
              simp [rep, file_detail.yield, file_location.yield, number.yield,
                string.yield] at h
          simp only [rep, List.nil_append] at h
          cases c <;> rcases fs with _ | ⟨⟨f, c'⟩, fs⟩ <;>
            simp [rep, opt_lit] at h
          rcases ls with _ | ⟨l, ls⟩
          swap
          · cases l <;> simp [rep, local_files_detail.yield] at h
          rcases ds with _ | ⟨d, ds⟩
          swap
          · obtain ⟨t₁, t₂, r, hd, -⟩ := d.yield_dispatch
            simp [rep, hd] at h
          obtain ⟨st⟩ := s
          simp only at hs
          subst hs
          cases sc
          · rfl
          · simp [rep] at h
  · simp [local_files_detail.yield, rep_append, rep, opt_lit]

/-- C3 at its scenario input: the tree of the scenario derives the input, and a plan that
derives the input is that tree. -/
theorem local_files_trailing_comma_witness :
    (plan.mk [.source_definition ⟨.local_files ⟨.pattern "f",
        [.ITEMS [(⟨[.file_location (.URI_FILE ⟨"\"a.parquet\""⟩), .PARQUET]⟩, true)]]⟩⟩]
        false).yield
      = [Token.lit "source", Token.lit "LOCAL_FILES", Token.word "f", Token.lit "\x7b",
        Token.lit "ITEMS", Token.lit "=", Token.lit "[", Token.lit "\x7b", Token.lit "URI_FILE",
        Token.lit ":", Token.string "\"a.parquet\"", Token.lit "PARQUET", Token.lit ":",
        Token.lit "\x7b", Token.lit "\x7d", Token.lit "\x7d", Token.lit ",", Token.lit "]",
        Token.lit "\x7d"] ∧
    plan.mk [.source_definition ⟨.local_files ⟨.pattern "f",
        [.ITEMS [(⟨[.file_location (.URI_FILE ⟨"\"a.parquet\""⟩), .PARQUET]⟩, true)]]⟩⟩]
        false
      = plan.mk [.source_definition ⟨.local_files ⟨.pattern "f",
        [.ITEMS [(⟨[.file_location (.URI_FILE ⟨"\"a.parquet\""⟩), .PARQUET]⟩, true)]]⟩⟩]
        false :=
  ⟨rfl, local_files_trailing_comma.2.2.1 _ rfl⟩

/-! ## C4: reserved words as identifiers -/

/-- C4: each of the fourteen listed words is accepted by `identifier`, as the terminal of
that word, and with it in the place of the bare identifier the inputs
`READ RELATION r { EMIT w ; }`, `schema w { w i32 NAMED w ; }` and `ROOT { NAMES = [ w ] }`
are derived by `plan`. -/
theorem reserved_words_as_identifiers (w : String) (hw : w ∈ reserved_words) :
    ∃ i : identifier, i.yield = [Token.lit w] ∧ (Token.lit w).valid = true ∧
      (plan.mk [.relation ⟨⟨.pattern "READ"⟩, ⟨.pattern "r", none⟩, [.EMIT ⟨none, i⟩]⟩]
          false).yield
        = [Token.word "READ", Token.lit "RELATION", Token.word "r", Token.lit "\x7b",
            Token.lit "EMIT", Token.lit w, Token.lit ";", Token.lit "\x7d"] ∧
      (plan.mk [.schema_definition
          ⟨i, [⟨i, .simple_type ⟨.pattern "i32", false, none⟩, some i⟩]⟩] false).yield
        = [Token.lit "schema", Token.lit w, Token.lit "\x7b", Token.lit w, Token.word "i32",
            Token.lit "NAMED", Token.lit w, Token.lit ";", Token.lit "\x7d"] ∧
      (plan.mk [.root_relation ⟨i, [], false⟩] false).yield
        = [Token.lit "ROOT", Token.lit "\x7b", Token.lit "NAMES", Token.lit "=", Token.lit "[",
            Token.lit w, Token.lit "]", Token.lit "\x7d"] := by
  simp only [reserved_words, List.mem_cons, List.mem_singleton, List.not_mem_nil,
    or_false] at hw
  rcases hw with rfl | rfl | rfl | rfl | rfl | rfl | rfl | rfl | rfl | rfl | rfl | rfl | rfl | rfl
  · exact ⟨.FILTER, rfl, by decide, rfl, rfl, rfl⟩
  · exact ⟨.ROOT, rfl, by decide, rfl, rfl, rfl⟩
  · exact ⟨.SOURCE, rfl, by decide, rfl, rfl, rfl⟩
  · exact ⟨.SCHEMA, rfl, by decide, rfl, rfl, rfl⟩
  · exact ⟨.NULL, rfl, by decide, rfl, rfl, rfl⟩
  · exact ⟨.SORT, rfl, by decide, rfl, rfl, rfl⟩
  · exact ⟨.MEASURE, rfl, by decide, rfl, rfl, rfl⟩
  · exact ⟨.GROUPING, rfl, by decide, rfl, rfl, rfl⟩
  · exact ⟨.COUNT, rfl, by decide, rfl, rfl, rfl⟩
  · exact ⟨.TYPE, rfl, by decide, rfl, rfl, rfl⟩
  · exact ⟨.EMIT, rfl, by decide, rfl, rfl, rfl⟩
  · exact ⟨.NAMED, rfl, by decide, rfl, rfl, rfl⟩
  · exact ⟨.ALL, rfl, by decide, rfl, rfl, rfl⟩
  · exact ⟨.ANY, rfl, by decide, rfl, rfl, rfl⟩

/-- C4 at the word COUNT. -/
theorem reserved_words_as_identifiers_witness :
    "COUNT" ∈ reserved_words ∧
    ∃ i : identifier, i.yield = [Token.lit "COUNT"] ∧ (Token.lit "COUNT").valid = true ∧
      (plan.mk [.relation ⟨⟨.pattern "READ"⟩, ⟨.pattern "r", none⟩, [.EMIT ⟨none, i⟩]⟩]
          false).yield
        = [Token.word "READ", Token.lit "RELATION", Token.word "r", Token.lit "\x7b",
            Token.lit "EMIT", Token.lit "COUNT", Token.lit ";", Token.lit "\x7d"] ∧
      (plan.mk [.schema_definition
          ⟨i, [⟨i, .simple_type ⟨.pattern "i32", false, none⟩, some i⟩]⟩] false).yield
        = [Token.lit "schema", Token.lit "COUNT", Token.lit "\x7b", Token.lit "COUNT",
            Token.word "i32", Token.lit "NAMED", Token.lit "COUNT", Token.lit ";",
            Token.lit "\x7d"] ∧
      (plan.mk [.root_relation ⟨i, [], false⟩] false).yield
        = [Token.lit "ROOT", Token.lit "\x7b", Token.lit "NAMES", Token.lit "=", Token.lit "[",
            Token.lit "COUNT", Token.lit "]", Token.lit "\x7d"] :=
  ⟨by decide, reserved_words_as_identifiers "COUNT" (by decide)⟩

/-! ## C5: the one-token expressions TRUE, FALSE and NULL -/

theorem constant.yield_lit_singleton (c : constant) (s : String)
    (h : c.yield = [Token.lit s]) :
    (c = .NULL none ∧ s = "NULL") ∨ (c = .TRUE none ∧ s = "TRUE") ∨
      (c = .FALSE none ∧ s = "FALSE") := by
  cases c with
  | number n ty => simp [constant.yield, number.yield] at h
  | string n ty => simp [constant.yield, string.yield] at h
  | map_literal m ty => cases m <;> simp [constant.yield, map_literal.yield] at h
  | struct_literal m ty => cases m <;> simp [constant.yield, struct_literal.yield] at h
  | NULL ty =>
    simp only [constant.yield, List.cons.injEq, Token.lit.injEq] at h
    rw [type_suffix_eq_nil ty h.2]
    exact Or.inl ⟨rfl, h.1.symm⟩
  | TRUE ty =>
    simp only [constant.yield, List.cons.injEq, Token.lit.injEq] at h
    rw [type_suffix_eq_nil ty h.2]
    exact Or.inr (Or.inl ⟨rfl, h.1.symm⟩)
  | FALSE ty =>
    simp only [constant.yield, List.cons.injEq, Token.lit.injEq] at h
    rw [type_suffix_eq_nil ty h.2]
    exact Or.inr (Or.inr ⟨rfl, h.1.symm⟩)

/-- C5, as stated, fails: the claim that each of the one-token expressions TRUE, FALSE and
NULL is derived through `constant` only and never as a column_reference is false, because
NULL is one of the words the `identifier` rule lists. -/
theorem reserved_literal_committed_counterexample :
    ¬ (∀ w ∈ ["TRUE", "FALSE", "NULL"], ∀ e : expression, e.yield = [Token.lit w] →
        (∃ c, e = .constant c) ∧ ¬ ∃ c, e = .column_reference c) := by
  intro h
  exact (h "NULL" (by simp) (.column_reference ⟨⟨none, .NULL⟩⟩) rfl).2 ⟨_, rfl⟩

/-- C5, amended: the one-token expression TRUE has exactly one derivation, the constant
TRUE without type suffix, and likewise FALSE; the one-token expression NULL has exactly two
derivations, the constant NULL without type suffix and the column_reference whose
column_name is the identifier NULL. -/
theorem reserved_literal_expression :
    (∀ e : expression, e.yield = [Token.lit "TRUE"] ↔ e = .constant (.TRUE none)) ∧
    (∀ e : expression, e.yield = [Token.lit "FALSE"] ↔ e = .constant (.FALSE none)) ∧
    (∀ e : expression, e.yield = [Token.lit "NULL"] ↔
      (e = .constant (.NULL none) ∨ e = .column_reference ⟨⟨none, .NULL⟩⟩)) := by
  refine ⟨fun e => ⟨fun h => ?_, fun h => by rw [h]; rfl⟩,
    fun e => ⟨fun h => ?_, fun h => by rw [h]; rfl⟩,
    fun e => ⟨fun h => ?_, fun h => by rcases h with h | h <;> (rw [h]; rfl)⟩⟩
  · rcases e.yield_singleton _ h with ⟨c, rfl, hc⟩ | ⟨i, rfl, hi⟩
    · rcases c.yield_lit_singleton _ hc with ⟨rfl, h1⟩ | ⟨rfl, -⟩ | ⟨rfl, h1⟩
      · exact absurd h1 (by decide)
      · rfl
      · exact absurd h1 (by decide)
    · exact absurd hi (i.token_ne rfl)
  · rcases e.yield_singleton _ h with ⟨c, rfl, hc⟩ | ⟨i, rfl, hi⟩
    · rcases c.yield_lit_singleton _ hc with ⟨rfl, h1⟩ | ⟨rfl, h1⟩ | ⟨rfl, -⟩
      · exact absurd h1 (by decide)
      · exact absurd h1 (by decide)
      · rfl
    · exact absurd hi (i.token_ne rfl)
  · rcases e.yield_singleton _ h with ⟨c, rfl, hc⟩ | ⟨i, rfl, hi⟩
    · rcases c.yield_lit_singleton _ hc with ⟨rfl, -⟩ | ⟨rfl, h1⟩ | ⟨rfl, h1⟩
      · exact Or.inl rfl
      · exact absurd h1 (by decide)
      · exact absurd h1 (by decide)
    · have : i = identifier.NULL := identifier.token_injective hi
      rw [this]
      exact Or.inr rfl

/-! ## C6: one token of lookahead behind a leading identifier -/

theorem expression.second_token (e : expression) (t : Token) (rest : List Token)
    (h : e.yield = t :: rest) (ht : t.is_identifier = true) :
    ((∃ f, e.leftmost = .function_call f) ∧ rest.head? = some (Token.lit "(")) ∨
    ((∃ c, e.leftmost = .column_reference c) ∧ rest.head? ≠ some (Token.lit "(")) ∨
    ((∃ s, e.leftmost = .constant (.NULL s)) ∧ t = Token.lit "NULL"
      ∧ rest.head? ≠ some (Token.lit "(")) := by
  obtain ⟨u, us, hu, -⟩ := e.leftmost.primary_yield_cons e.leftmost_is_primary
  have hy := e.yield_eq_leftmost
  rw [h, hu, List.cons_append, List.cons.injEq] at hy
  obtain ⟨rfl, rfl⟩ := hy
  have hsuf : (rep expression_suffix.yield e.suffixes).head? ≠ some (Token.lit "(") := by
    rcases expression_suffix.rep_yield_cases e.suffixes with hs | ⟨s, ss, hs, hst⟩
    · simp [hs, rep]
    · rw [hs]
      intro hh
      simp only [List.head?_cons, Option.some.injEq] at hh
      rw [hh] at hst
      simp [Token.starts_suffix] at hst
  rcases e.leftmost.primary_identifier_head e.leftmost_is_primary t us hu ht with
    ⟨f, hf, vs, rfl⟩ | ⟨c, hc, hus⟩ | ⟨s, hs, htn, hus⟩
  · exact Or.inl ⟨⟨f, hf⟩, rfl⟩
  · refine Or.inr (Or.inl ⟨⟨c, hc⟩, ?_⟩)
    rcases hus with rfl | ⟨i, rfl⟩
    · simpa using hsuf
    · simp
  · refine Or.inr (Or.inr ⟨⟨s, hs⟩, htn, ?_⟩)
    cases s with
    | none => rw [hus]; simpa [type_suffix, opt] using hsuf
    | some ty => rw [hus]; simp [type_suffix, opt]

/-- C6: an expression whose first token is an identifier is decided by its second token.
If the second token is `(`, the leftmost primary of the derivation is a function_call and
not a column_reference; if it is not `(` (or there is none) and the identifier is none of
TRUE, FALSE, NULL, the leftmost primary is a column_reference and not a function_call. -/
theorem expression_identifier_lookahead (e : expression) (t : Token) (rest : List Token)
    (h : e.yield = t :: rest) (ht : t.is_identifier = true) :
    (rest.head? = some (Token.lit "(") →
      (∃ f, e.leftmost = .function_call f) ∧ ∀ c, e.leftmost ≠ .column_reference c) ∧
    (rest.head? ≠ some (Token.lit "(") →
      t ≠ Token.lit "TRUE" → t ≠ Token.lit "FALSE" → t ≠ Token.lit "NULL" →
      (∃ c, e.leftmost = .column_reference c) ∧ ∀ f, e.leftmost ≠ .function_call f) := by
  rcases e.second_token t rest h ht with ⟨⟨f, hf⟩, hp⟩ | ⟨⟨c, hc⟩, hp⟩ | ⟨⟨s, hs⟩, hn, hp⟩
  · refine ⟨fun _ => ⟨⟨f, hf⟩, fun c hc => ?_⟩, fun hq => absurd hp hq⟩
    rw [hf] at hc
    exact expression.noConfusion hc
  · refine ⟨fun hq => absurd hq hp, fun _ _ _ _ => ⟨⟨c, hc⟩, fun f hf => ?_⟩⟩
    rw [hc] at hf
    exact expression.noConfusion hf
  · exact ⟨fun hq => absurd hq hp, fun _ _ _ hnn => absurd hn hnn⟩

/-- C6 at `a ( b ) AS i32` and at `a . b EQ ALL SUBQUERY r`. -/
theorem expression_identifier_lookahead_witness :
    ((∃ f, (expression.cast_expression (.mk (.function_call (.mk (.pattern "a")
        (some (.column_reference ⟨⟨none, .pattern "b"⟩⟩, [], false)) none))
        (.simple_type ⟨.pattern "i32", false, none⟩))).leftmost = .function_call f)
      ∧ ∀ c, (expression.cast_expression (.mk (.function_call (.mk (.pattern "a")
        (some (.column_reference ⟨⟨none, .pattern "b"⟩⟩, [], false)) none))
        (.simple_type ⟨.pattern "i32", false, none⟩))).leftmost ≠ .column_reference c) ∧
    ((∃ c, (expression.set_comparison_subquery (.mk
        (.column_reference ⟨⟨some (.pattern "a"), .pattern "b"⟩⟩) .EQ .ALL
        ⟨.pattern "r", none⟩)).leftmost = .column_reference c)
      ∧ ∀ f, (expression.set_comparison_subquery (.mk
        (.column_reference ⟨⟨some (.pattern "a"), .pattern "b"⟩⟩) .EQ .ALL
        ⟨.pattern "r", none⟩)).leftmost ≠ .function_call f) :=
  ⟨(expression_identifier_lookahead
      (expression.cast_expression (.mk (.function_call (.mk (.pattern "a")
        (some (.column_reference ⟨⟨none, .pattern "b"⟩⟩, [], false)) none))
        (.simple_type ⟨.pattern "i32", false, none⟩)))
      (Token.word "a")
      [Token.lit "(", Token.word "b", Token.lit ")", Token.lit "AS", Token.word "i32"]
      rfl rfl).1 rfl,
   (expression_identifier_lookahead
      (expression.set_comparison_subquery (.mk
        (.column_reference ⟨⟨some (.pattern "a"), .pattern "b"⟩⟩) .EQ .ALL
        ⟨.pattern "r", none⟩))
      (Token.word "a")
      [Token.lit ".", Token.word "b", Token.lit "EQ", Token.lit "ALL", Token.lit "SUBQUERY",
        Token.word "r"]
      rfl rfl).2 (by decide) (by decide) (by decide) (by decide)⟩

/-! ## C7: empty braces -/

theorem map_literal.map_literal_yield_braces (m : map_literal)
    (h : ∃ rest, m.yield = Token.lit "\x7b" :: Token.lit "\x7d" :: rest) : m = .empty := by
  obtain ⟨rest, h⟩ := h
  cases m with
  | empty => rfl
  | entries e es =>
    obtain ⟨k, v⟩ := e
    obtain ⟨t, ts, hk, ht, -⟩ := k.constant_yield_cons
    simp only [map_literal.yield, map_entry.yield, hk, List.cons_append, List.cons.injEq] at h
    rw [h.2.1] at ht
    simp [Token.starts_expression, reserved_words] at ht

theorem struct_literal.struct_literal_yield_braces (s : struct_literal)
    (h : ∃ rest, s.yield = Token.lit "\x7b" :: Token.lit "\x7d" :: rest) : s = .empty := by
  obtain ⟨rest, h⟩ := h
  cases s with
  | empty => rfl
  | fields c cs =>
    obtain ⟨t, ts, hk, ht, -⟩ := c.constant_yield_cons
    simp only [struct_literal.yield, hk, List.cons_append, List.cons.injEq] at h
    rw [h.2.1] at ht
    simp [Token.starts_expression, reserved_words] at ht

/-- C7, as stated, fails: it is not so that `{ }` is derived as a constant through
struct_literal only and that map_literal does not derive `{ }`; the first alternative of
map_literal is `seq('{', '}')`. -/
theorem empty_braces_struct_only_counterexample :
    ¬ ((∀ c : constant, c.yield = [Token.lit "\x7b", Token.lit "\x7d"] →
          ∃ s ty, c = .struct_literal s ty) ∧
        ¬ ∃ m : map_literal, m.yield = [Token.lit "\x7b", Token.lit "\x7d"]) := by
  intro h
  exact h.2 ⟨.empty, rfl⟩

/-- C7, amended: the two-token input `{ }` has exactly two derivations as a constant, the
empty map_literal and the empty struct_literal, both without type suffix; map_literal and
struct_literal each derive `{ }`, by their first alternative only. -/
theorem empty_braces_two_derivations :
    (∀ c : constant, c.yield = [Token.lit "\x7b", Token.lit "\x7d"] ↔
      (c = .map_literal .empty none ∨ c = .struct_literal .empty none)) ∧
    (∀ m : map_literal, m.yield = [Token.lit "\x7b", Token.lit "\x7d"] ↔ m = .empty) ∧
    (∀ s : struct_literal, s.yield = [Token.lit "\x7b", Token.lit "\x7d"] ↔ s = .empty) := by
  refine ⟨fun c => ⟨fun h => ?_, fun h => by rcases h with h | h <;> (rw [h]; rfl)⟩,
    fun m => ⟨fun h => m.map_literal_yield_braces ⟨[], h⟩, fun h => by rw [h]; rfl⟩,
    fun s => ⟨fun h => s.struct_literal_yield_braces ⟨[], h⟩, fun h => by rw [h]; rfl⟩⟩
  cases c with
  | number n ty => simp [constant.yield, number.yield] at h
  | string n ty => simp [constant.yield, string.yield] at h
  | map_literal m ty =>
    have hm : m = .empty := by
      apply m.map_literal_yield_braces
      cases m with
      | empty => exact ⟨[], rfl⟩
      | entries e es =>
        simp only [constant.yield, map_literal.yield, List.cons_append, List.cons.injEq] at h
        obtain ⟨k, v⟩ := e
        obtain ⟨t, ts, hk, ht, -⟩ := k.constant_yield_cons
        simp only [map_entry.yield, hk, List.cons_append, List.cons.injEq] at h
        rw [h.2.1] at ht
        simp [Token.starts_expression, reserved_words] at ht
    subst hm
    simp only [constant.yield, map_literal.yield, List.cons_append, List.nil_append,
      List.cons.injEq, true_and] at h
    rw [type_suffix_eq_nil ty h]
    exact Or.inl rfl
  | struct_literal s ty =>
    have hs : s = .empty := by
      apply s.struct_literal_yield_braces
      cases s with
      | empty => exact ⟨[], rfl⟩
      | fields c cs =>
        simp only [constant.yield, struct_literal.yield, List.cons_append, List.cons.injEq] at h
        obtain ⟨t, ts, hk, ht, -⟩ := c.constant_yield_cons
        simp only [hk, List.cons_append, List.cons.injEq] at h
        rw [h.2.1] at ht
        simp [Token.starts_expression, reserved_words] at ht
    subst hs
    simp only [constant.yield, struct_literal.yield, List.cons_append, List.nil_append,
      List.cons.injEq, true_and] at h
    rw [type_suffix_eq_nil ty h]
    exact Or.inr rfl
  | NULL ty => simp [constant.yield] at h
  | TRUE ty => simp [constant.yield] at h
  | FALSE ty => simp [constant.yield] at h

/-! ## C8: non-empty brace literals -/

theorem Token.in_type_of_is_identifier {t : Token} (h : t.is_identifier = true) :
    t.in_type = true := by
  cases t <;> simp_all [Token.is_identifier, Token.in_type]

theorem identifier.token_in_type (i : identifier) : i.token.in_type = true :=
  Token.in_type_of_is_identifier i.token_is_identifier

theorem opt_lit_all_in_type (q : Bool) (s : String) (h : (Token.lit s).in_type = true) :
    (opt_lit q s).all Token.in_type = true := by
  cases q <;> simp [opt_lit, h]

theorem type_specifier.tokens_in_type (s : type_specifier) :
    s.yield.all Token.in_type = true := by
  obtain ⟨n, ns⟩ := s
  have h : (commas number.yield ns).all Token.in_type = true := by
    induction ns with
    | nil => rfl
    | cons m ms ih =>
      simp only [commas, number.yield, List.cons_append, List.nil_append, List.all_cons, ih]
      rfl
  simp only [type_specifier.yield, number.yield, List.cons_append, List.nil_append,
    List.all_cons, List.all_append, h]
  rfl

theorem simple_type.tokens_in_simple_type (t : simple_type) :
    t.yield.all Token.in_type = true := by
  obtain ⟨n, q, s⟩ := t
  cases s with
  | none =>
    simp [simple_type.yield, identifier.yield, opt, n.token_in_type,
      opt_lit_all_in_type q "?" rfl, -List.all_eq_true]
  | some s =>
    simp [simple_type.yield, identifier.yield, opt, n.token_in_type,
      opt_lit_all_in_type q "?" rfl, s.tokens_in_type, -List.all_eq_true]

theorem opt_simple_type_in_type (k : Option simple_type) :
    (opt simple_type.yield k).all Token.in_type = true := by
  cases k with
  | none => rfl
  | some k => exact k.tokens_in_simple_type

mutual
theorem type.tokens_in_yield : ∀ t : type, t.yield.all Token.in_type = true
  | .simple_type t => by simpa [type.yield] using t.tokens_in_simple_type
  | .list_type t => by simpa [type.yield] using list_type.tokens_in_list_type t
  | .map_type t => by simpa [type.yield] using map_type.tokens_in_map_type t
  | .struct_type t => by simpa [type.yield] using struct_type.tokens_in_struct_type t
theorem list_type.tokens_in_list_type : ∀ t : list_type, t.yield.all Token.in_type = true
  | .mk q none => by
    simp [list_type.yield, type.yield_opt, opt_lit_all_in_type q "?" rfl, -List.all_eq_true]
    decide
  | .mk q (some e) => by
    simp [list_type.yield, type.yield_opt, opt_lit_all_in_type q "?" rfl,
      type.tokens_in_yield e, -List.all_eq_true]
    decide
theorem map_type.tokens_in_map_type : ∀ t : map_type, t.yield.all Token.in_type = true
  | .mk q k c none => by
    simp [map_type.yield, type.yield_opt, opt_lit_all_in_type q "?" rfl,
      opt_lit_all_in_type c "," rfl, opt_simple_type_in_type k, -List.all_eq_true]
    decide
  | .mk q k c (some v) => by
    simp [map_type.yield, type.yield_opt, opt_lit_all_in_type q "?" rfl,
      opt_lit_all_in_type c "," rfl, opt_simple_type_in_type k, type.tokens_in_yield v,
      -List.all_eq_true]
    decide
theorem struct_type.tokens_in_struct_type : ∀ t : struct_type, t.yield.all Token.in_type = true
  | .mk q none => by
    simp [struct_type.yield, opt_lit_all_in_type q "?" rfl, -List.all_eq_true]
    decide
  | .mk q (some (t, ts)) => by
    simp [struct_type.yield, opt_lit_all_in_type q "?" rfl, type.tokens_in_yield t,
      type.tokens_in_yield_commas ts, -List.all_eq_true]
    decide
theorem type.tokens_in_yield_commas :
    ∀ ts : List type, (type.yield_commas ts).all Token.in_type = true
  | [] => rfl
  | t :: ts => by
    simp [type.yield_commas, type.tokens_in_yield t, type.tokens_in_yield_commas ts,
      -List.all_eq_true]
    decide
end

theorem brace_depth_nil : brace_depth [] = 0 := rfl

theorem brace_depth_cons (t : Token) (l : List Token) :
    brace_depth (t :: l) = t.depth_change + brace_depth l := by
  simp [brace_depth]

theorem brace_depth_append (l₁ l₂ : List Token) :
    brace_depth (l₁ ++ l₂) = brace_depth l₁ + brace_depth l₂ := by
  simp [brace_depth]

theorem Token.depth_change_of_in_type {t : Token} (h : t.in_type = true) :
    t.depth_change = 0 ∧ t ≠ Token.lit ":" := by
  cases t with
  | lit s =>
    refine ⟨?_, fun e => ?_⟩
    · simp only [Token.depth_change]
      split_ifs with h₁ h₂
      · subst h₁; simp [Token.in_type, reserved_words] at h
      · subst h₂; simp [Token.in_type, reserved_words] at h
      · rfl
    · rw [e] at h; simp [Token.in_type, reserved_words] at h
  | word s => exact ⟨rfl, by simp⟩
  | number s => exact ⟨rfl, by simp⟩
  | string s => simp [Token.in_type] at h
  | uri s => simp [Token.in_type] at h

theorem colons_nested_nil (d : Int) : colons_nested d [] := by
  intro u v h
  simp at h

theorem colons_nested_cons (d : Int) (t : Token) (l : List Token) (ht : t ≠ Token.lit ":")
    (h : colons_nested (d + t.depth_change) l) : colons_nested d (t :: l) := by
  intro u v e
  rcases u with _ | ⟨b, u⟩
  · simp only [List.nil_append, List.cons.injEq] at e
    exact absurd e.1 ht
  · simp only [List.cons_append, List.cons.injEq] at e
    have := h u v e.2
    rw [brace_depth_cons, ← e.1]
    omega

theorem colons_nested_colon (d : Int) (l : List Token) (hd : 1 ≤ d)
    (h : colons_nested d l) : colons_nested d (Token.lit ":" :: l) := by
  intro u v e
  rcases u with _ | ⟨b, u⟩
  · simpa [brace_depth] using hd
  · simp only [List.cons_append, List.cons.injEq] at e
    have := h u v e.2
    rw [brace_depth_cons, ← e.1]
    simpa [Token.depth_change] using this

theorem colons_nested_append (d : Int) (l₁ l₂ : List Token) (h₁ : colons_nested d l₁)
    (h₂ : colons_nested (d + brace_depth l₁) l₂) : colons_nested d (l₁ ++ l₂) := by
  intro u v e
  rcases List.append_eq_append_iff.mp e with ⟨a, rfl, ha⟩ | ⟨c, hc, hv⟩
  · have := h₂ a v ha
    rw [brace_depth_append]
    omega
  · rcases c with _ | ⟨b, c⟩
    · simp only [List.nil_append] at hv
      simp only [List.append_nil] at hc
      have := h₂ [] v hv.symm
      rw [← hc]
      simpa [brace_depth] using this
    · simp only [List.cons_append, List.cons.injEq] at hv
      exact h₁ u c (by rw [hc, ← hv.1])

theorem brace_depth_of_in_type :
    ∀ l : List Token, l.all Token.in_type = true → brace_depth l = 0
  | [], _ => rfl
  | t :: l, h => by
    simp only [List.all_cons, Bool.and_eq_true] at h
    rw [brace_depth_cons, (Token.depth_change_of_in_type h.1).1,
      brace_depth_of_in_type l h.2]
    rfl

theorem colons_nested_of_in_type :
    ∀ (l : List Token) (d : Int), l.all Token.in_type = true → colons_nested d l
  | [], d, _ => colons_nested_nil d
  | t :: l, d, h => by
    simp only [List.all_cons, Bool.and_eq_true] at h
    apply colons_nested_cons d t l (Token.depth_change_of_in_type h.1).2
    rw [(Token.depth_change_of_in_type h.1).1]
    simpa using colons_nested_of_in_type l d h.2

theorem type_suffix_depth (s : Option type) :
    brace_depth (type_suffix s) = 0 ∧ ∀ d, colons_nested d (type_suffix s) := by
  cases s with
  | none => exact ⟨rfl, colons_nested_nil⟩
  | some t =>
    refine ⟨?_, fun d => ?_⟩
    · simp only [type_suffix, opt, brace_depth_cons, brace_depth_of_in_type _ t.tokens_in_yield]
      rfl
    · apply colons_nested_cons d _ _ (by decide)
      exact colons_nested_of_in_type _ _ t.tokens_in_yield

theorem brace_depth_braces (inner : List Token) (h : brace_depth inner = 0) :
    brace_depth (Token.lit "\x7b" :: inner ++ [Token.lit "\x7d"]) = 0 := by
  rw [List.cons_append, brace_depth_cons, brace_depth_append, h]
  rfl

theorem colons_nested_braces (d : Int) (inner : List Token)
    (h : colons_nested (d + 1) inner) :
    colons_nested d (Token.lit "\x7b" :: inner ++ [Token.lit "\x7d"]) := by
  rw [List.cons_append]
  apply colons_nested_cons d _ _ (by decide)
  apply colons_nested_append _ _ _ h
  apply colons_nested_cons _ _ _ (by decide)
  exact colons_nested_nil _

theorem suffix_colons (l : List Token) (s : Option type) (hl : brace_depth l = 0)
    (hc : ∀ d : Int, 0 ≤ d → colons_nested d l) :
    brace_depth (l ++ type_suffix s) = 0 ∧
      ∀ d : Int, 0 ≤ d → colons_nested d (l ++ type_suffix s) := by
  refine ⟨by rw [brace_depth_append, hl, (type_suffix_depth s).1]; rfl, fun d hd => ?_⟩
  exact colons_nested_append d _ _ (hc d hd) ((type_suffix_depth s).2 _)

theorem single_colons (t : Token) (ht : t ≠ Token.lit ":") (h0 : t.depth_change = 0) :
    brace_depth [t] = 0 ∧ ∀ d : Int, 0 ≤ d → colons_nested d [t] :=
  ⟨by rw [brace_depth_cons, h0]; rfl,
    fun d _ => colons_nested_cons d t [] ht (colons_nested_nil _)⟩

theorem leaf_suffix_colons (t : Token) (s : Option type) (ht : t ≠ Token.lit ":")
    (h0 : t.depth_change = 0) :
    brace_depth (t :: type_suffix s) = 0 ∧
      ∀ d : Int, 0 ≤ d → colons_nested d (t :: type_suffix s) :=
  suffix_colons [t] s (single_colons t ht h0).1 (single_colons t ht h0).2

mutual
theorem constant.colons_in_constant : ∀ c : constant,
    brace_depth c.yield = 0 ∧ ∀ d : Int, 0 ≤ d → colons_nested d c.yield
  | .number n s => by
    simpa [constant.yield, number.yield] using
      leaf_suffix_colons (Token.number n.text) s (by simp) rfl
  | .string n s => by
    simpa [constant.yield, string.yield] using
      leaf_suffix_colons (Token.string n.text) s (by simp) rfl
  | .map_literal m s => by
    simpa [constant.yield] using
      suffix_colons m.yield s (map_literal.colons_in_map_literal m).1
        (map_literal.colons_in_map_literal m).2
  | .struct_literal m s => by
    simpa [constant.yield] using
      suffix_colons m.yield s (struct_literal.colons_in_struct_literal m).1
        (fun d hd => (struct_literal.colons_in_struct_literal m).2 d (by omega))
  | .NULL s => by
    simpa [constant.yield] using
      leaf_suffix_colons (Token.lit "NULL") s (by decide) rfl
  | .TRUE s => by
    simpa [constant.yield] using
      leaf_suffix_colons (Token.lit "TRUE") s (by decide) rfl
  | .FALSE s => by
    simpa [constant.yield] using
      leaf_suffix_colons (Token.lit "FALSE") s (by decide) rfl
theorem map_literal.colons_in_map_literal : ∀ m : map_literal,
    brace_depth m.yield = 0 ∧ ∀ d : Int, 0 ≤ d → colons_nested d m.yield
  | .empty => by
    refine ⟨rfl, fun d _ => ?_⟩
    exact colons_nested_braces d [] (colons_nested_nil _)
  | .entries e es => by
    obtain ⟨he, hce⟩ := map_entry.colons_in_map_entry e
    obtain ⟨hes, hces⟩ := map_entry.colons_in_entries es
    have hb : brace_depth (e.yield ++ map_entry.yield_commas es) = 0 := by
      rw [brace_depth_append, he, hes]; rfl
    refine ⟨?_, fun d hd => ?_⟩
    · simpa [map_literal.yield] using brace_depth_braces _ hb
    · have := colons_nested_braces d (e.yield ++ map_entry.yield_commas es)
        (colons_nested_append _ _ _ (hce (d + 1) (by omega))
          (by rw [he]; exact hces _ (by omega)))
      simpa [map_literal.yield] using this
theorem map_entry.colons_in_map_entry : ∀ e : map_entry,
    brace_depth e.yield = 0 ∧ ∀ d : Int, 1 ≤ d → colons_nested d e.yield
  | .mk k v => by
    obtain ⟨hk, hck⟩ := constant.colons_in_constant k
    obtain ⟨hv, hcv⟩ := constant.colons_in_constant v
    refine ⟨?_, fun d hd => ?_⟩
    · rw [map_entry.yield, brace_depth_append, brace_depth_cons, hk, hv]; rfl
    · rw [map_entry.yield]
      apply colons_nested_append d _ _ (hck d (by omega))
      rw [hk]
      exact colons_nested_colon _ _ (by omega) (hcv _ (by omega))
theorem struct_literal.colons_in_struct_literal : ∀ s : struct_literal,
    brace_depth s.yield = 0 ∧ ∀ d : Int, -1 ≤ d → colons_nested d s.yield
  | .empty => by
    refine ⟨rfl, fun d _ => ?_⟩
    exact colons_nested_braces d [] (colons_nested_nil _)
  | .fields c cs => by
    obtain ⟨he, hce⟩ := constant.colons_in_constant c
    obtain ⟨hes, hces⟩ := constant.colons_in_constants cs
    have hb : brace_depth (c.yield ++ constant.yield_commas cs) = 0 := by
      rw [brace_depth_append, he, hes]; rfl
    refine ⟨?_, fun d hd => ?_⟩
    · simpa [struct_literal.yield] using brace_depth_braces _ hb
    · have := colons_nested_braces d (c.yield ++ constant.yield_commas cs)
        (colons_nested_append _ _ _ (hce (d + 1) (by omega))
          (by rw [he]; exact hces _ (by omega)))
      simpa [struct_literal.yield] using this
theorem map_entry.colons_in_entries : ∀ es : List map_entry,
    brace_depth (map_entry.yield_commas es) = 0 ∧
      ∀ d : Int, 1 ≤ d → colons_nested d (map_entry.yield_commas es)
  | [] => ⟨rfl, fun d _ => colons_nested_nil d⟩
  | e :: es => by
    obtain ⟨he, hce⟩ := map_entry.colons_in_map_entry e
    obtain ⟨hes, hces⟩ := map_entry.colons_in_entries es
    refine ⟨?_, fun d hd => ?_⟩
    · rw [map_entry.yield_commas, List.cons_append, brace_depth_cons, brace_depth_append, he, hes]
      rfl
    · rw [map_entry.yield_commas]
      apply colons_nested_cons d _ _ (by decide)
      apply colons_nested_append _ _ _ (hce _ (by simpa [Token.depth_change] using hd))
      rw [he]
      exact hces _ (by simpa [Token.depth_change] using hd)
theorem constant.colons_in_constants : ∀ cs : List constant,
    brace_depth (constant.yield_commas cs) = 0 ∧
      ∀ d : Int, 0 ≤ d → colons_nested d (constant.yield_commas cs)
  | [] => ⟨rfl, fun d _ => colons_nested_nil d⟩
  | c :: cs => by
    obtain ⟨he, hce⟩ := constant.colons_in_constant c
    obtain ⟨hes, hces⟩ := constant.colons_in_constants cs
    refine ⟨?_, fun d hd => ?_⟩
    · rw [constant.yield_commas, List.cons_append, brace_depth_cons, brace_depth_append, he, hes]
      rfl
    · rw [constant.yield_commas]
      apply colons_nested_cons d _ _ (by decide)
      apply colons_nested_append _ _ _ (hce _ (by simpa [Token.depth_change] using hd))
      rw [he]
      exact hces _ (by simpa [Token.depth_change] using hd)
end


theorem struct_literal.no_leading_entry (s : struct_literal) (k : constant)
    (rest : List Token) :
    s.yield ≠ Token.lit "\x7b" :: k.yield ++ Token.lit ":" :: rest := by
  intro h
  have hs := (struct_literal.colons_in_struct_literal s).2 (-1) (le_refl _)
    (Token.lit "\x7b" :: k.yield) rest h
  rw [brace_depth_cons, (constant.colons_in_constant k).1] at hs
  simp [Token.depth_change] at hs

/-- C8: non-empty brace literals are told apart by what follows their first element.  A
map_literal with entries derives `{`, the first key, then `:`; a struct_literal with fields
derives `{`, the first field, then `,` or `}`; no struct_literal derives a sequence that
begins with `{`, a constant and `:`; and a map_literal and a struct_literal derive the same
token sequence only when both are empty. -/
theorem brace_literal_by_content :
    (∀ (k v : constant) (es : List map_entry),
      (map_literal.entries (.mk k v) es).yield
        = Token.lit "\x7b" :: k.yield ++ Token.lit ":"
          :: (v.yield ++ map_entry.yield_commas es ++ [Token.lit "\x7d"])) ∧
    (∀ (c : constant) (cs : List constant), ∃ t rest,
      (struct_literal.fields c cs).yield = Token.lit "\x7b" :: c.yield ++ t :: rest ∧
      (t = Token.lit "," ∨ t = Token.lit "\x7d")) ∧
    (∀ (s : struct_literal) (k : constant) (rest : List Token),
      s.yield ≠ Token.lit "\x7b" :: k.yield ++ Token.lit ":" :: rest) ∧
    (∀ (m : map_literal) (s : struct_literal), m.yield = s.yield →
      m = .empty ∧ s = .empty) := by
  refine ⟨fun k v es => by simp [map_literal.yield, map_entry.yield], fun c cs => ?_,
    struct_literal.no_leading_entry, fun m s h => ?_⟩
  · cases cs with
    | nil =>
      exact ⟨Token.lit "\x7d", [], by simp [struct_literal.yield, constant.yield_commas],
        Or.inr rfl⟩
    | cons c' cs =>
      exact ⟨Token.lit ",", c'.yield ++ (constant.yield_commas cs ++ [Token.lit "\x7d"]),
        by simp [struct_literal.yield, constant.yield_commas], Or.inl rfl⟩
  · cases m with
    | empty =>
      exact ⟨rfl, s.struct_literal_yield_braces ⟨[], by rw [← h]; rfl⟩⟩
    | entries e es =>
      obtain ⟨k, v⟩ := e
      exact absurd h.symm (by
        simpa [map_literal.yield, map_entry.yield] using
          struct_literal.no_leading_entry s k
            (v.yield ++ map_entry.yield_commas es ++ [Token.lit "\x7d"]))

/-- C8 at `{ }`, the only token sequence that both rules derive. -/
theorem brace_literal_by_content_witness :
    map_literal.empty.yield = struct_literal.empty.yield ∧
    (map_literal.empty = map_literal.empty ∧ struct_literal.empty = struct_literal.empty) :=
  ⟨rfl, brace_literal_by_content.2.2.2 .empty .empty rfl⟩

/-! ## C9: the left-recursive pipeline rule and its iterative form -/

theorem relation_ref.relation_ref_yield_injective {r s : relation_ref}
    (h : r.yield = s.yield) : r = s := by
  obtain ⟨n, a⟩ := r
  obtain ⟨m, b⟩ := s
  cases a <;> cases b <;>
    simp [relation_ref.yield, opt, identifier.yield] at h
  · rw [identifier.token_injective h]
  · rw [identifier.token_injective h.1, identifier.token_injective h.2]

theorem relation_ref.arrow_not_mem (r : relation_ref) : Token.lit "->" ∉ r.yield := by
  obtain ⟨n, a⟩ := r
  have hn : ∀ i : identifier, ¬ Token.lit "->" = i.token := fun i h =>
    i.token_ne (t := Token.lit "->") rfl h.symm
  cases a <;> simp [relation_ref.yield, opt, identifier.yield, hn]

theorem pipeline.foldl_step_yield (rs : List Substrait.relation_ref) :
    ∀ p : pipeline, (rs.foldl pipeline.step p).yield
      = p.yield ++ rep (fun r => Token.lit "->" :: r.yield) rs := by
  induction rs with
  | nil => intro p; simp [rep]
  | cons r rs ih => intro p; simp [ih, pipeline.yield, rep]

theorem pipeline.foldl_step_refs (rs : List Substrait.relation_ref) :
    ∀ p : pipeline, (rs.foldl pipeline.step p).refs = p.refs ++ rs := by
  induction rs with
  | nil => intro p; simp
  | cons r rs ih => intro p; simp [ih, pipeline.refs]

theorem pipeline.eq_left_nested (p : pipeline) :
    ∃ r rs, p = pipeline.left_nested r rs := by
  induction p with
  | relation_ref r => exact ⟨r, [], rfl⟩
  | step p r ih =>
    obtain ⟨r₀, rs, rfl⟩ := ih
    exact ⟨r₀, rs ++ [r], by simp [pipeline.left_nested, List.foldl_append]⟩

theorem pipeline.arrow_mem_step (p : pipeline) (r : Substrait.relation_ref) :
    Token.lit "->" ∈ (pipeline.step p r).yield := by
  simp [pipeline.yield]

theorem pipeline.pipeline_yield_injective :
    ∀ p q : pipeline, p.yield = q.yield → p = q
  | .relation_ref r, .relation_ref s, h => by
    rw [relation_ref.relation_ref_yield_injective (r := r) (s := s) (by simpa [pipeline.yield] using h)]
  | .relation_ref r, .step q s, h => by
    have := pipeline.arrow_mem_step q s
    rw [← h] at this
    exact absurd this r.arrow_not_mem
  | .step p r, .relation_ref s, h => by
    have := pipeline.arrow_mem_step p r
    rw [h] at this
    exact absurd this s.arrow_not_mem
  | .step p r, .step q s, h => by
    obtain ⟨h₁, h₂⟩ := append_cons_unique (Token.lit "->") p.yield q.yield r.yield s.yield
      r.arrow_not_mem s.arrow_not_mem h
    rw [pipeline.pipeline_yield_injective p q h₁, relation_ref.relation_ref_yield_injective h₂]

/-- C9: the left-recursive rule `pipeline` derives exactly the token sequences of the
iterative form `relation_ref ('->' relation_ref)*`.  Every sequence of that form, with a
first reference and any number of further ones, is the yield of the left-nested pipeline
tree, which lists the references in source order; every pipeline tree is such a left-nested
tree, so its yield has the iterative form; and two pipeline trees with the same yield are
equal, so each such sequence has exactly one parse tree. -/
theorem pipeline_iterative_form :
    (∀ (r : relation_ref) (rs : List relation_ref),
      (pipeline.left_nested r rs).yield = pipeline_iterative r rs ∧
      (pipeline.left_nested r rs).refs = r :: rs) ∧
    (∀ p : pipeline, ∃ r rs, p = pipeline.left_nested r rs ∧ p.refs = r :: rs ∧
      p.yield = pipeline_iterative r rs) ∧
    (∀ p q : pipeline, p.yield = q.yield → p = q) := by
  have h₁ : ∀ (r : relation_ref) (rs : List relation_ref),
      (pipeline.left_nested r rs).yield = pipeline_iterative r rs ∧
      (pipeline.left_nested r rs).refs = r :: rs := fun r rs =>
    ⟨by simp [pipeline.left_nested, pipeline.foldl_step_yield, pipeline_iterative,
        pipeline.yield],
     by simp [pipeline.left_nested, pipeline.foldl_step_refs, pipeline.refs]⟩
  refine ⟨h₁, fun p => ?_, pipeline.pipeline_yield_injective⟩
  obtain ⟨r, rs, rfl⟩ := p.eq_left_nested
  exact ⟨r, rs, rfl, (h₁ r rs).2, (h₁ r rs).1⟩

/-- C9 at `a -> b ( SCHEMA s ) -> c`: the left-nested tree derives it, and a pipeline tree
with the same yield is that tree. -/
theorem pipeline_iterative_form_witness :
    (pipeline.step (.step (.relation_ref ⟨.pattern "a", none⟩)
        ⟨.pattern "b", some (.pattern "s")⟩) ⟨.pattern "c", none⟩).yield
      = [Token.word "a", Token.lit "->", Token.word "b", Token.lit "(",
        Token.lit "SCHEMA", Token.word "s", Token.lit ")", Token.lit "->", Token.word "c"] ∧
    pipeline.left_nested ⟨.pattern "a", none⟩
        [⟨.pattern "b", some (.pattern "s")⟩, ⟨.pattern "c", none⟩]
      = .step (.step (.relation_ref ⟨.pattern "a", none⟩)
          ⟨.pattern "b", some (.pattern "s")⟩) ⟨.pattern "c", none⟩ :=
  ⟨rfl, pipeline_iterative_form.2.2
    (pipeline.left_nested ⟨.pattern "a", none⟩
      [⟨.pattern "b", some (.pattern "s")⟩, ⟨.pattern "c", none⟩])
    (.step (.step (.relation_ref ⟨.pattern "a", none⟩)
      ⟨.pattern "b", some (.pattern "s")⟩) ⟨.pattern "c", none⟩) rfl⟩

/-! ## C10: top-level dispatch -/

/-- C10: top-level dispatch is unambiguous.  Every plan_detail tree derives a sequence of
at least two tokens, and `dispatch` on these two tokens alone returns the alternative of
the tree; hence two trees of different alternatives never derive the same token sequence.
With the relation type ROOT: `ROOT RELATION r { }` is a relation and dispatches to
relation, `ROOT { NAMES = [ a ] }` is the root_relation and dispatches to root_relation. -/
theorem plan_detail_dispatch :
    (∀ d : plan_detail, ∃ t₁ t₂ rest,
      d.yield = t₁ :: t₂ :: rest ∧ dispatch t₁ t₂ = some d.kind) ∧
    (∀ d₁ d₂ : plan_detail, d₁.yield = d₂.yield → d₁.kind = d₂.kind) ∧
    ((plan_detail.relation ⟨⟨.ROOT⟩, ⟨.pattern "r", none⟩, []⟩).yield
        = [Token.lit "ROOT", Token.lit "RELATION", Token.word "r", Token.lit "\x7b",
            Token.lit "\x7d"] ∧
      dispatch (Token.lit "ROOT") (Token.lit "RELATION") = some .relation) ∧
    ((plan_detail.root_relation ⟨.pattern "a", [], false⟩).yield
        = [Token.lit "ROOT", Token.lit "\x7b", Token.lit "NAMES", Token.lit "=", Token.lit "[",
            Token.word "a", Token.lit "]", Token.lit "\x7d"] ∧
      dispatch (Token.lit "ROOT") (Token.lit "\x7b") = some .root_relation) := by
  refine ⟨plan_detail.yield_dispatch, fun d₁ d₂ h => ?_, ⟨rfl, rfl⟩, ⟨rfl, rfl⟩⟩
  obtain ⟨t₁, t₂, rest, h₁, k₁⟩ := d₁.yield_dispatch
  obtain ⟨u₁, u₂, rest', h₂, k₂⟩ := d₂.yield_dispatch
  rw [h₁, h₂] at h
  simp only [List.cons.injEq] at h
  rw [h.1, h.2.1, k₂] at k₁
  exact (Option.some.inj k₁).symm

/-- C10 at `ROOT RELATION r { }` against `ROOT { NAMES = [ a ] }`: trees with the same yield
have the same alternative, and these two differ. -/
theorem plan_detail_dispatch_witness :
    (plan_detail.relation ⟨⟨.ROOT⟩, ⟨.pattern "r", none⟩, []⟩).kind = .relation ∧
    (plan_detail.relation ⟨⟨.ROOT⟩, ⟨.pattern "r", none⟩, []⟩).yield
      ≠ (plan_detail.root_relation ⟨.pattern "a", [], false⟩).yield :=
  ⟨plan_detail_dispatch.2.1 (plan_detail.relation ⟨⟨.ROOT⟩, ⟨.pattern "r", none⟩, []⟩)
      (plan_detail.relation ⟨⟨.ROOT⟩, ⟨.pattern "r", none⟩, []⟩) rfl,
    by decide⟩

/-! ## More shared facts -/

/-- A type that starts with a word and is followed by a token that is neither `?` nor `<`
is the simple type of that word. -/
theorem type.type_word_then (t : type) (s : String) (t₂ : Token) (rest more : List Token)
    (h : t.yield ++ rest = Token.word s :: t₂ :: more)
    (h₁ : t₂ ≠ Token.lit "?") (h₂ : t₂ ≠ Token.lit "<") :
    t = .simple_type ⟨.pattern s, false, none⟩ ∧ rest = t₂ :: more := by
  cases t with
  | simple_type t =>
    obtain ⟨n, q, sp⟩ := t
    cases q <;> cases sp <;>
      simp [type.yield, simple_type.yield, identifier.yield, opt_lit, opt,
        type_specifier.yield] at h
    · rw [identifier.token_injective (j := .pattern s) h.1]
      exact ⟨rfl, h.2⟩
    · exact absurd h.2.1.symm h₂
    · exact absurd h.2.1.symm h₁
    · exact absurd h.2.1.symm h₁
  | list_type t => cases t; simp [type.yield, list_type.yield] at h
  | map_type t => cases t; simp [type.yield, map_type.yield] at h
  | struct_type t =>
    obtain ⟨q, f⟩ := t
    rcases f with _ | ⟨t, ts⟩ <;> simp [type.yield, struct_type.yield] at h

/-! ## What the derivative matcher accepts -/

namespace Regex

theorem matches_nil (r : Regex) : r.matches_ [] = r.nullable := rfl

theorem matches_cons (r : Regex) (c : Char) (s : List Char) :
    r.matches_ (c :: s) = (r.deriv c).matches_ s := rfl

theorem matches_nothing : ∀ s : List Char, nothing.matches_ s = false
  | [] => rfl
  | c :: s => by rw [matches_cons]; exact matches_nothing s

theorem matches_empty (s : List Char) : empty.matches_ s = true ↔ s = [] := by
  cases s with
  | nil => simp [matches_nil, nullable]
  | cons c s => simp [matches_cons, deriv, matches_nothing]

theorem matches_cls (p : Char → Bool) (s : List Char) :
    (cls p).matches_ s = true ↔ ∃ c, s = [c] ∧ p c = true := by
  cases s with
  | nil => simp [matches_nil, nullable]
  | cons c s =>
    rw [matches_cons]
    simp only [deriv]
    split_ifs with h
    · rw [matches_empty]
      constructor
      · rintro rfl
        exact ⟨c, rfl, h⟩
      · rintro ⟨d, hd, -⟩
        simp only [List.cons.injEq] at hd
        exact hd.2
    · simp only [matches_nothing, Bool.false_eq_true, false_iff]
      rintro ⟨d, hd, hp⟩
      simp only [List.cons.injEq] at hd
      rw [← hd.1] at hp
      exact h hp

theorem matches_choice : ∀ (s : List Char) (a b : Regex),
    (choice a b).matches_ s = (a.matches_ s || b.matches_ s)
  | [], a, b => rfl
  | c :: s, a, b => by
    simp only [matches_cons, deriv]
    exact matches_choice s _ _

theorem matches_seq : ∀ (s : List Char) (a b : Regex),
    (seq a b).matches_ s = true ↔
      ∃ u v, s = u ++ v ∧ a.matches_ u = true ∧ b.matches_ v = true
  | [], a, b => by
    simp only [matches_nil, nullable, Bool.and_eq_true]
    constructor
    · rintro ⟨ha, hb⟩
      exact ⟨[], [], rfl, ha, hb⟩
    · rintro ⟨u, v, h, ha, hb⟩
      obtain ⟨rfl, rfl⟩ := List.append_eq_nil.mp h.symm
      exact ⟨ha, hb⟩
  | c :: s, a, b => by
    rw [matches_cons]
    simp only [deriv]
    split_ifs with hn
    · rw [matches_choice, Bool.or_eq_true, matches_seq s]
      constructor
      · rintro (⟨u, v, rfl, ha, hb⟩ | hb)
        · exact ⟨c :: u, v, rfl, ha, hb⟩
        · exact ⟨[], c :: s, rfl, hn, hb⟩
      · rintro ⟨u, v, h, ha, hb⟩
        rcases u with _ | ⟨d, u⟩
        · simp only [List.nil_append] at h
          subst h
          exact Or.inr hb
        · simp only [List.cons_append, List.cons.injEq] at h
          obtain ⟨rfl, rfl⟩ := h
          exact Or.inl ⟨u, v, rfl, ha, hb⟩
    · rw [matches_seq s]
      constructor
      · rintro ⟨u, v, rfl, ha, hb⟩
        exact ⟨c :: u, v, rfl, ha, hb⟩
      · rintro ⟨u, v, h, ha, hb⟩
        rcases u with _ | ⟨d, u⟩
        · exact absurd ha hn
        · simp only [List.cons_append, List.cons.injEq] at h
          obtain ⟨rfl, rfl⟩ := h
          exact ⟨u, v, rfl, ha, hb⟩

theorem matches_star_nil (a : Regex) : (star a).matches_ [] = true := rfl

theorem matches_star_cons (a : Regex) (c : Char) (s : List Char) :
    (star a).matches_ (c :: s) = true ↔
      ∃ u v, s = u ++ v ∧ a.matches_ (c :: u) = true ∧ (star a).matches_ v = true := by
  rw [matches_cons]
  simp only [deriv]
  rw [matches_seq]
  rfl

theorem matches_star_append (a : Regex) (u v : List Char) (hu : a.matches_ u = true)
    (hv : (star a).matches_ v = true) : (star a).matches_ (u ++ v) = true := by
  cases u with
  | nil => exact hv
  | cons c u => exact (matches_star_cons a c (u ++ v)).mpr ⟨u, v, rfl, hu, hv⟩

theorem matches_star_cls (p : Char → Bool) : ∀ s : List Char,
    (star (cls p)).matches_ s = true ↔ ∀ c ∈ s, p c = true
  | [] => by simp [matches_star_nil]
  | c :: s => by
    rw [matches_star_cons]
    constructor
    · rintro ⟨u, v, rfl, hu, hv⟩
      obtain ⟨d, hd, hp⟩ := (matches_cls p _).mp hu
      simp only [List.cons.injEq] at hd
      obtain ⟨rfl, rfl⟩ := hd
      intro x hx
      simp only [List.nil_append, List.mem_cons] at hx
      rcases hx with rfl | hx
      · exact hp
      · exact (matches_star_cls p v).mp hv x hx
    · intro h
      refine ⟨[], s, rfl, (matches_cls p _).mpr ⟨c, rfl, h c (by simp)⟩, ?_⟩
      exact (matches_star_cls p s).mpr (fun x hx => h x (by simp [hx]))

theorem matches_chr (c : Char) (s : List Char) : (chr c).matches_ s = true ↔ s = [c] := by
  rw [chr, matches_cls]
  constructor
  · rintro ⟨d, rfl, hd⟩
    simp only [beq_iff_eq] at hd
    rw [hd]
  · rintro rfl
    exact ⟨c, rfl, by simp⟩

theorem matches_opt (r : Regex) (s : List Char) :
    (opt r).matches_ s = true ↔ (r.matches_ s = true ∨ s = []) := by
  rw [opt, matches_choice, Bool.or_eq_true, matches_empty]

theorem matches_plus_cls (p : Char → Bool) (s : List Char) :
    (plus (cls p)).matches_ s = true ↔ (s ≠ [] ∧ ∀ c ∈ s, p c = true) := by
  rw [plus, matches_seq]
  constructor
  · rintro ⟨u, v, rfl, hu, hv⟩
    obtain ⟨d, rfl, hp⟩ := (matches_cls p _).mp hu
    refine ⟨by simp, fun x hx => ?_⟩
    simp only [List.cons_append, List.nil_append, List.mem_cons] at hx
    rcases hx with rfl | hx
    · exact hp
    · exact (matches_star_cls p v).mp hv x hx
  · rintro ⟨hne, h⟩
    rcases s with _ | ⟨c, s⟩
    · exact absurd rfl hne
    · exact ⟨[c], s, rfl, (matches_cls p _).mpr ⟨c, rfl, h c (by simp)⟩,
        (matches_star_cls p s).mpr (fun x hx => h x (by simp [hx]))⟩

theorem matches_foldr_chr (t s : List Char) :
    (t.foldr (fun c r => seq (chr c) r) empty).matches_ s = true ↔ s = t := by
  induction t generalizing s with
  | nil => simpa using matches_empty s
  | cons c t ih =>
    simp only [List.foldr_cons]
    rw [matches_seq]
    constructor
    · rintro ⟨u, v, rfl, hu, hv⟩
      rw [(matches_chr c u).mp hu, (ih v).mp hv]
      rfl
    · rintro rfl
      exact ⟨[c], t, rfl, (matches_chr c _).mpr rfl, (ih t).mpr rfl⟩

theorem matches_str (t : String) (s : List Char) :
    (str t).matches_ s = true ↔ s = t.toList :=
  matches_foldr_chr t.toList s

end Regex

/-! ## The four forms of `string` -/

theorem matches_star_dot (s : List Char) :
    (Regex.star Regex.dot).matches_ s = true ↔ ∀ c ∈ s, is_line_terminator c = false := by
  rw [Regex.dot, Regex.matches_star_cls]
  constructor
  · intro h c hc
    have := h c hc
    simp only [Bool.and_eq_true, bne_iff_ne, ne_eq] at this
    simp [is_line_terminator, this]
  · intro h c hc
    have := h c hc
    simp only [is_line_terminator, Bool.or_eq_false_iff, beq_eq_false_iff_ne, ne_eq] at this
    simp [this]

theorem matches_dot (s : List Char) :
    Regex.dot.matches_ s = true ↔ ∃ c, s = [c] ∧ is_line_terminator c = false := by
  rw [Regex.dot, Regex.matches_cls]
  constructor
  · rintro ⟨c, rfl, hc⟩
    simp only [Bool.and_eq_true, bne_iff_ne, ne_eq] at hc
    exact ⟨c, rfl, by simp [is_line_terminator, hc]⟩
  · rintro ⟨c, rfl, hc⟩
    simp only [is_line_terminator, Bool.or_eq_false_iff, beq_eq_false_iff_ne, ne_eq] at hc
    exact ⟨c, rfl, by simp [hc]⟩

/-- Texts between a fixed opening and a fixed closing delimiter. -/
theorem matches_delimited (op cl : String) (r : Regex) (s : List Char) :
    (Regex.seq (Regex.str op) (Regex.seq r (Regex.str cl))).matches_ s = true ↔
      ∃ body, s = op.toList ++ body ++ cl.toList ∧ r.matches_ body = true := by
  rw [Regex.matches_seq]
  constructor
  · rintro ⟨u, v, rfl, hu, hv⟩
    obtain ⟨body, w, rfl, hb, hw⟩ := (Regex.matches_seq _ _ _).mp hv
    rw [(Regex.matches_str _ _).mp hu, (Regex.matches_str _ _).mp hw]
    exact ⟨body, by simp, hb⟩
  · rintro ⟨body, rfl, hb⟩
    exact ⟨op.toList, body ++ cl.toList, by simp, (Regex.matches_str _ _).mpr rfl,
      (Regex.matches_seq _ _ _).mpr ⟨body, cl.toList, rfl, hb, (Regex.matches_str _ _).mpr rfl⟩⟩

theorem string_backtick_iff (s : List Char) :
    string_backtick.matches_ s = true ↔
      ∃ body, s = '`' :: body ++ ['`'] ∧ ∀ c ∈ body, c ≠ '`' := by
  rw [string_backtick, matches_delimited]
  constructor
  · rintro ⟨body, rfl, hb⟩
    refine ⟨body, rfl, fun c hc => ?_⟩
    simpa using (Regex.matches_star_cls _ body).mp hb c hc
  · rintro ⟨body, rfl, hb⟩
    exact ⟨body, rfl, (Regex.matches_star_cls _ body).mpr (fun c hc => by simpa using hb c hc)⟩

theorem string_double_backtick_iff (s : List Char) :
    string_double_backtick.matches_ s = true ↔
      ∃ body, s = '`' :: '`' :: body ++ ['`', '`'] ∧
        ∀ c ∈ body, is_line_terminator c = false := by
  rw [string_double_backtick, matches_delimited]
  constructor
  · rintro ⟨body, rfl, hb⟩
    exact ⟨body, rfl, (matches_star_dot body).mp hb⟩
  · rintro ⟨body, rfl, hb⟩
    exact ⟨body, rfl, (matches_star_dot body).mpr hb⟩

theorem string_triple_backtick_iff (s : List Char) :
    string_triple_backtick.matches_ s = true ↔
      ∃ body, s = '`' :: '`' :: '`' :: body ++ ['`', '`', '`'] ∧
        ∀ c ∈ body, is_line_terminator c = false := by
  rw [string_triple_backtick, matches_delimited]
  constructor
  · rintro ⟨body, rfl, hb⟩
    exact ⟨body, rfl, (matches_star_dot body).mp hb⟩
  · rintro ⟨body, rfl, hb⟩
    exact ⟨body, rfl, (matches_star_dot body).mpr hb⟩

theorem quoted_body_matches (body : List Char)
    (h : quoted_body (fun c => !is_line_terminator c) body) :
    (Regex.star (Regex.choice (Regex.cls (fun c => c != '"' && c != '\\'))
      (Regex.seq (Regex.chr '\\') Regex.dot))).matches_ body = true := by
  induction h with
  | nil => rfl
  | plain c rest h₁ h₂ _ ih =>
    refine Regex.matches_star_append _ [c] rest ?_ ih
    rw [Regex.matches_choice, Bool.or_eq_true]
    exact Or.inl ((Regex.matches_cls _ _).mpr ⟨c, rfl, by simp [h₁, h₂]⟩)
  | escape c rest h₁ _ ih =>
    refine Regex.matches_star_append _ ['\\', c] rest ?_ ih
    rw [Regex.matches_choice, Bool.or_eq_true]
    refine Or.inr ((Regex.matches_seq _ _ _).mpr ⟨['\\'], [c], rfl,
      (Regex.matches_chr _ _).mpr rfl, (matches_dot _).mpr ⟨c, rfl, ?_⟩⟩)
    simpa using h₁

theorem matches_quoted_body : ∀ (n : Nat) (body : List Char), body.length ≤ n →
    (Regex.star (Regex.choice (Regex.cls (fun c => c != '"' && c != '\\'))
      (Regex.seq (Regex.chr '\\') Regex.dot))).matches_ body = true →
    quoted_body (fun c => !is_line_terminator c) body
  | _, [], _, _ => quoted_body.nil
  | 0, c :: s, hn, _ => by simp at hn
  | n + 1, c :: s, hn, h => by
    obtain ⟨u, v, rfl, hu, hv⟩ := (Regex.matches_star_cons _ c s).mp h
    simp only [List.length_cons, List.length_append] at hn
    rw [Regex.matches_choice, Bool.or_eq_true] at hu
    rcases hu with hu | hu
    · obtain ⟨d, hd, hp⟩ := (Regex.matches_cls _ _).mp hu
      simp only [List.cons.injEq] at hd
      obtain ⟨rfl, rfl⟩ := hd
      simp only [Bool.and_eq_true, bne_iff_ne, ne_eq] at hp
      exact quoted_body.plain c v hp.1 hp.2 (matches_quoted_body n v (by omega) hv)
    · obtain ⟨a, b, hab, ha, hb⟩ := (Regex.matches_seq _ _ _).mp hu
      rw [(Regex.matches_chr _ _).mp ha] at hab
      obtain ⟨d, rfl, hd⟩ := (matches_dot _).mp hb
      simp only [List.cons_append, List.nil_append, List.cons.injEq] at hab
      obtain ⟨rfl, rfl⟩ := hab
      exact quoted_body.escape d v (by simp [hd])
        (matches_quoted_body n v (by simp at hn; omega) hv)

theorem string_double_quoted_iff (s : List Char) :
    string_double_quoted.matches_ s = true ↔
      ∃ body, s = '"' :: body ++ ['"'] ∧
        quoted_body (fun c => !is_line_terminator c) body := by
  rw [string_double_quoted, Regex.matches_seq]
  constructor
  · rintro ⟨u, v, rfl, hu, hv⟩
    obtain ⟨body, w, rfl, hb, hw⟩ := (Regex.matches_seq _ _ _).mp hv
    rw [(Regex.matches_chr _ _).mp hu, (Regex.matches_chr _ _).mp hw]
    exact ⟨body, rfl, matches_quoted_body _ body (le_refl _) hb⟩
  · rintro ⟨body, rfl, hb⟩
    exact ⟨['"'], body ++ ['"'], rfl, (Regex.matches_chr _ _).mpr rfl,
      (Regex.matches_seq _ _ _).mpr ⟨body, ['"'], rfl, quoted_body_matches body hb,
        (Regex.matches_chr _ _).mpr rfl⟩⟩

/-! ## C11: are the four forms of `string` exclusive? -/

theorem string_backtick_not_double (s : List Char) (h₁ : string_backtick.matches_ s = true) :
    string_double_backtick.matches_ s = false := by
  rw [Bool.eq_false_iff]
  intro h₂
  obtain ⟨b, rfl, hb⟩ := (string_backtick_iff s).mp h₁
  obtain ⟨b', h, -⟩ := (string_double_backtick_iff _).mp h₂
  simp only [List.cons_append, List.cons.injEq, true_and] at h
  rcases b with _ | ⟨c, b⟩
  · simp at h
  · simp only [List.cons_append, List.cons.injEq] at h
    exact hb c (by simp) h.1

theorem string_triple_is_double (s : List Char) (h : string_triple_backtick.matches_ s = true) :
    string_double_backtick.matches_ s = true := by
  obtain ⟨b, rfl, hb⟩ := (string_triple_backtick_iff s).mp h
  refine (string_double_backtick_iff _).mpr ⟨'`' :: b ++ ['`'], by simp, fun c hc => ?_⟩
  simp only [List.cons_append, List.mem_cons, List.mem_append, List.mem_singleton,
    List.not_mem_nil, or_false] at hc
  rcases hc with rfl | hc | rfl
  · rfl
  · exact hb c hc
  · rfl

theorem string_quoted_not_backtick (s : List Char)
    (h₁ : string_double_quoted.matches_ s = true) :
    string_backtick.matches_ s = false ∧ string_double_backtick.matches_ s = false ∧
      string_triple_backtick.matches_ s = false := by
  obtain ⟨b, rfl, -⟩ := (string_double_quoted_iff s).mp h₁
  refine ⟨?_, ?_, ?_⟩ <;> rw [Bool.eq_false_iff] <;> intro h₂
  · obtain ⟨b', h, -⟩ := (string_backtick_iff _).mp h₂
    simp at h
  · obtain ⟨b', h, -⟩ := (string_double_backtick_iff _).mp h₂
    simp at h
  · obtain ⟨b', h, -⟩ := (string_triple_backtick_iff _).mp h₂
    simp at h

/-- C11, as stated, fails: the four alternatives of `string` are not pairwise exclusive;
three backticks, `x`, three backticks is matched by the double-backtick and by the
triple-backtick alternative. -/
theorem string_forms_exclusive_counterexample :
    ¬ (∀ s : List Char,
        ¬ (string_double_quoted.matches_ s = true ∧ string_backtick.matches_ s = true) ∧
        ¬ (string_double_quoted.matches_ s = true ∧ string_double_backtick.matches_ s = true) ∧
        ¬ (string_double_quoted.matches_ s = true ∧ string_triple_backtick.matches_ s = true) ∧
        ¬ (string_backtick.matches_ s = true ∧ string_double_backtick.matches_ s = true) ∧
        ¬ (string_backtick.matches_ s = true ∧ string_triple_backtick.matches_ s = true) ∧
        ¬ (string_double_backtick.matches_ s = true ∧
            string_triple_backtick.matches_ s = true)) := by
  intro h
  exact (h "```x```".toList).2.2.2.2.2 ⟨by decide, by decide⟩

/-- C11, amended: the double-quoted, the single-backtick and the double-backtick form are
pairwise exclusive, and the triple-backtick form is exclusive with the double-quoted and
with the single-backtick form; but every text matched by the triple-backtick alternative is
also matched by the double-backtick alternative, since `repeat(/./)` matches backticks. -/
theorem string_forms_overlap :
    (∀ s : List Char,
      ¬ (string_double_quoted.matches_ s = true ∧ string_backtick.matches_ s = true) ∧
      ¬ (string_double_quoted.matches_ s = true ∧ string_double_backtick.matches_ s = true) ∧
      ¬ (string_double_quoted.matches_ s = true ∧ string_triple_backtick.matches_ s = true) ∧
      ¬ (string_backtick.matches_ s = true ∧ string_double_backtick.matches_ s = true) ∧
      ¬ (string_backtick.matches_ s = true ∧ string_triple_backtick.matches_ s = true)) ∧
    (∀ s : List Char, string_triple_backtick.matches_ s = true →
      string_double_backtick.matches_ s = true) ∧
    (string_double_backtick.matches_ "```x```".toList = true ∧
      string_triple_backtick.matches_ "```x```".toList = true) := by
  refine ⟨fun s => ⟨?_, ?_, ?_, ?_, ?_⟩, string_triple_is_double, by decide, by decide⟩
  · rintro ⟨h₁, h₂⟩
    rw [(string_quoted_not_backtick s h₁).1] at h₂
    exact Bool.noConfusion h₂
  · rintro ⟨h₁, h₂⟩
    rw [(string_quoted_not_backtick s h₁).2.1] at h₂
    exact Bool.noConfusion h₂
  · rintro ⟨h₁, h₂⟩
    rw [(string_quoted_not_backtick s h₁).2.2] at h₂
    exact Bool.noConfusion h₂
  · rintro ⟨h₁, h₂⟩
    rw [string_backtick_not_double s h₁] at h₂
    exact Bool.noConfusion h₂
  · rintro ⟨h₁, h₂⟩
    have := string_triple_is_double s h₂
    rw [string_backtick_not_double s h₁] at this
    exact Bool.noConfusion this

/-- C11 at three backticks, `x`, three backticks. -/
theorem string_forms_overlap_witness :
    string_triple_backtick.matches_ "```x```".toList = true ∧
    string_double_backtick.matches_ "```x```".toList = true :=
  ⟨by decide, string_forms_overlap.2.1 "```x```".toList (by decide)⟩

/-! ## C12: what the double-backtick and the double-quoted forms match -/

theorem double_backtick_text_iff (s : List Char) :
    string_double_backtick.matches_ ('`' :: '`' :: s ++ ['`', '`']) = true ↔
      ∀ c ∈ s, is_line_terminator c = false := by
  rw [string_double_backtick_iff]
  constructor
  · rintro ⟨body, h, hb⟩
    simp only [List.cons_append, List.cons.injEq, true_and] at h
    rw [List.append_left_inj] at h
    rw [h]
    exact hb
  · intro h
    exact ⟨s, rfl, h⟩

theorem string_pattern_double_backtick_text (s : List Char) :
    string_pattern.matches_ ('`' :: '`' :: s ++ ['`', '`']) = true ↔
      ∀ c ∈ s, is_line_terminator c = false := by
  rw [← double_backtick_text_iff]
  simp only [string_pattern, Regex.matches_choice, Bool.or_eq_true]
  constructor
  · rintro (h | h | h | h)
    · obtain ⟨b, hb, -⟩ := (string_double_quoted_iff _).mp h
      simp at hb
    · have h₂ := string_backtick_not_double _ h
      obtain ⟨b, hb, hn⟩ := (string_backtick_iff _).mp h
      simp only [List.cons_append, List.cons.injEq, true_and] at hb
      rcases b with _ | ⟨c, b⟩
      · simp at hb
      · simp only [List.cons_append, List.cons.injEq] at hb
        exact absurd hb.1.symm (hn c (by simp))
    · exact h
    · exact string_triple_is_double _ h
  · intro h
    exact Or.inr (Or.inr (Or.inl h))

theorem double_quoted_text_iff (body : List Char) :
    string_double_quoted.matches_ ('"' :: body ++ ['"']) = true ↔
      quoted_body (fun c => !is_line_terminator c) body := by
  rw [string_double_quoted_iff]
  constructor
  · rintro ⟨b, h, hb⟩
    simp only [List.cons_append, List.cons.injEq, true_and] at h
    rw [List.append_left_inj] at h
    rw [h]
    exact hb
  · intro h
    exact ⟨body, rfl, h⟩

/-- C12, as stated, fails in both halves.  A text between double backticks that holds a line
break (and no two consecutive backticks) is not matched by `string`; and the double-quoted
form does not match a body with the escape `\` followed by a line break, so it does not match
exactly the bodies made of characters other than `"` and `\` and of escapes `\` plus any
character. -/
theorem string_raw_and_escapes_counterexample :
    ¬ (∀ s : List Char, ¬ ['`', '`'] <:+: s →
        string_pattern.matches_ ('`' :: '`' :: s ++ ['`', '`']) = true) ∧
    ¬ (∀ body : List Char, string_double_quoted.matches_ ('"' :: body ++ ['"']) = true ↔
        quoted_body (fun _ => true) body) := by
  constructor
  · intro h
    have := h ['\n'] (by decide)
    revert this
    decide
  · intro h
    have := (h ['\\', '\n']).mpr (quoted_body.escape '\n' [] rfl quoted_body.nil)
    revert this
    decide

/-- C12, amended: for every text s without a line terminator (LF, CR, U+2028, U+2029; s may
hold single and double backticks, quotes and backslashes), two backticks, s, two backticks
is matched by the double-backtick alternative and so by `string`, and with a line
terminator in s it is matched by neither; the double-quoted form matches `"` body `"`
exactly when body is a sequence of characters other than `"` and `\` and of two-character
escapes, `\` followed by a character that is not a line terminator; so an escaped quote
inside the body does not end the string. -/
theorem string_raw_and_escapes :
    (∀ s : List Char,
      string_double_backtick.matches_ ('`' :: '`' :: s ++ ['`', '`']) = true ↔
        ∀ c ∈ s, is_line_terminator c = false) ∧
    (∀ s : List Char,
      string_pattern.matches_ ('`' :: '`' :: s ++ ['`', '`']) = true ↔
        ∀ c ∈ s, is_line_terminator c = false) ∧
    (∀ body : List Char, string_double_quoted.matches_ ('"' :: body ++ ['"']) = true ↔
      quoted_body (fun c => !is_line_terminator c) body) ∧
    (string_double_quoted.matches_ "\"a\\\"b\"".toList = true ∧
      string_double_quoted.matches_ "\"a\\\"".toList = false) ∧
    string_pattern.matches_ "``a`b\"c\\d``".toList = true := by
  exact ⟨double_backtick_text_iff, string_pattern_double_backtick_text,
    double_quoted_text_iff, ⟨by decide, by decide⟩, by decide⟩

/-- The amended C12 at the text two backticks, a, backtick, b, two backticks. -/
theorem string_raw_and_escapes_witness :
    string_pattern.matches_ ('`' :: '`' :: ['a', '`', 'b'] ++ ['`', '`']) = true :=
  (string_raw_and_escapes.2.1 ['a', '`', 'b']).mpr (by decide)

/-! ## C13: a schema with a malformed item -/

theorem type.type_yield_cons (t : type) :
    ∃ tok rest, t.yield = tok :: rest ∧ tok.in_type = true := by
  have h := t.tokens_in_yield
  rcases hy : t.yield with _ | ⟨tok, rest⟩
  · exact absurd hy t.type_yield_ne_nil
  · rw [hy] at h
    simp only [List.all_cons, Bool.and_eq_true] at h
    exact ⟨tok, rest, rfl, h.1⟩

/-- A schema item is an identifier followed by a type: its second token is one a type can
begin with. -/
theorem schema_item.yield_cons (i : schema_item) :
    ∃ tok rest, i.yield = i.name.token :: tok :: rest ∧ tok.in_type = true := by
  obtain ⟨n, ty, nm⟩ := i
  obtain ⟨tok, rest, h, ht⟩ := ty.type_yield_cons
  exact ⟨tok, rest ++ (named_clause nm ++ [Token.lit ";"]),
    by simp [schema_item.yield, identifier.yield, h], ht⟩

/-- Inversion of a plan that starts with `schema S { a i32 NAMED x ;`. -/
theorem plan.schema_prefix (p : plan) (tail : List Token)
    (h : p.yield = Token.lit "schema" :: Token.word "S" :: Token.lit "\x7b" :: Token.word "a"
      :: Token.word "i32" :: Token.lit "NAMED" :: Token.word "x" :: Token.lit ";" :: tail) :
    ∃ (items : List schema_item) (ds : List plan_detail) (sc : Bool),
      p = ⟨.schema_definition ⟨.pattern "S",
          ⟨.pattern "a", .simple_type ⟨.pattern "i32", false, none⟩, some (.pattern "x")⟩
            :: items⟩ :: ds, sc⟩ ∧
      rep schema_item.yield items ++ Token.lit "\x7d"
          :: (rep plan_detail.yield ds ++ opt_lit sc ";") = tail := by
  have n₁ := fun i : identifier => i.token_eq_iff_false (t := Token.lit "schema") rfl
  obtain ⟨ds, sc⟩ := p
  rcases ds with _ | ⟨d, ds⟩
  · cases sc <;> simp [plan.yield, rep, opt_lit] at h
  simp only [plan.yield, rep] at h
  cases d with
  | pipelines p => simp [plan_detail.yield, pipelines.yield] at h
  | relation r =>
    simp [plan_detail.yield, relation.yield, relation_type.yield, identifier.yield, n₁] at h
  | root_relation r => simp [plan_detail.yield, root_relation.yield] at h
  | source_definition s => simp [plan_detail.yield, source_definition.yield] at h
  | extension_space e => simp [plan_detail.yield, extension_space.yield] at h
  | schema_definition s =>
    obtain ⟨nm, items⟩ := s
    simp only [plan_detail.yield, schema_definition.yield, identifier.yield,
      List.cons_append, List.nil_append, List.append_assoc, List.cons.injEq, true_and] at h
    obtain ⟨hnm, h⟩ := h
    have hnm' := identifier.token_injective (j := .pattern "S") hnm
    subst hnm'
    rcases items with _ | ⟨⟨n₀, ty, named⟩, items⟩
    · simp [rep] at h
    simp only [rep, schema_item.yield, identifier.yield, List.cons_append, List.nil_append,
      List.append_assoc, List.cons.injEq] at h
    obtain ⟨hn₀, h⟩ := h
    have hn₀' := identifier.token_injective (j := .pattern "a") hn₀
    subst hn₀'
    obtain ⟨hty, h₂⟩ := ty.type_word_then "i32" _ _ _ h (by decide) (by decide)
    subst hty
    cases named with
    | none => simp [named_clause, opt] at h₂
    | some j =>
      simp only [named_clause, opt, identifier.yield, List.cons_append, List.nil_append,
        List.cons.injEq, true_and] at h₂
      obtain ⟨hj, h₃⟩ := h₂
      have hj' := identifier.token_injective (j := .pattern "x") hj
      subst hj'
      exact ⟨items, ds, sc, rfl, h₃⟩

theorem plan.schema_one_item (p : plan)
    (h : p.yield = [Token.lit "schema", Token.word "S", Token.lit "\x7b", Token.word "a",
        Token.word "i32", Token.lit "NAMED", Token.word "x", Token.lit ";", Token.lit "\x7d"]) :
    p = plan.mk [.schema_definition ⟨.pattern "S",
        [⟨.pattern "a", .simple_type ⟨.pattern "i32", false, none⟩, some (.pattern "x")⟩]⟩]
        false := by
  obtain ⟨items, ds, sc, rfl, h₂⟩ := p.schema_prefix _ h
  rcases items with _ | ⟨i, items⟩
  swap
  · obtain ⟨tok, rest, hi, -⟩ := i.yield_cons
    simp [rep, hi] at h₂
  rcases ds with _ | ⟨d, ds⟩
  swap
  · obtain ⟨t₁, t₂, r, hd, -⟩ := d.yield_dispatch
    simp [rep, hd] at h₂
  cases sc
  · rfl
  · simp [rep, opt_lit] at h₂

theorem plan.schema_bad_item (p : plan) :
    p.yield ≠ [Token.lit "schema", Token.word "S", Token.lit "\x7b", Token.word "a",
        Token.word "i32", Token.lit "NAMED", Token.word "x", Token.lit ";",
        Token.word "BADTOKEN", Token.lit ";", Token.lit "\x7d"] := by
  intro h
  obtain ⟨items, ds, sc, rfl, h₂⟩ := p.schema_prefix _ h
  rcases items with _ | ⟨i, items⟩
  · simp [rep] at h₂
  · obtain ⟨tok, rest, hi, ht⟩ := i.yield_cons
    simp only [rep, hi, List.cons_append, List.cons.injEq] at h₂
    rw [h₂.2.1] at ht
    simp [Token.in_type, reserved_words] at ht

/-! ### The parser with recovery -/

theorem expect_lit_ok (s : String) (ts r : List Token) (h : expect_lit s ts = .ok r) :
    ts = Token.lit s :: r := by
  cases ts with
  | nil => simp [expect_lit] at h
  | cons t ts =>
    simp only [expect_lit] at h
    split at h
    · rename_i e
      simp only [Except.ok.injEq] at h
      rw [e, h]
    · simp at h

theorem accept_lit_eq (s : String) (ts : List Token) :
    opt_lit (accept_lit s ts).1 s ++ (accept_lit s ts).2 = ts := by
  cases ts with
  | nil => rfl
  | cons t ts =>
    simp only [accept_lit]
    split
    · rename_i e
      simp [opt_lit, e]
    · simp [opt_lit]

theorem identifier.of_token_sound (t : Token) (i : identifier)
    (h : identifier.of_token t = some i) : i.token = t := by
  cases t with
  | word s =>
    simp only [identifier.of_token, Option.some.injEq] at h
    rw [← h]
    rfl
  | lit s => simpa using List.find?_some h
  | number s => simpa using List.find?_some h
  | string s => simpa using List.find?_some h
  | uri s => simpa using List.find?_some h

theorem identifier.identifier_parse_sound (ts r : List Token) (i : identifier)
    (h : identifier.parse ts = .ok (i, r)) : ts = i.token :: r := by
  cases ts with
  | nil => simp [identifier.parse] at h
  | cons t ts =>
    simp only [identifier.parse] at h
    split at h
    · rename_i j e
      simp only [Except.ok.injEq, Prod.mk.injEq] at h
      obtain ⟨rfl, rfl⟩ := h
      rw [identifier.of_token_sound t j e]
    · simp at h

theorem number.number_parse_sound (ts r : List Token) (n : number)
    (h : number.parse ts = .ok (n, r)) : ts = Token.number n.text :: r := by
  cases ts with
  | nil => simp [number.parse] at h
  | cons t ts =>
    cases t <;> simp [number.parse] at h
    obtain ⟨rfl, rfl⟩ := h
    rfl

theorem number.parse_commas_eq : ∀ ts : List Token,
    commas number.yield (number.parse_commas ts).1 ++ (number.parse_commas ts).2 = ts
  | [] => by simp [number.parse_commas, commas]
  | [t] => by simp [number.parse_commas, commas]
  | t :: Token.number s :: ts => by
    rw [number.parse_commas]
    split
    · rename_i e
      have ih := number.parse_commas_eq ts
      simp only [commas, number.yield, List.cons_append, List.nil_append, List.append_assoc]
      rw [ih, e]
    · simp [commas]
  | t :: Token.lit s :: ts => by simp [number.parse_commas, commas]
  | t :: Token.word s :: ts => by simp [number.parse_commas, commas]
  | t :: Token.string s :: ts => by simp [number.parse_commas, commas]
  | t :: Token.uri s :: ts => by simp [number.parse_commas, commas]

theorem type_specifier.type_specifier_parse_sound (ts r : List Token) (s : type_specifier)
    (h : type_specifier.parse ts = .ok (s, r)) : ts = s.yield ++ r := by
  simp only [type_specifier.parse] at h
  split at h
  · simp at h
  rename_i ts₁ e₁
  split at h
  · simp at h
  rename_i n ts₂ e₂
  split at h
  · simp at h
  rename_i ts₃ e₃
  simp only [Except.ok.injEq, Prod.mk.injEq] at h
  obtain ⟨rfl, rfl⟩ := h
  have h₁ := expect_lit_ok _ _ _ e₁
  have h₂ := number.number_parse_sound _ _ _ e₂
  have h₃ := expect_lit_ok _ _ _ e₃
  have h₄ := number.parse_commas_eq ts₂
  rw [h₃] at h₄
  rw [h₁, h₂]
  conv_lhs => rw [← h₄]
  simp [type_specifier.yield, number.yield]

theorem simple_type.simple_type_parse_sound (ts r : List Token) (s : simple_type)
    (h : simple_type.parse ts = .ok (s, r)) : ts = s.yield ++ r := by
  simp only [simple_type.parse] at h
  split at h
  · simp at h
  rename_i i ts₁ e₁
  have h₁ := identifier.identifier_parse_sound _ _ _ e₁
  have h₂ := accept_lit_eq "?" ts₁
  split at h
  · rename_i sp ts₂ e₂
    simp only [Except.ok.injEq, Prod.mk.injEq] at h
    obtain ⟨rfl, rfl⟩ := h
    have h₃ := type_specifier.type_specifier_parse_sound _ _ _ e₂
    rw [h₃] at h₂
    rw [h₁]
    conv_lhs => rw [← h₂]
    simp [simple_type.yield, identifier.yield, opt]
  · simp only [Except.ok.injEq, Prod.mk.injEq] at h
    obtain ⟨rfl, rfl⟩ := h
    rw [h₁]
    conv_lhs => rw [← h₂]
    simp [simple_type.yield, identifier.yield, opt]

theorem type.type_parse_sound_all : ∀ n : Nat,
    (∀ ts t r, type.parse n ts = .ok (t, r) → ts = t.yield ++ r) ∧
    (∀ ts, type.yield_opt (type.parse_opt n ts).1 ++ (type.parse_opt n ts).2 = ts) ∧
    (∀ ts, type.yield_commas (type.parse_commas n ts).1 ++ (type.parse_commas n ts).2 = ts)
  | 0 => by
    refine ⟨fun ts t r h => ?_, fun ts => ?_, fun ts => ?_⟩
    · simp [type.parse] at h
    · simp [type.parse_opt, type.yield_opt]
    · simp [type.parse_commas, type.yield_commas]
  | n + 1 => by
    obtain ⟨ih₁, ih₂, ih₃⟩ := type.type_parse_sound_all n
    refine ⟨fun ts t r h => ?_, fun ts => ?_, fun ts => ?_⟩
    · cases ts with
      | nil => simp [type.parse] at h
      | cons t₀ ts =>
        have hq := accept_lit_eq "?" ts
        rw [type.parse] at h
        split at h
        · rename_i e
          split at h
          · simp at h
          rename_i ts₁ e₁
          split at h
          · simp at h
          rename_i ts₂ e₂
          simp only [Except.ok.injEq, Prod.mk.injEq] at h
          obtain ⟨rfl, rfl⟩ := h
          have h₁ := expect_lit_ok _ _ _ e₁
          have h₂ := expect_lit_ok _ _ _ e₂
          have h₃ := ih₂ ts₁
          rw [h₂] at h₃
          rw [h₁] at hq
          rw [e]
          conv_lhs => rw [← hq, ← h₃]
          simp [type.yield, list_type.yield]
        · split at h
          · rename_i e
            split at h
            · simp at h
            rename_i ts₁ e₁
            have h₁ := expect_lit_ok _ _ _ e₁
            rw [h₁] at hq
            split at h
            · rename_i k ts₂ e₂
              split at h
              · simp at h
              rename_i ts₃ e₃
              simp only [Except.ok.injEq, Prod.mk.injEq] at h
              obtain ⟨rfl, rfl⟩ := h
              have h₂ := simple_type.simple_type_parse_sound _ _ _ e₂
              have h₃ := expect_lit_ok _ _ _ e₃
              have h₄ := ih₂ (accept_lit "," ts₂).2
              have h₅ := accept_lit_eq "," ts₂
              rw [h₃] at h₄
              rw [e]
              conv_lhs => rw [← hq, h₂, ← h₅, ← h₄]
              simp [type.yield, map_type.yield, opt]
            · split at h
              · simp at h
              rename_i ts₃ e₃
              simp only [Except.ok.injEq, Prod.mk.injEq] at h
              obtain ⟨rfl, rfl⟩ := h
              have h₃ := expect_lit_ok _ _ _ e₃
              have h₄ := ih₂ (accept_lit "," ts₁).2
              have h₅ := accept_lit_eq "," ts₁
              rw [h₃] at h₄
              rw [e]
              conv_lhs => rw [← hq, ← h₅, ← h₄]
              simp [type.yield, map_type.yield, opt]
          · split at h
            · rename_i e
              split at h
              · simp at h
              rename_i ts₁ e₁
              have h₁ := expect_lit_ok _ _ _ e₁
              rw [h₁] at hq
              split at h
              · rename_i f ts₂ e₂
                split at h
                · simp at h
                rename_i ts₃ e₃
                simp only [Except.ok.injEq, Prod.mk.injEq] at h
                obtain ⟨rfl, rfl⟩ := h
                have h₂ := ih₁ _ _ _ e₂
                have h₃ := expect_lit_ok _ _ _ e₃
                have h₄ := ih₃ ts₂
                rw [h₃] at h₄
                rw [e]
                conv_lhs => rw [← hq, h₂, ← h₄]
                simp [type.yield, struct_type.yield]
              · split at h
                · simp at h
                rename_i ts₃ e₃
                simp only [Except.ok.injEq, Prod.mk.injEq] at h
                obtain ⟨rfl, rfl⟩ := h
                have h₃ := expect_lit_ok _ _ _ e₃
                rw [e]
                conv_lhs => rw [← hq, h₃]
                simp [type.yield, struct_type.yield]
            · split at h
              · rename_i s ts₁ e₁
                simp only [Except.ok.injEq, Prod.mk.injEq] at h
                obtain ⟨rfl, rfl⟩ := h
                rw [simple_type.simple_type_parse_sound _ _ _ e₁]
                simp [type.yield]
              · simp at h
    · rw [type.parse_opt]
      split
      · rename_i t ts₁ e
        simp only [type.yield_opt]
        exact (ih₁ _ _ _ e).symm
      · simp [type.yield_opt]
    · cases ts with
      | nil => simp [type.parse_commas, type.yield_commas]
      | cons t₀ ts =>
        rw [type.parse_commas]
        split
        · rename_i e
          split
          · rename_i x ts₁ e₁
            have h₁ := ih₁ _ _ _ e₁
            have h₂ := ih₃ ts₁
            simp only [type.yield_commas, List.cons_append, List.append_assoc]
            rw [h₂, e, h₁]
          · simp [type.yield_commas]
        · simp [type.yield_commas]

theorem type.type_parse_sound (n : Nat) (ts r : List Token) (t : type)
    (h : type.parse n ts = .ok (t, r)) : ts = t.yield ++ r :=
  (type.type_parse_sound_all n).1 ts t r h

theorem schema_item.schema_item_parse_sound (ts r : List Token) (i : schema_item)
    (h : schema_item.parse ts = .ok (i, r)) : ts = i.yield ++ r := by
  simp only [schema_item.parse] at h
  split at h
  · simp at h
  rename_i n ts₁ e₁
  have h₁ := identifier.identifier_parse_sound _ _ _ e₁
  split at h
  · simp at h
  rename_i ty ts₂ e₂
  have h₂ := (type.type_parse_sound_all _).1 _ _ _ e₂
  have hq := accept_lit_eq "NAMED" ts₂
  split at h
  · rename_i e
    rw [e] at hq
    split at h
    · simp at h
    rename_i a ts₃ e₃
    have h₃ := identifier.identifier_parse_sound _ _ _ e₃
    split at h
    · simp at h
    rename_i ts₄ e₄
    have h₄ := expect_lit_ok _ _ _ e₄
    simp only [Except.ok.injEq, Prod.mk.injEq] at h
    obtain ⟨rfl, rfl⟩ := h
    rw [h₁, h₂, ← hq, h₃, h₄]
    simp [schema_item.yield, identifier.yield, named_clause, opt, opt_lit]
  · split at h
    · simp at h
    rename_i ts₄ e₄
    have h₄ := expect_lit_ok _ _ _ e₄
    simp only [Except.ok.injEq, Prod.mk.injEq] at h
    obtain ⟨rfl, rfl⟩ := h
    rw [h₁, h₂, h₄]
    simp [schema_item.yield, identifier.yield, named_clause, opt]

theorem schema_item.yield_ne_nil (i : schema_item) : i.yield ≠ [] := by
  simp [schema_item.yield, identifier.yield]

theorem skip_to_recovery_append : ∀ (ts : List Token) (d : Nat),
    (skip_to_recovery d ts).1 ++ (skip_to_recovery d ts).2 = ts
  | [], d => by simp [skip_to_recovery]
  | t :: ts, 0 => by
    rw [skip_to_recovery]
    split
    · simp
    · split
      · simp
      · split
        · simp [skip_to_recovery_append ts 1]
        · simp [skip_to_recovery_append ts 0]
  | t :: ts, d + 1 => by
    rw [skip_to_recovery]
    split
    · simp [skip_to_recovery_append ts d]
    · split
      · simp [skip_to_recovery_append ts (d + 2)]
      · simp [skip_to_recovery_append ts (d + 1)]

theorem skip_to_recovery_progress (t : Token) (ts : List Token)
    (h : t ≠ Token.lit "\x7d") : (skip_to_recovery 0 (t :: ts)).1 ≠ [] := by
  rw [skip_to_recovery, if_neg h]
  split
  · simp
  · split <;> simp

theorem skip_to_recovery_length (t : Token) (ts : List Token)
    (h : t ≠ Token.lit "\x7d") : (skip_to_recovery 0 (t :: ts)).2.length ≤ ts.length := by
  have h₁ := congrArg List.length (skip_to_recovery_append (t :: ts) 0)
  have h₂ := List.length_pos.mpr (skip_to_recovery_progress t ts h)
  simp only [List.length_append, List.length_cons] at h₁
  omega

theorem recover_body_spec {α : Type} (item : List Token → Except Diagnostic (α × List Token))
    (f : α → List Token)
    (hs : ∀ ts i r, item ts = .ok (i, r) → ts = f i ++ r ∧ f i ≠ []) :
    ∀ (n : Nat) (ts : List Token), ts.length ≤ n →
      rep (body_node.tokens f) (recover_body item n ts).nodes ++ (recover_body item n ts).rest
        = ts ∧
      ((recover_body item n ts).rest = [] ∨
        ∃ r, (recover_body item n ts).rest = Token.lit "\x7d" :: r) ∧
      (recover_body item n ts).diagnostics.length
        = ((recover_body item n ts).nodes.filter body_node.is_error).length
  | 0, ts, h => by
    have : ts = [] := List.length_eq_zero.mp (Nat.le_zero.mp h)
    subst this
    simp [recover_body, rep]
  | n + 1, [], _ => by simp [recover_body, rep]
  | n + 1, t :: ts, h => by
    rw [recover_body]
    split
    · rename_i e
      simp [rep, e]
    · rename_i e
      split
      · rename_i i ts₁ e₁
        obtain ⟨h₁, h₂⟩ := hs _ _ _ e₁
        have hl : ts₁.length ≤ n := by
          have := congrArg List.length h₁
          have := List.length_pos.mpr h₂
          simp only [List.length_append, List.length_cons] at *
          omega
        obtain ⟨a, b, c⟩ := recover_body_spec item f hs n ts₁ hl
        refine ⟨?_, b, ?_⟩
        · simp only [rep, body_node.tokens, List.append_assoc]
          rw [a]
          exact h₁.symm
        · simp only [List.filter_cons, body_node.is_error]
          simpa using c
      · rename_i d e₁
        have hl : (skip_to_recovery 0 (t :: ts)).2.length ≤ n := by
          have := skip_to_recovery_length t ts e
          simp only [List.length_cons] at h
          omega
        obtain ⟨a, b, c⟩ := recover_body_spec item f hs n _ hl
        refine ⟨?_, b, ?_⟩
        · simp only [rep, body_node.tokens, List.append_assoc]
          rw [a]
          exact skip_to_recovery_append _ _
        · simp only [List.filter_cons, body_node.is_error, List.length_cons]
          simpa using c

theorem body_no_errors {α : Type} (f : α → List Token) : ∀ nodes : List (body_node α),
    (nodes.filter body_node.is_error).length = 0 →
    ∃ items : List α, nodes = items.map body_node.matched ∧
      rep (body_node.tokens f) nodes = rep f items
  | [], _ => ⟨[], rfl, rfl⟩
  | .matched i :: nodes, h => by
    simp only [List.filter_cons, body_node.is_error] at h
    obtain ⟨items, h₁, h₂⟩ := body_no_errors f nodes (by simpa using h)
    exact ⟨i :: items, by rw [h₁]; rfl, by simp [rep, body_node.tokens, h₂]⟩
  | .error s :: nodes, h => by
    simp [List.filter_cons, body_node.is_error] at h

theorem schema_definition.parse_recovering_spec (ts rest : List Token) (r : recovered_schema)
    (ds : List Diagnostic) (h : schema_definition.parse_recovering ts = .ok (r, ds, rest)) :
    r.tokens ++ rest = ts ∧ ds.length = r.errors + (if r.closed then 0 else 1) ∧
    (ds = [] → ∃ s : schema_definition, s.yield ++ rest = ts ∧ r.name = s.name ∧
      r.body = s.items.map body_node.matched ∧ r.closed = true) := by
  simp only [schema_definition.parse_recovering] at h
  split at h
  · simp at h
  rename_i ts₁ e₁
  have h₁ := expect_lit_ok _ _ _ e₁
  split at h
  · simp at h
  rename_i n ts₂ e₂
  have h₂ := identifier.identifier_parse_sound _ _ _ e₂
  split at h
  · simp at h
  rename_i ts₃ e₃
  have h₃ := expect_lit_ok _ _ _ e₃
  obtain ⟨a, b, c⟩ := recover_body_spec schema_item.parse schema_item.yield
    (fun ts i r e => ⟨schema_item.schema_item_parse_sound ts r i e, i.yield_ne_nil⟩) ts₃.length ts₃
    (le_refl _)
  split at h
  · rename_i ts₄ e₄
    have h₄ := expect_lit_ok _ _ _ e₄
    simp only [Except.ok.injEq, Prod.mk.injEq] at h
    obtain ⟨rfl, rfl, rfl⟩ := h
    rw [h₄] at a
    refine ⟨?_, ?_, ?_⟩
    · rw [h₁, h₂, h₃]
      conv_rhs => rw [← a]
      simp [recovered_schema.tokens, opt_lit]
    · simpa [recovered_schema.errors] using c
    · intro hd
      rw [hd] at c
      obtain ⟨items, hi, ht⟩ := body_no_errors schema_item.yield _ c.symm
      refine ⟨⟨n, items⟩, ?_, rfl, hi, rfl⟩
      rw [h₁, h₂, h₃]
      conv_rhs => rw [← a]
      simp [schema_definition.yield, identifier.yield, ht]
  · rename_i d e₄
    simp only [Except.ok.injEq, Prod.mk.injEq] at h
    obtain ⟨rfl, rfl, rfl⟩ := h
    refine ⟨?_, ?_, ?_⟩
    · rw [h₁, h₂, h₃]
      conv_rhs => rw [← a]
      simp [recovered_schema.tokens, opt_lit]
    · simp [recovered_schema.errors, c]
    · intro hd
      simp at hd

theorem expect_lit_cons (s : String) (r : List Token) :
    expect_lit s (Token.lit s :: r) = .ok r := by
  simp [expect_lit]

theorem accept_lit_opt (q : Bool) (s : String) (rest : List Token)
    (h : rest.head? ≠ some (Token.lit s)) :
    accept_lit s (opt_lit q s ++ rest) = (q, rest) := by
  cases q with
  | true => simp [opt_lit, accept_lit]
  | false =>
    cases rest with
    | nil => rfl
    | cons t r =>
      have : t ≠ Token.lit s := fun e => h (by rw [e]; rfl)
      simp [opt_lit, accept_lit, this]

theorem identifier.of_token_token (i : identifier) : identifier.of_token i.token = some i := by
  cases i <;> rfl

theorem identifier.parse_token (i : identifier) (r : List Token) :
    identifier.parse (i.token :: r) = .ok (i, r) := by
  simp [identifier.parse, identifier.of_token_token]

theorem identifier.identifier_parse_error (t : Token) (r : List Token) (h : t.is_identifier = false) :
    ∃ d, identifier.parse (t :: r) = .error d := by
  cases e : identifier.of_token t with
  | none => exact ⟨⟨"identifier", some t, []⟩, by simp [identifier.parse, e]⟩
  | some i =>
    have := identifier.of_token_sound t i e
    rw [← this, identifier.token_is_identifier] at h
    exact Bool.noConfusion h

theorem number.parse_commas_stop (t : Token) (r : List Token) (h : t ≠ Token.lit ",") :
    number.parse_commas (t :: r) = ([], t :: r) := by
  rcases r with _ | ⟨u, r⟩
  · simp [number.parse_commas]
  · cases u <;> simp [number.parse_commas, h]

theorem number.number_parse_commas_complete : ∀ (ns : List number) (r : List Token),
    number.parse_commas (commas number.yield ns ++ Token.lit ">" :: r)
      = (ns, Token.lit ">" :: r)
  | [], r => by simpa [commas] using number.parse_commas_stop _ r (by decide)
  | n :: ns, r => by
    simp only [commas, number.yield, List.cons_append, List.nil_append, List.append_assoc,
      List.singleton_append]
    rw [number.parse_commas]
    simp [number.number_parse_commas_complete ns r]

theorem type_specifier.type_specifier_parse_complete (s : type_specifier) (r : List Token) :
    type_specifier.parse (s.yield ++ r) = .ok (s, r) := by
  obtain ⟨n, ns⟩ := s
  simp only [type_specifier.yield, number.yield, List.cons_append, List.nil_append,
    List.append_assoc, List.singleton_append]
  simp [type_specifier.parse, expect_lit_cons, number.parse, number.number_parse_commas_complete]

theorem type_specifier.type_specifier_parse_error (t : Token) (r : List Token) (h : t ≠ Token.lit "<") :
    ∃ d, type_specifier.parse (t :: r) = .error d := by
  simp [type_specifier.parse, expect_lit, h]

theorem simple_type.simple_type_parse_complete (s : simple_type) (rest : List Token)
    (h₁ : rest.head? ≠ some (Token.lit "?")) (h₂ : rest.head? ≠ some (Token.lit "<")) :
    simple_type.parse (s.yield ++ rest) = .ok (s, rest) := by
  obtain ⟨i, q, sp⟩ := s
  cases sp with
  | some sp =>
    simp only [simple_type.yield, identifier.yield, opt, List.cons_append, List.nil_append,
      List.append_assoc]
    have ha : accept_lit "?" (opt_lit q "?" ++ (sp.yield ++ rest))
        = (q, sp.yield ++ rest) := by
      apply accept_lit_opt
      obtain ⟨n, ns⟩ := sp
      simp [type_specifier.yield]
    simp [simple_type.parse, identifier.parse_token, ha, type_specifier.type_specifier_parse_complete]
  | none =>
    simp only [simple_type.yield, identifier.yield, opt, List.cons_append, List.nil_append,
      List.append_assoc, List.append_nil]
    have ha : accept_lit "?" (opt_lit q "?" ++ rest) = (q, rest) := accept_lit_opt _ _ _ h₁
    cases rest with
    | nil =>
      simp only [List.append_nil] at ha
      simp [simple_type.parse, identifier.parse_token, ha, type_specifier.parse,
        expect_lit]
    | cons t r =>
      have ht : t ≠ Token.lit "<" := fun e => h₂ (by rw [e]; rfl)
      obtain ⟨d, hd⟩ := type_specifier.type_specifier_parse_error t r ht
      simp [simple_type.parse, identifier.parse_token, ha, hd]

theorem simple_type.simple_type_parse_error (t : Token) (r : List Token) (h : t.is_identifier = false) :
    ∃ d, simple_type.parse (t :: r) = .error d := by
  obtain ⟨d, hd⟩ := identifier.identifier_parse_error t r h
  exact ⟨d, by simp [simple_type.parse, hd]⟩

theorem type.type_parse_error (t : Token) (r : List Token) (h : t.is_identifier = false)
    (h₁ : t ≠ Token.lit "LIST") (h₂ : t ≠ Token.lit "MAP") (h₃ : t ≠ Token.lit "STRUCT") :
    ∀ n, ∃ d, type.parse n (t :: r) = .error d
  | 0 => ⟨⟨"type", some t, []⟩, by simp [type.parse]⟩
  | n + 1 => by
    obtain ⟨d, hd⟩ := simple_type.simple_type_parse_error t r h
    refine ⟨⟨"type", some t, []⟩, ?_⟩
    rw [type.parse]
    simp [h₁, h₂, h₃, hd]

theorem type.type_yield_head (t : type) :
    ∃ tok rest, t.yield = tok :: rest ∧
      (tok.is_identifier = true ∨ tok = Token.lit "LIST" ∨ tok = Token.lit "MAP" ∨
        tok = Token.lit "STRUCT") := by
  cases t with
  | simple_type t => exact ⟨_, _, rfl, Or.inl (identifier.token_is_identifier _)⟩
  | list_type t => cases t; exact ⟨_, _, rfl, Or.inr (Or.inl rfl)⟩
  | map_type t => cases t; exact ⟨_, _, rfl, Or.inr (Or.inr (Or.inl rfl))⟩
  | struct_type t =>
    obtain ⟨q, f⟩ := t
    rcases f with _ | ⟨t, ts⟩ <;> exact ⟨_, _, rfl, Or.inr (Or.inr (Or.inr rfl))⟩


theorem type.yield_append_head_ne (t : type) (X : List Token) (s : String)
    (hs : (Token.lit s).is_identifier = false) (h₁ : s ≠ "LIST") (h₂ : s ≠ "MAP")
    (h₃ : s ≠ "STRUCT") : (t.yield ++ X).head? ≠ some (Token.lit s) := by
  obtain ⟨tok, r, e, h⟩ := t.type_yield_head
  rw [e]
  simp only [List.cons_append, List.head?_cons, ne_eq, Option.some.injEq]
  rintro rfl
  rcases h with h | h | h | h
  · rw [hs] at h
    exact Bool.noConfusion h
  · exact h₁ (Token.lit.inj h)
  · exact h₂ (Token.lit.inj h)
  · exact h₃ (Token.lit.inj h)

theorem type.yield_opt_append_head_ne (v : Option type) (rest : List Token) (s : String)
    (hs : (Token.lit s).is_identifier = false) (h₁ : s ≠ "LIST") (h₂ : s ≠ "MAP")
    (h₃ : s ≠ "STRUCT") (h₄ : s ≠ ">") :
    (type.yield_opt v ++ Token.lit ">" :: rest).head? ≠ some (Token.lit s) := by
  cases v with
  | none =>
    simp only [type.yield_opt, List.nil_append, List.head?_cons, ne_eq, Option.some.injEq,
      Token.lit.injEq]
    exact fun e => h₄ e.symm
  | some t => exact t.yield_append_head_ne _ s hs h₁ h₂ h₃

theorem type.yield_commas_append_head_ne (ts : List type) (rest : List Token) (s : String)
    (h₁ : s ≠ ",") (h₂ : s ≠ ">") :
    (type.yield_commas ts ++ Token.lit ">" :: rest).head? ≠ some (Token.lit s) := by
  cases ts with
  | nil =>
    simp only [type.yield_commas, List.nil_append, List.head?_cons, ne_eq, Option.some.injEq,
      Token.lit.injEq]
    exact fun e => h₂ e.symm
  | cons t ts =>
    simp only [type.yield_commas, List.cons_append, List.head?_cons, ne_eq, Option.some.injEq,
      Token.lit.injEq]
    exact fun e => h₁ e.symm

theorem opt_lit_true (s : String) : opt_lit true s = [Token.lit s] := rfl

theorem opt_lit_false (s : String) : opt_lit false s = [] := rfl

theorem accept_lit_self (s : String) (r : List Token) :
    accept_lit s (Token.lit s :: r) = (true, r) := by
  simp [accept_lit]

theorem accept_lit_ne (s : String) (t : Token) (r : List Token) (h : t ≠ Token.lit s) :
    accept_lit s (t :: r) = (false, t :: r) := by
  simp [accept_lit, h]

theorem opt_lit_length (q : Bool) (s : String) : (opt_lit q s).length ≤ 1 := by
  cases q <;> simp [opt_lit]

mutual
theorem type.type_parse_complete : ∀ (t : type) (n : Nat) (rest : List Token),
    t.yield.length ≤ n → rest.head? ≠ some (Token.lit "?") →
    rest.head? ≠ some (Token.lit "<") →
    ∃ t', type.parse n (t.yield ++ rest) = .ok (t', rest)
  | .simple_type s, n, rest, hn, h₁, h₂ => by
    have hs := simple_type.simple_type_parse_complete s rest h₁ h₂
    obtain ⟨i, q, sp⟩ := s
    simp only [type.yield, simple_type.yield, identifier.yield, List.cons_append,
      List.nil_append, List.append_assoc, List.length_cons] at hn hs ⊢
    obtain ⟨m, rfl⟩ : ∃ m, n = m + 1 := ⟨n - 1, by omega⟩
    refine ⟨.simple_type ⟨i, q, sp⟩, ?_⟩
    rw [type.parse]
    have n₁ := i.token_ne (t := Token.lit "LIST") rfl
    have n₂ := i.token_ne (t := Token.lit "MAP") rfl
    have n₃ := i.token_ne (t := Token.lit "STRUCT") rfl
    simp [n₁, n₂, n₃, hs]
  | .list_type l, n, rest, hn, _, _ => list_type.list_type_parse_complete l n rest hn
  | .map_type l, n, rest, hn, _, _ => map_type.map_type_parse_complete l n rest hn
  | .struct_type l, n, rest, hn, _, _ => struct_type.struct_type_parse_complete l n rest hn
theorem list_type.list_type_parse_complete : ∀ (l : list_type) (n : Nat) (rest : List Token),
    l.yield.length ≤ n → ∃ t', type.parse n (l.yield ++ rest) = .ok (t', rest)
  | .mk q e, n, rest, hn => by
    simp only [list_type.yield, List.cons_append, List.nil_append, List.append_assoc,
      List.singleton_append, List.length_cons, List.length_append, List.length_nil] at hn ⊢
    obtain ⟨m, rfl⟩ : ∃ m, n = m + 1 := ⟨n - 1, by omega⟩
    have ha : accept_lit "?" (opt_lit q "?" ++ Token.lit "<"
        :: (type.yield_opt e ++ Token.lit ">" :: rest))
        = (q, Token.lit "<" :: (type.yield_opt e ++ Token.lit ">" :: rest)) :=
      accept_lit_opt _ _ _ (by simp)
    obtain ⟨e', he⟩ := type.parse_opt_complete e m rest (by omega)
    refine ⟨.list_type (.mk q e'), ?_⟩
    rw [type.parse]
    simp [ha, expect_lit_cons, he]
theorem map_type.map_type_parse_complete : ∀ (l : map_type) (n : Nat) (rest : List Token),
    l.yield.length ≤ n → ∃ t', type.parse n (l.yield ++ rest) = .ok (t', rest)
  | .mk q (some k) c v, n, rest, hn => by
    simp only [map_type.yield, opt, List.cons_append, List.nil_append, List.append_assoc,
      List.singleton_append, List.length_cons, List.length_append, List.length_nil] at hn ⊢
    obtain ⟨m, rfl⟩ : ∃ m, n = m + 1 := ⟨n - 1, by omega⟩
    have ha : accept_lit "?" (opt_lit q "?" ++ Token.lit "<"
        :: (k.yield ++ (opt_lit c "," ++ (type.yield_opt v ++ Token.lit ">" :: rest))))
        = (q, Token.lit "<"
          :: (k.yield ++ (opt_lit c "," ++ (type.yield_opt v ++ Token.lit ">" :: rest)))) :=
      accept_lit_opt _ _ _ (by simp)
    have hk : simple_type.parse
        (k.yield ++ (opt_lit c "," ++ (type.yield_opt v ++ Token.lit ">" :: rest)))
        = .ok (k, opt_lit c "," ++ (type.yield_opt v ++ Token.lit ">" :: rest)) := by
      apply simple_type.simple_type_parse_complete
      · cases c
        · exact type.yield_opt_append_head_ne v rest "?" rfl (by decide) (by decide)
            (by decide) (by decide)
        · simp [opt_lit]
      · cases c
        · exact type.yield_opt_append_head_ne v rest "<" rfl (by decide) (by decide)
            (by decide) (by decide)
        · simp [opt_lit]
    have hc : accept_lit "," (opt_lit c "," ++ (type.yield_opt v ++ Token.lit ">" :: rest))
        = (c, type.yield_opt v ++ Token.lit ">" :: rest) :=
      accept_lit_opt _ _ _ (type.yield_opt_append_head_ne v rest "," rfl (by decide)
        (by decide) (by decide) (by decide))
    have hl := opt_lit_length c ","
    obtain ⟨v', hv⟩ := type.parse_opt_complete v m rest (by omega)
    refine ⟨.map_type (.mk q (some k) c v'), ?_⟩
    rw [type.parse]
    simp [ha, expect_lit_cons, hk, hc, hv]
  | .mk q none true v, n, rest, hn => by
    simp only [map_type.yield, opt, opt_lit_true, List.cons_append, List.nil_append,
      List.append_assoc, List.singleton_append, List.length_cons, List.length_append,
      List.length_nil] at hn ⊢
    obtain ⟨m, rfl⟩ : ∃ m, n = m + 1 := ⟨n - 1, by omega⟩
    have ha : accept_lit "?" (opt_lit q "?" ++ Token.lit "<"
        :: Token.lit "," :: (type.yield_opt v ++ Token.lit ">" :: rest))
        = (q, Token.lit "<" :: Token.lit "," :: (type.yield_opt v ++ Token.lit ">" :: rest)) :=
      accept_lit_opt _ _ _ (by simp)
    obtain ⟨d, hd⟩ := simple_type.simple_type_parse_error (Token.lit ",")
      (type.yield_opt v ++ Token.lit ">" :: rest) rfl
    obtain ⟨v', hv⟩ := type.parse_opt_complete v m rest (by omega)
    refine ⟨.map_type (.mk q none true v'), ?_⟩
    rw [type.parse]
    simp [ha, expect_lit_cons, hd, accept_lit_self, hv]
  | .mk q none false none, n, rest, hn => by
    simp only [map_type.yield, opt, opt_lit_false, type.yield_opt, List.cons_append,
      List.nil_append, List.append_assoc, List.singleton_append, List.length_cons,
      List.length_append, List.length_nil] at hn ⊢
    obtain ⟨m, rfl⟩ : ∃ m, n = m + 1 := ⟨n - 1, by omega⟩
    have ha : accept_lit "?" (opt_lit q "?" ++ Token.lit "<" :: Token.lit ">" :: rest)
        = (q, Token.lit "<" :: Token.lit ">" :: rest) :=
      accept_lit_opt _ _ _ (by simp)
    obtain ⟨d, hd⟩ := simple_type.simple_type_parse_error (Token.lit ">") rest rfl
    obtain ⟨v', hv⟩ := type.parse_opt_complete none m rest (by
      simp only [type.yield_opt, List.length_nil]
      omega)
    simp only [type.yield_opt, List.nil_append] at hv
    refine ⟨.map_type (.mk q none false v'), ?_⟩
    rw [type.parse]
    simp [ha, expect_lit_cons, hd, accept_lit_ne "," (Token.lit ">") rest (by decide), hv]
  | .mk q none false (some (.simple_type s)), n, rest, hn => by
    simp only [map_type.yield, opt, opt_lit_false, type.yield_opt, type.yield,
      List.cons_append, List.nil_append, List.append_assoc, List.singleton_append,
      List.length_cons, List.length_append, List.length_nil] at hn ⊢
    obtain ⟨m, rfl⟩ : ∃ m, n = m + 1 := ⟨n - 1, by omega⟩
    have ha : accept_lit "?" (opt_lit q "?" ++ Token.lit "<"
        :: (s.yield ++ Token.lit ">" :: rest))
        = (q, Token.lit "<" :: (s.yield ++ Token.lit ">" :: rest)) :=
      accept_lit_opt _ _ _ (by simp)
    have hk := simple_type.simple_type_parse_complete s (Token.lit ">" :: rest) (by simp) (by simp)
    obtain ⟨v', hv⟩ := type.parse_opt_complete none m rest (by
      simp only [type.yield_opt, List.length_nil]
      omega)
    simp only [type.yield_opt, List.nil_append] at hv
    refine ⟨.map_type (.mk q (some s) false v'), ?_⟩
    rw [type.parse]
    simp [ha, expect_lit_cons, hk, accept_lit_ne "," (Token.lit ">") rest (by decide), hv]
  | .mk q none false (some (.list_type l)), n, rest, hn => by
    have hh : ∃ X, (type.list_type l).yield = Token.lit "LIST" :: X := by
      cases l
      exact ⟨_, rfl⟩
    obtain ⟨X, hX⟩ := hh
    simp only [map_type.yield, opt, opt_lit_false, type.yield_opt, List.cons_append,
      List.nil_append, List.append_assoc, List.singleton_append, List.length_cons,
      List.length_append, List.length_nil] at hn ⊢
    obtain ⟨m, rfl⟩ : ∃ m, n = m + 1 := ⟨n - 1, by omega⟩
    obtain ⟨v', hv⟩ := type.parse_opt_complete (some (.list_type l)) m rest (by
      simp only [type.yield_opt]
      omega)
    simp only [type.yield_opt] at hv
    have ha : accept_lit "?" (opt_lit q "?" ++ Token.lit "<"
        :: ((type.list_type l).yield ++ Token.lit ">" :: rest))
        = (q, Token.lit "<" :: ((type.list_type l).yield ++ Token.lit ">" :: rest)) :=
      accept_lit_opt _ _ _ (by simp)
    refine ⟨.map_type (.mk q none false v'), ?_⟩
    rw [type.parse]
    simp only [if_neg (show Token.lit "MAP" ≠ Token.lit "LIST" by decide), if_true, ha,
      expect_lit_cons]
    rw [hX] at hv ⊢
    obtain ⟨d, hd⟩ := simple_type.simple_type_parse_error (Token.lit "LIST")
      (X ++ Token.lit ">" :: rest) rfl
    simp only [List.cons_append] at hv ⊢
    simp [hd, accept_lit_ne "," (Token.lit "LIST") _ (by decide), hv, expect_lit_cons]
  | .mk q none false (some (.map_type l)), n, rest, hn => by
    have hh : ∃ X, (type.map_type l).yield = Token.lit "MAP" :: X := by
      cases l
      exact ⟨_, rfl⟩
    obtain ⟨X, hX⟩ := hh
    simp only [map_type.yield, opt, opt_lit_false, type.yield_opt, List.cons_append,
      List.nil_append, List.append_assoc, List.singleton_append, List.length_cons,
      List.length_append, List.length_nil] at hn ⊢
    obtain ⟨m, rfl⟩ : ∃ m, n = m + 1 := ⟨n - 1, by omega⟩
    obtain ⟨v', hv⟩ := type.parse_opt_complete (some (.map_type l)) m rest (by
      simp only [type.yield_opt]
      omega)
    simp only [type.yield_opt] at hv
    have ha : accept_lit "?" (opt_lit q "?" ++ Token.lit "<"
        :: ((type.map_type l).yield ++ Token.lit ">" :: rest))
        = (q, Token.lit "<" :: ((type.map_type l).yield ++ Token.lit ">" :: rest)) :=
      accept_lit_opt _ _ _ (by simp)
    refine ⟨.map_type (.mk q none false v'), ?_⟩
    rw [type.parse]
    simp only [if_neg (show Token.lit "MAP" ≠ Token.lit "LIST" by decide), if_true, ha,
      expect_lit_cons]
    rw [hX] at hv ⊢
    obtain ⟨d, hd⟩ := simple_type.simple_type_parse_error (Token.lit "MAP")
      (X ++ Token.lit ">" :: rest) rfl
    simp only [List.cons_append] at hv ⊢
    simp [hd, accept_lit_ne "," (Token.lit "MAP") _ (by decide), hv, expect_lit_cons]
  | .mk q none false (some (.struct_type l)), n, rest, hn => by
    have hh : ∃ X, (type.struct_type l).yield = Token.lit "STRUCT" :: X := by
      obtain ⟨lq, lf⟩ := l
      rcases lf with _ | ⟨f, fs⟩ <;> exact ⟨_, rfl⟩
    obtain ⟨X, hX⟩ := hh
    simp only [map_type.yield, opt, opt_lit_false, type.yield_opt, List.cons_append,
      List.nil_append, List.append_assoc, List.singleton_append, List.length_cons,
      List.length_append, List.length_nil] at hn ⊢
    obtain ⟨m, rfl⟩ : ∃ m, n = m + 1 := ⟨n - 1, by omega⟩
    obtain ⟨v', hv⟩ := type.parse_opt_complete (some (.struct_type l)) m rest (by
      simp only [type.yield_opt]
      omega)
    simp only [type.yield_opt] at hv
    have ha : accept_lit "?" (opt_lit q "?" ++ Token.lit "<"
        :: ((type.struct_type l).yield ++ Token.lit ">" :: rest))
        = (q, Token.lit "<" :: ((type.struct_type l).yield ++ Token.lit ">" :: rest)) :=
      accept_lit_opt _ _ _ (by simp)
    refine ⟨.map_type (.mk q none false v'), ?_⟩
    rw [type.parse]
    simp only [if_neg (show Token.lit "MAP" ≠ Token.lit "LIST" by decide), if_true, ha,
      expect_lit_cons]
    rw [hX] at hv ⊢
    obtain ⟨d, hd⟩ := simple_type.simple_type_parse_error (Token.lit "STRUCT")
      (X ++ Token.lit ">" :: rest) rfl
    simp only [List.cons_append] at hv ⊢
    simp [hd, accept_lit_ne "," (Token.lit "STRUCT") _ (by decide), hv, expect_lit_cons]
theorem struct_type.struct_type_parse_complete : ∀ (l : struct_type) (n : Nat) (rest : List Token),
    l.yield.length ≤ n → ∃ t', type.parse n (l.yield ++ rest) = .ok (t', rest)
  | .mk q none, n, rest, hn => by
    simp only [struct_type.yield, List.cons_append, List.nil_append, List.append_assoc,
      List.singleton_append, List.length_cons, List.length_append, List.length_nil] at hn ⊢
    obtain ⟨m, rfl⟩ : ∃ m, n = m + 1 := ⟨n - 1, by omega⟩
    have ha : accept_lit "?" (opt_lit q "?" ++ Token.lit "<" :: Token.lit ">" :: rest)
        = (q, Token.lit "<" :: Token.lit ">" :: rest) :=
      accept_lit_opt _ _ _ (by simp)
    obtain ⟨d, hd⟩ := type.type_parse_error (Token.lit ">") rest rfl (by decide) (by decide)
      (by decide) m
    refine ⟨.struct_type (.mk q none), ?_⟩
    rw [type.parse]
    simp [ha, expect_lit_cons, hd]
  | .mk q (some (f, fs)), n, rest, hn => by
    simp only [struct_type.yield, List.cons_append, List.nil_append, List.append_assoc,
      List.singleton_append, List.length_cons, List.length_append, List.length_nil] at hn ⊢
    obtain ⟨m, rfl⟩ : ∃ m, n = m + 1 := ⟨n - 1, by omega⟩
    have ha : accept_lit "?" (opt_lit q "?" ++ Token.lit "<"
        :: (f.yield ++ (type.yield_commas fs ++ Token.lit ">" :: rest)))
        = (q, Token.lit "<" :: (f.yield ++ (type.yield_commas fs ++ Token.lit ">" :: rest))) :=
      accept_lit_opt _ _ _ (by simp)
    obtain ⟨f', hf⟩ := type.type_parse_complete f m (type.yield_commas fs ++ Token.lit ">" :: rest)
      (by omega) (type.yield_commas_append_head_ne fs rest "?" (by decide) (by decide))
      (type.yield_commas_append_head_ne fs rest "<" (by decide) (by decide))
    obtain ⟨fs', hfs⟩ := type.type_parse_commas_complete fs m rest (by omega)
    refine ⟨.struct_type (.mk q (some (f', fs'))), ?_⟩
    rw [type.parse]
    simp [ha, expect_lit_cons, hf, hfs]
theorem type.parse_opt_complete : ∀ (o : Option type) (n : Nat) (r : List Token),
    (type.yield_opt o).length + 1 ≤ n →
    ∃ o', type.parse_opt n (type.yield_opt o ++ Token.lit ">" :: r) = (o', Token.lit ">" :: r)
  | none, 0, r, _ => ⟨none, rfl⟩
  | none, n + 1, r, _ => by
    obtain ⟨d, hd⟩ := type.type_parse_error (Token.lit ">") r rfl (by decide) (by decide)
      (by decide) n
    refine ⟨none, ?_⟩
    rw [type.parse_opt]
    simp [type.yield_opt, hd]
  | some t, n, r, hn => by
    simp only [type.yield_opt] at hn ⊢
    obtain ⟨m, rfl⟩ : ∃ m, n = m + 1 := ⟨n - 1, by omega⟩
    obtain ⟨t', ht⟩ := type.type_parse_complete t m (Token.lit ">" :: r) (by omega) (by simp)
      (by simp)
    refine ⟨some t', ?_⟩
    rw [type.parse_opt]
    simp [ht]
theorem type.type_parse_commas_complete : ∀ (ts : List type) (n : Nat) (r : List Token),
    (type.yield_commas ts).length ≤ n →
    ∃ ts', type.parse_commas n (type.yield_commas ts ++ Token.lit ">" :: r)
      = (ts', Token.lit ">" :: r)
  | [], 0, r, _ => ⟨[], rfl⟩
  | [], n + 1, r, _ => ⟨[], by simp [type.yield_commas, type.parse_commas]⟩
  | t :: ts, n, r, hn => by
    simp only [type.yield_commas, List.cons_append, List.append_assoc, List.length_cons,
      List.length_append] at hn ⊢
    obtain ⟨m, rfl⟩ : ∃ m, n = m + 1 := ⟨n - 1, by omega⟩
    obtain ⟨t', ht⟩ := type.type_parse_complete t m (type.yield_commas ts ++ Token.lit ">" :: r)
      (by omega) (type.yield_commas_append_head_ne ts r "?" (by decide) (by decide))
      (type.yield_commas_append_head_ne ts r "<" (by decide) (by decide))
    obtain ⟨ts', hts⟩ := type.type_parse_commas_complete ts m r (by omega)
    refine ⟨t' :: ts', ?_⟩
    rw [type.parse_commas]
    simp [ht, hts]
end

theorem schema_item.schema_item_parse_complete (i : schema_item) (rest : List Token) :
    ∃ i', schema_item.parse (i.yield ++ rest) = .ok (i', rest) := by
  obtain ⟨n, ty, a⟩ := i
  cases a with
  | none =>
    simp only [schema_item.yield, identifier.yield, named_clause, opt, List.cons_append,
      List.nil_append, List.append_assoc, List.singleton_append, List.append_nil]
    obtain ⟨ty', ht⟩ := type.type_parse_complete ty
      ((ty.yield ++ Token.lit ";" :: rest).length + 1) (Token.lit ";" :: rest)
      (by simp only [List.length_append]; omega) (by simp) (by simp)
    refine ⟨⟨n, ty', none⟩, ?_⟩
    simp only [schema_item.parse, identifier.parse_token, ht]
    simp [accept_lit_ne "NAMED" (Token.lit ";") rest (by decide), expect_lit_cons]
  | some a =>
    simp only [schema_item.yield, identifier.yield, named_clause, opt, List.cons_append,
      List.nil_append, List.append_assoc, List.singleton_append, List.append_nil]
    obtain ⟨ty', ht⟩ := type.type_parse_complete ty
      ((ty.yield ++ Token.lit "NAMED" :: a.token :: Token.lit ";" :: rest).length + 1)
      (Token.lit "NAMED" :: a.token :: Token.lit ";" :: rest)
      (by simp only [List.length_append]; omega) (by simp) (by simp)
    refine ⟨⟨n, ty', some a⟩, ?_⟩
    simp only [schema_item.parse, identifier.parse_token, ht]
    simp [accept_lit_self, identifier.parse_token, expect_lit_cons]

theorem recover_body_complete : ∀ (items : List schema_item) (n : Nat) (r : List Token),
    (rep schema_item.yield items ++ Token.lit "\x7d" :: r).length ≤ n →
    ∃ items' : List schema_item,
      recover_body schema_item.parse n (rep schema_item.yield items ++ Token.lit "\x7d" :: r)
        = ⟨items'.map body_node.matched, [], Token.lit "\x7d" :: r⟩
  | [], n, r, hn => by
    obtain ⟨m, rfl⟩ : ∃ m, n = m + 1 := ⟨n - 1, by simp at hn; omega⟩
    exact ⟨[], by simp [rep, recover_body]⟩
  | i :: items, n, r, hn => by
    obtain ⟨i', hi⟩ := schema_item.schema_item_parse_complete i
      (rep schema_item.yield items ++ Token.lit "\x7d" :: r)
    have hy : ∃ X, i.yield = i.name.token :: X := ⟨_, rfl⟩
    obtain ⟨X, hX⟩ := hy
    simp only [rep, List.append_assoc] at hn hi ⊢
    rw [hX] at hn hi ⊢
    simp only [List.cons_append, List.length_cons] at hn hi ⊢
    obtain ⟨m, rfl⟩ : ∃ m, n = m + 1 := ⟨n - 1, by omega⟩
    obtain ⟨items', ht⟩ := recover_body_complete items m r (by
      simp only [List.length_append] at hn ⊢
      omega)
    refine ⟨i' :: items', ?_⟩
    rw [recover_body]
    have hne := i.name.token_ne (t := Token.lit "\x7d") rfl
    simp [hne, hi, ht]

theorem schema_definition.parse_recovering_complete (s : schema_definition)
    (rest : List Token) :
    ∃ r, schema_definition.parse_recovering (s.yield ++ rest) = .ok (r, [], rest) := by
  obtain ⟨n, items⟩ := s
  simp only [schema_definition.yield, identifier.yield, List.cons_append, List.nil_append,
    List.append_assoc, List.singleton_append]
  obtain ⟨items', ht⟩ := recover_body_complete items
    (rep schema_item.yield items ++ Token.lit "\x7d" :: rest).length rest (le_refl _)
  refine ⟨⟨n, items'.map body_node.matched, true⟩, ?_⟩
  simp only [schema_definition.parse_recovering, expect_lit_cons, identifier.parse_token, ht]

/-- C13: malformed input triggers local recovery.  The recovering parse of
`schema S { a i32 NAMED x ; BADTOKEN ; }` returns a schema_definition node whose body holds
the valid schema_item for `a` (identifier a, simple_type i32, alias x) and an error node
covering `BADTOKEN ;`, with exactly one Diagnostic (a type was expected, `;` was found); the
input without `BADTOKEN ;` is parsed with no Diagnostic.  Every result of the recovering
parse covers the tokens it consumed, has as many Diagnostics as error nodes (one more when
the closing brace is missing), and with no Diagnostic it is a derivation of the grammar;
conversely every token sequence derived by `schema_definition` is parsed with no Diagnostic.
The part decided by the grammar: `schema S { a i32 NAMED x ; }` is a sequence of valid
tokens derived by `plan` from exactly one tree, which has exactly one schema_item; the input
with `BADTOKEN ;` is a sequence of valid tokens that no plan tree derives, because in a
schema_item the identifier is followed by a type, and `;` is not the first token of a type,
so `BADTOKEN ;` is not a schema_item. -/
theorem schema_malformed_item :
    List.all [Token.lit "schema", Token.word "S", Token.lit "\x7b", Token.word "a",
        Token.word "i32", Token.lit "NAMED", Token.word "x", Token.lit ";", Token.lit "\x7d"] Token.valid = true ∧
    (∀ p : plan,
      p.yield = [Token.lit "schema", Token.word "S", Token.lit "\x7b", Token.word "a",
        Token.word "i32", Token.lit "NAMED", Token.word "x", Token.lit ";", Token.lit "\x7d"] ↔
      p = plan.mk [.schema_definition ⟨.pattern "S",
        [⟨.pattern "a", .simple_type ⟨.pattern "i32", false, none⟩, some (.pattern "x")⟩]⟩]
        false) ∧
    List.all [Token.lit "schema", Token.word "S", Token.lit "\x7b", Token.word "a",
        Token.word "i32", Token.lit "NAMED", Token.word "x", Token.lit ";",
        Token.word "BADTOKEN", Token.lit ";", Token.lit "\x7d"] Token.valid = true ∧
    (∀ p : plan,
      p.yield ≠ [Token.lit "schema", Token.word "S", Token.lit "\x7b", Token.word "a",
        Token.word "i32", Token.lit "NAMED", Token.word "x", Token.lit ";",
        Token.word "BADTOKEN", Token.lit ";", Token.lit "\x7d"]) ∧
    (∀ i : schema_item, ∃ tok rest,
      i.yield = i.name.token :: tok :: rest ∧ tok.in_type = true) ∧
    (Token.lit ";").in_type = false ∧
    (∀ i : schema_item, i.yield ≠ [Token.word "BADTOKEN", Token.lit ";"]) ∧
    schema_definition.parse_recovering
        [Token.lit "schema", Token.word "S", Token.lit "\x7b", Token.word "a",
        Token.word "i32", Token.lit "NAMED", Token.word "x", Token.lit ";",
        Token.word "BADTOKEN", Token.lit ";", Token.lit "\x7d"]
      = .ok (⟨.pattern "S",
          [.matched ⟨.pattern "a", .simple_type ⟨.pattern "i32", false, none⟩, some (.pattern "x")⟩,
           .error [Token.word "BADTOKEN", Token.lit ";"]], true⟩,
        [⟨"type", some (Token.lit ";"), [Token.word "BADTOKEN", Token.lit ";"]⟩], []) ∧
    schema_definition.parse_recovering
        [Token.lit "schema", Token.word "S", Token.lit "\x7b", Token.word "a",
        Token.word "i32", Token.lit "NAMED", Token.word "x", Token.lit ";", Token.lit "\x7d"]
      = .ok (⟨.pattern "S",
          [.matched ⟨.pattern "a", .simple_type ⟨.pattern "i32", false, none⟩, some (.pattern "x")⟩], true⟩,
        [], []) ∧
    (∀ (ts rest : List Token) (r : recovered_schema) (ds : List Diagnostic),
      schema_definition.parse_recovering ts = .ok (r, ds, rest) →
      r.tokens ++ rest = ts ∧ ds.length = r.errors + (if r.closed then 0 else 1) ∧
      (ds = [] → ∃ s : schema_definition, s.yield ++ rest = ts ∧ r.name = s.name ∧
        r.body = s.items.map body_node.matched ∧ r.closed = true)) ∧
    (∀ (s : schema_definition) (rest : List Token),
      ∃ r, schema_definition.parse_recovering (s.yield ++ rest) = .ok (r, [], rest)) := by
  refine ⟨by decide, fun p => ⟨p.schema_one_item, fun h => by rw [h]; rfl⟩, by decide,
    plan.schema_bad_item, schema_item.yield_cons, rfl, fun i h => ?_, rfl, rfl,
    schema_definition.parse_recovering_spec, schema_definition.parse_recovering_complete⟩
  obtain ⟨tok, rest, hi, ht⟩ := i.yield_cons
  rw [hi] at h
  simp only [List.cons.injEq] at h
  rw [h.2.1] at ht
  simp [Token.in_type, reserved_words] at ht

/-- C13 at its input: the result of the recovering parse covers all eleven tokens and has
one Diagnostic for its one error node. -/
theorem schema_malformed_item_witness :
    (recovered_schema.mk (.pattern "S")
        [.matched ⟨.pattern "a", .simple_type ⟨.pattern "i32", false, none⟩, some (.pattern "x")⟩,
         .error [Token.word "BADTOKEN", Token.lit ";"]] true).tokens ++ []
      = [Token.lit "schema", Token.word "S", Token.lit "\x7b", Token.word "a",
        Token.word "i32", Token.lit "NAMED", Token.word "x", Token.lit ";",
        Token.word "BADTOKEN", Token.lit ";", Token.lit "\x7d"] ∧
    [Diagnostic.mk "type" (some (Token.lit ";")) [Token.word "BADTOKEN", Token.lit ";"]].length
      = (recovered_schema.mk (.pattern "S")
        [.matched ⟨.pattern "a", .simple_type ⟨.pattern "i32", false, none⟩, some (.pattern "x")⟩,
         .error [Token.word "BADTOKEN", Token.lit ";"]] true).errors + 0 :=
  (schema_malformed_item.2.2.2.2.2.2.2.2.2.1
      [Token.lit "schema", Token.word "S", Token.lit "\x7b", Token.word "a",
        Token.word "i32", Token.lit "NAMED", Token.word "x", Token.lit ";",
        Token.word "BADTOKEN", Token.lit ";", Token.lit "\x7d"]
      []
      ⟨.pattern "S",
        [.matched ⟨.pattern "a", .simple_type ⟨.pattern "i32", false, none⟩, some (.pattern "x")⟩,
         .error [Token.word "BADTOKEN", Token.lit ";"]], true⟩
      [⟨"type", some (Token.lit ";"), [Token.word "BADTOKEN", Token.lit ";"]⟩] rfl).imp id And.left

/-! ## C14: type dispatch on the leading keyword -/

theorem type_dispatch_identifier (i : identifier) :
    type_dispatch i.token = .simple_type := by
  have h₁ : i.token ≠ Token.lit "LIST" := i.token_ne rfl
  have h₂ : i.token ≠ Token.lit "MAP" := i.token_ne rfl
  have h₃ : i.token ≠ Token.lit "STRUCT" := i.token_ne rfl
  simp [type_dispatch, h₁, h₂, h₃]

theorem type.yield_type_dispatch (t : type) :
    ∃ tok rest, t.yield = tok :: rest ∧ type_dispatch tok = t.kind := by
  cases t with
  | simple_type t => exact ⟨_, _, rfl, type_dispatch_identifier _⟩
  | list_type t => cases t; exact ⟨_, _, rfl, rfl⟩
  | map_type t => cases t; exact ⟨_, _, rfl, rfl⟩
  | struct_type t =>
    obtain ⟨q, f⟩ := t
    rcases f with _ | ⟨t, ts⟩ <;> exact ⟨_, _, rfl, rfl⟩

/-- C14: type dispatch is anchored on the leading keyword.  Every type tree derives a
non-empty token sequence, and `type_dispatch` on its first token returns the alternative of
the tree: list_type, map_type or struct_type exactly when that token is `LIST`, `MAP` or
`STRUCT`, and simple_type when it is none of these; hence a token sequence derived by `type`
is derived by exactly one of the four alternatives. -/
theorem type_leading_keyword :
    (∀ t : type, ∃ tok rest, t.yield = tok :: rest ∧ type_dispatch tok = t.kind ∧
      (t.kind = .list_type ↔ tok = Token.lit "LIST") ∧
      (t.kind = .map_type ↔ tok = Token.lit "MAP") ∧
      (t.kind = .struct_type ↔ tok = Token.lit "STRUCT") ∧
      (t.kind = .simple_type ↔
        (tok ≠ Token.lit "LIST" ∧ tok ≠ Token.lit "MAP" ∧ tok ≠ Token.lit "STRUCT"))) ∧
    (∀ t₁ t₂ : type, t₁.yield = t₂.yield → t₁.kind = t₂.kind) := by
  constructor
  · intro t
    obtain ⟨tok, rest, h, hk⟩ := t.yield_type_dispatch
    refine ⟨tok, rest, h, hk, ?_⟩
    rw [← hk]
    unfold type_dispatch
    split_ifs with h₁ h₂ h₃ <;> simp_all
  · intro t₁ t₂ h
    obtain ⟨a, r, h₁, k₁⟩ := t₁.yield_type_dispatch
    obtain ⟨b, s, h₂, k₂⟩ := t₂.yield_type_dispatch
    rw [h₁, h₂] at h
    simp only [List.cons.injEq] at h
    rw [← k₁, ← k₂, h.1]

/-- C14 at `LIST ? < i32 >`: a tree with the same yield has the same alternative, list_type. -/
theorem type_leading_keyword_witness :
    (type.list_type (.mk true (some (.simple_type ⟨.pattern "i32", false, none⟩)))).yield
      = [Token.lit "LIST", Token.lit "?", Token.lit "<", Token.word "i32", Token.lit ">"] ∧
    (type.list_type (.mk true (some (.simple_type ⟨.pattern "i32", false, none⟩)))).kind
      = type_kind.list_type :=
  ⟨rfl, (type_leading_keyword.2
    (type.list_type (.mk true (some (.simple_type ⟨.pattern "i32", false, none⟩))))
    (type.list_type (.mk true (some (.simple_type ⟨.pattern "i32", false, none⟩)))) rfl).trans
    rfl⟩

/-! ## C15: the expression rules as primary and suffixes -/

theorem expression_suffix.foldl_apply_yield (sufs : List expression_suffix) :
    ∀ p : expression, (sufs.foldl expression_suffix.apply p).yield
      = p.yield ++ rep expression_suffix.yield sufs := by
  induction sufs with
  | nil => intro p; simp [rep]
  | cons s sufs ih =>
    intro p
    cases s <;>
      simp [ih, rep, expression_suffix.apply, expression_suffix.yield, expression.yield,
        cast_expression.yield, set_comparison_subquery.yield]

theorem expression_suffix.foldl_apply_leftmost (sufs : List expression_suffix) :
    ∀ p : expression, (sufs.foldl expression_suffix.apply p).leftmost = p.leftmost ∧
      (sufs.foldl expression_suffix.apply p).suffixes = p.suffixes ++ sufs := by
  induction sufs with
  | nil => intro p; simp
  | cons s sufs ih =>
    intro p
    cases s <;>
      simp [ih, expression_suffix.apply, expression.leftmost, expression.suffixes]

theorem expression.primary_leftmost (p : expression) (hp : p.is_primary = true) :
    p.leftmost = p ∧ p.suffixes = [] := by
  cases p <;> simp [expression.is_primary] at hp <;>
    exact ⟨rfl, rfl⟩

theorem expression.starts_not_as (e : expression) :
    ∃ t ts, e.yield = t :: ts ∧ t ≠ Token.lit "AS" := by
  obtain ⟨t, ts, h, ht⟩ := e.expression_yield_cons
  refine ⟨t, ts, h, fun e => ?_⟩
  rw [e] at ht
  simp [Token.starts_expression, reserved_words] at ht

theorem expression.cast_cast_unique (e : expression)
    (h : e.yield = [Token.word "x", Token.lit "AS", Token.word "i32", Token.lit "AS",
      Token.word "i64"]) :
    e = .cast_expression (.mk (.cast_expression (.mk
          (.column_reference ⟨⟨none, .pattern "x"⟩⟩)
          (.simple_type ⟨.pattern "i32", false, none⟩)))
        (.simple_type ⟨.pattern "i64", false, none⟩)) := by
  obtain ⟨u, us, hu, -⟩ := e.leftmost.primary_yield_cons e.leftmost_is_primary
  have hy := e.yield_eq_leftmost
  rw [h, hu] at hy
  simp only [List.cons_append, List.cons.injEq] at hy
  obtain ⟨rfl, hy⟩ := hy
  rcases e.leftmost.primary_identifier_head e.leftmost_is_primary _ us hu rfl with
    ⟨f, hf, vs, rfl⟩ | ⟨c, hc, hus⟩ | ⟨ty, -, hn, -⟩
  · simp at hy
  · rcases hus with rfl | ⟨i, rfl⟩
    swap
    · simp at hy
    have hcol : c = ⟨⟨none, .pattern "x"⟩⟩ := by
      rw [hc] at hu
      obtain ⟨⟨q, n⟩⟩ := c
      cases q with
      | some q =>
        simp [expression.yield, column_reference.yield, column_name.yield, opt,
          identifier.yield] at hu
      | none =>
        simp only [expression.yield, column_reference.yield, column_name.yield, opt,
          identifier.yield, List.nil_append, List.cons.injEq, and_true] at hu
        rw [identifier.token_injective (j := .pattern "x") hu]
    simp only [List.nil_append] at hy
    rcases hsx : e.suffixes with _ | ⟨x₁, xs⟩
    · simp [hsx, rep] at hy
    rw [hsx] at hy
    cases x₁ with
    | set_comparison op q r =>
      cases op <;> simp [rep, expression_suffix.yield, comparison_operator.yield] at hy
    | cast ty₁ =>
      simp only [rep, expression_suffix.yield, List.cons_append, List.cons.injEq,
        true_and] at hy
      obtain ⟨h₁, hy⟩ := ty₁.type_word_then "i32" _ _ _ hy.symm (by decide) (by decide)
      rcases xs with _ | ⟨x₂, xs⟩
      · simp [rep] at hy
      cases x₂ with
      | set_comparison op q r =>
        cases op <;> simp [rep, expression_suffix.yield, comparison_operator.yield] at hy
      | cast ty₂ =>
        simp only [rep, expression_suffix.yield, List.cons_append, List.cons.injEq,
          true_and] at hy
        have hxs : xs = [] := by
          rcases expression_suffix.rep_yield_cases xs with hxs | ⟨y, ys, hys, -⟩
          · exact hxs
          · rw [hys] at hy
            have hl := congrArg List.length hy
            have := List.length_pos.mpr ty₂.type_yield_ne_nil
            simp at hl
            omega
        subst hxs
        simp only [rep, List.append_nil] at hy
        have h₂ := simple_type.yield_word_singleton ty₂ "i64" hy
        have hr := e.rebuild
        rw [hsx, hc, hcol, h₁, h₂] at hr
        exact hr
  · simp at hn

/-- C15: the left-recursive rules of `expression` are equivalent to the iterative form
`primary suffix*`.  A primary is an expression of one of the six alternatives function_call,
constant, column_reference, subquery_expression, in_predicate_subquery,
set_predicate_subquery; a suffix is `AS type` or
`comparison_operator (ALL|ANY) SUBQUERY relation_ref`.  A token sequence is derived by
`expression` exactly when it is the yield of a primary followed by the yields of suffixes;
every expression tree is its leftmost primary with its suffixes put behind it one after the
other, each taking all that stands to its left as operand; `x AS i32 AS i64` is derived by
the cast of the cast of x only; and no expression starts with `AS`. -/
theorem expression_precedence_climb :
    (∀ p : expression, p.is_primary = true ↔
      ((∃ f, p = .function_call f) ∨ (∃ c, p = .constant c) ∨
        (∃ c, p = .column_reference c) ∨ (∃ s, p = .subquery_expression s) ∨
        (∃ s, p = .in_predicate_subquery s) ∨ (∃ s, p = .set_predicate_subquery s))) ∧
    (∀ w : List Token, (∃ e : expression, e.yield = w) ↔
      (∃ (p : expression) (sufs : List expression_suffix), p.is_primary = true ∧
        p.yield ++ rep expression_suffix.yield sufs = w)) ∧
    (∀ e : expression, e.leftmost.is_primary = true ∧
      e = e.suffixes.foldl expression_suffix.apply e.leftmost) ∧
    (∀ (p : expression) (sufs : List expression_suffix), p.is_primary = true →
      (sufs.foldl expression_suffix.apply p).leftmost = p ∧
      (sufs.foldl expression_suffix.apply p).suffixes = sufs) ∧
    (∀ e : expression,
      e.yield = [Token.word "x", Token.lit "AS", Token.word "i32", Token.lit "AS",
        Token.word "i64"] ↔
      e = .cast_expression (.mk (.cast_expression (.mk
            (.column_reference ⟨⟨none, .pattern "x"⟩⟩)
            (.simple_type ⟨.pattern "i32", false, none⟩)))
          (.simple_type ⟨.pattern "i64", false, none⟩))) ∧
    (∀ e : expression, ∃ t ts, e.yield = t :: ts ∧ t ≠ Token.lit "AS") := by
  refine ⟨fun p => ?_, fun w => ⟨?_, ?_⟩, fun e => ⟨e.leftmost_is_primary, e.rebuild⟩,
    fun p sufs hp => ?_, fun e => ⟨e.cast_cast_unique, fun h => by rw [h]; rfl⟩,
    expression.starts_not_as⟩
  · cases p <;> simp [expression.is_primary]
  · rintro ⟨e, rfl⟩
    exact ⟨e.leftmost, e.suffixes, e.leftmost_is_primary, e.yield_eq_leftmost.symm⟩
  · rintro ⟨p, sufs, -, rfl⟩
    exact ⟨_, expression_suffix.foldl_apply_yield sufs p⟩
  · obtain ⟨h₁, h₂⟩ := expression_suffix.foldl_apply_leftmost sufs p
    obtain ⟨h₃, h₄⟩ := p.primary_leftmost hp
    rw [h₁, h₂, h₃, h₄]
    exact ⟨rfl, rfl⟩

/-- C15 at the primary `x` with the suffixes `AS i32`, `AS i64`. -/
theorem expression_precedence_climb_witness :
    (expression.column_reference ⟨⟨none, .pattern "x"⟩⟩).is_primary = true ∧
    ([expression_suffix.cast (.simple_type ⟨.pattern "i32", false, none⟩),
        expression_suffix.cast (.simple_type ⟨.pattern "i64", false, none⟩)].foldl
        expression_suffix.apply (.column_reference ⟨⟨none, .pattern "x"⟩⟩)).leftmost
      = .column_reference ⟨⟨none, .pattern "x"⟩⟩ ∧
    ([expression_suffix.cast (.simple_type ⟨.pattern "i32", false, none⟩),
        expression_suffix.cast (.simple_type ⟨.pattern "i64", false, none⟩)].foldl
        expression_suffix.apply (.column_reference ⟨⟨none, .pattern "x"⟩⟩)).suffixes
      = [expression_suffix.cast (.simple_type ⟨.pattern "i32", false, none⟩),
        expression_suffix.cast (.simple_type ⟨.pattern "i64", false, none⟩)] :=
  ⟨rfl, expression_precedence_climb.2.2.2.1 (.column_reference ⟨⟨none, .pattern "x"⟩⟩)
    [expression_suffix.cast (.simple_type ⟨.pattern "i32", false, none⟩),
      expression_suffix.cast (.simple_type ⟨.pattern "i64", false, none⟩)] rfl⟩

/-! ## C16: numbers -/

theorem matches_sign (u : List Char) :
    (Regex.opt (Regex.cls (fun c => c == '-' || c == '+'))).matches_ u = true ↔ is_sign u := by
  rw [Regex.matches_opt, Regex.matches_cls, is_sign]
  constructor
  · rintro (⟨c, rfl, hc⟩ | rfl)
    · simp only [Bool.or_eq_true, beq_iff_eq] at hc
      rcases hc with rfl | rfl
      · exact Or.inr (Or.inr rfl)
      · exact Or.inr (Or.inl rfl)
    · exact Or.inl rfl
  · rintro (rfl | rfl | rfl)
    · exact Or.inr rfl
    · exact Or.inl ⟨'+', rfl, by decide⟩
    · exact Or.inl ⟨'-', rfl, by decide⟩

theorem matches_digits (u : List Char) :
    (Regex.plus (Regex.cls Regex.digit)).matches_ u = true ↔ is_digits u :=
  Regex.matches_plus_cls Regex.digit u

theorem matches_fraction (u : List Char) :
    (Regex.opt (Regex.seq (Regex.chr '.') (Regex.plus (Regex.cls Regex.digit)))).matches_ u = true ↔
      (u = [] ∨ ∃ ds, u = '.' :: ds ∧ is_digits ds) := by
  rw [Regex.matches_opt, Regex.matches_seq]
  constructor
  · rintro (⟨a, b, rfl, ha, hb⟩ | rfl)
    · rw [(Regex.matches_chr _ _).mp ha]
      exact Or.inr ⟨b, rfl, (matches_digits b).mp hb⟩
    · exact Or.inl rfl
  · rintro (rfl | ⟨ds, rfl, hds⟩)
    · exact Or.inr rfl
    · exact Or.inl ⟨['.'], ds, rfl, (Regex.matches_chr _ _).mpr rfl, (matches_digits ds).mpr hds⟩

theorem matches_exponent (u : List Char) :
    (Regex.opt (Regex.seq (Regex.cls (fun c => c == 'e' || c == 'E'))
      (Regex.seq (Regex.opt (Regex.cls (fun c => c == '-' || c == '+'))) (Regex.plus (Regex.cls Regex.digit))))).matches_ u = true ↔
      (u = [] ∨ ∃ e sg ds, u = e :: (sg ++ ds) ∧ (e = 'e' ∨ e = 'E') ∧ is_sign sg ∧
        is_digits ds) := by
  rw [Regex.matches_opt, Regex.matches_seq]
  constructor
  · rintro (⟨a, b, rfl, ha, hb⟩ | rfl)
    · obtain ⟨e, rfl, he⟩ := (Regex.matches_cls _ _).mp ha
      obtain ⟨sg, ds, rfl, hsg, hds⟩ := (Regex.matches_seq _ _ _).mp hb
      simp only [Bool.or_eq_true, beq_iff_eq] at he
      exact Or.inr ⟨e, sg, ds, rfl, he, (matches_sign sg).mp hsg, (matches_digits ds).mp hds⟩
    · exact Or.inl rfl
  · rintro (rfl | ⟨e, sg, ds, rfl, he, hsg, hds⟩)
    · exact Or.inr rfl
    · refine Or.inl ⟨[e], sg ++ ds, rfl, (Regex.matches_cls _ _).mpr ⟨e, rfl, ?_⟩,
        (Regex.matches_seq _ _ _).mpr ⟨sg, ds, rfl, (matches_sign sg).mpr hsg,
          (matches_digits ds).mpr hds⟩⟩
      simpa using he

theorem number_pattern_iff (s : List Char) :
    number_pattern.matches_ s = true ↔ is_number s := by
  unfold number_pattern is_number
  rw [Regex.matches_seq]
  constructor
  · rintro ⟨sign, r₁, rfl, hs, h₁⟩
    obtain ⟨int, r₂, rfl, hi, h₂⟩ := (Regex.matches_seq _ _ _).mp h₁
    obtain ⟨frac, exp, rfl, hf, he⟩ := (Regex.matches_seq _ _ _).mp h₂
    exact ⟨sign, int, frac, exp, by simp, (matches_sign _).mp hs, (matches_digits _).mp hi,
      (matches_fraction _).mp hf, (matches_exponent _).mp he⟩
  · rintro ⟨sign, int, frac, exp, rfl, hs, hi, hf, he⟩
    exact ⟨sign, int ++ (frac ++ exp), by simp, (matches_sign _).mpr hs,
      (Regex.matches_seq _ _ _).mpr ⟨int, frac ++ exp, rfl, (matches_digits _).mpr hi,
        (Regex.matches_seq _ _ _).mpr ⟨frac, exp, rfl, (matches_fraction _).mpr hf,
          (matches_exponent _).mpr he⟩⟩⟩

/-- C16: the `number` pattern matches exactly the character sequences made of an optional
sign, one or more decimal digits, an optional fractional part (`.` and one or more digits)
and an optional exponent (`e` or `E`, an optional sign, one or more digits).  `1`, `-1.5`,
`+2e10` and `3.25E-7` are matched; the empty text, `+`, `.5`, `1.`, `1e` and `1.e5` are
not. -/
theorem number_shape :
    (∀ s : List Char, number_pattern.matches_ s = true ↔ is_number s) ∧
    number_pattern.matches_ "1".toList = true ∧
    number_pattern.matches_ "-1.5".toList = true ∧
    number_pattern.matches_ "+2e10".toList = true ∧
    number_pattern.matches_ "3.25E-7".toList = true ∧
    number_pattern.matches_ "".toList = false ∧
    number_pattern.matches_ "+".toList = false ∧
    number_pattern.matches_ ".5".toList = false ∧
    number_pattern.matches_ "1.".toList = false ∧
    number_pattern.matches_ "1e".toList = false ∧
    number_pattern.matches_ "1.e5".toList = false := by
  refine ⟨number_pattern_iff, ?_, ?_, ?_, ?_, ?_, ?_, ?_, ?_, ?_, ?_⟩ <;> decide

/-! ## C17: comments -/

theorem matches_line_break (t : List Char) :
    (Regex.choice (Regex.str "\r\n") (Regex.choice (Regex.str "\n") (Regex.str "\r"))).matches_ t
      = true ↔ is_line_break t := by
  simp only [Regex.matches_choice, Bool.or_eq_true, Regex.matches_str, is_line_break]
  constructor
  · rintro (h | h | h)
    · exact Or.inr (Or.inl h)
    · exact Or.inl h
    · exact Or.inr (Or.inr h)
  · rintro (h | h | h)
    · exact Or.inr (Or.inl h)
    · exact Or.inl h
    · exact Or.inr (Or.inr h)

theorem comment_pattern_iff (s : List Char) :
    comment_pattern.matches_ s = true ↔
      ∃ body t, s = '/' :: '/' :: body ++ t ∧ no_line_break body ∧ is_line_break t := by
  unfold comment_pattern
  rw [Regex.matches_seq]
  constructor
  · rintro ⟨u, r, rfl, hu, hr⟩
    obtain ⟨body, t, rfl, hb, ht⟩ := (Regex.matches_seq _ _ _).mp hr
    rw [(Regex.matches_str _ _).mp hu]
    refine ⟨body, t, rfl, fun c hc => ?_, (matches_line_break t).mp ht⟩
    have := (Regex.matches_star_cls _ body).mp hb c hc
    simpa using this
  · rintro ⟨body, t, rfl, hb, ht⟩
    refine ⟨['/', '/'], body ++ t, rfl, (Regex.matches_str _ _).mpr rfl,
      (Regex.matches_seq _ _ _).mpr ⟨body, t, rfl, ?_, (matches_line_break t).mpr ht⟩⟩
    exact (Regex.matches_star_cls _ body).mpr (fun c hc => by simpa using hb c hc)

theorem comment_needs_line_break (body : List Char) (hb : no_line_break body) :
    comment_pattern.matches_ ('/' :: '/' :: body) = false := by
  rw [Bool.eq_false_iff]
  intro h
  obtain ⟨b, t, hs, -, ht⟩ := (comment_pattern_iff _).mp h
  simp only [List.cons_append, List.cons.injEq, true_and] at hs
  rcases ht with rfl | rfl | rfl
  · exact (hb '\n' (by rw [hs]; simp)).2 rfl
  · exact (hb '\n' (by rw [hs]; simp)).2 rfl
  · exact (hb '\r' (by rw [hs]; simp)).1 rfl

/-- C17, as stated, fails: it is not so that for every text s without CR and LF the comment
rule matches `//` followed by s both when a line break ends the line and when the input
ends there; `//x` at the end of the input is not matched. -/
theorem comment_end_of_input_counterexample :
    ¬ (∀ s : List Char, no_line_break s →
        comment_pattern.matches_ ('/' :: '/' :: s ++ ['\n']) = true ∧
        comment_pattern.matches_ ('/' :: '/' :: s ++ ['\r', '\n']) = true ∧
        comment_pattern.matches_ ('/' :: '/' :: s ++ ['\r']) = true ∧
        comment_pattern.matches_ ('/' :: '/' :: s) = true) := by
  intro h
  have := (h ['x'] (by simp [no_line_break])).2.2.2
  revert this
  decide

/-- C17, amended: the comment rule matches exactly the texts made of `//`, a text without CR
and LF, and one line break (LF, CRLF or CR), which is part of the match; so for every s
without CR and LF it matches `//` s followed by each of the three line breaks, it does not
match `//` s alone at the end of the input, and a match never extends past the first line
break after its `//`. -/
theorem comment_to_line_break :
    (∀ s : List Char, comment_pattern.matches_ s = true ↔
      ∃ body t, s = '/' :: '/' :: body ++ t ∧ no_line_break body ∧ is_line_break t) ∧
    (∀ s : List Char, no_line_break s →
      comment_pattern.matches_ ('/' :: '/' :: s ++ ['\n']) = true ∧
      comment_pattern.matches_ ('/' :: '/' :: s ++ ['\r', '\n']) = true ∧
      comment_pattern.matches_ ('/' :: '/' :: s ++ ['\r']) = true ∧
      comment_pattern.matches_ ('/' :: '/' :: s) = false) := by
  refine ⟨comment_pattern_iff, fun s hs => ⟨?_, ?_, ?_, comment_needs_line_break s hs⟩⟩
  · exact (comment_pattern_iff _).mpr ⟨s, _, rfl, hs, Or.inl rfl⟩
  · exact (comment_pattern_iff _).mpr ⟨s, _, rfl, hs, Or.inr (Or.inl rfl)⟩
  · exact (comment_pattern_iff _).mpr ⟨s, _, rfl, hs, Or.inr (Or.inr rfl)⟩

/-- C17 at the comment text ` x`. -/
theorem comment_to_line_break_witness :
    no_line_break [' ', 'x'] ∧
    comment_pattern.matches_ "// x\n".toList = true ∧
    comment_pattern.matches_ "// x\r\n".toList = true ∧
    comment_pattern.matches_ "// x\r".toList = true ∧
    comment_pattern.matches_ "// x".toList = false :=
  ⟨by simp [no_line_break], comment_to_line_break.2 [' ', 'x'] (by simp [no_line_break])⟩

/-! ## C18: the texts of identifiers -/

theorem identifier_pattern_iff (s : List Char) :
    identifier_pattern.matches_ s = true ↔ is_identifier_text s := by
  rw [identifier_pattern, Regex.matches_seq]
  constructor
  · rintro ⟨u, v, rfl, hu, hv⟩
    obtain ⟨c, rfl, hc⟩ := (Regex.matches_cls _ _).mp hu
    refine ⟨c, v, rfl, hc, fun d hd => ?_⟩
    have := (Regex.matches_star_cls _ v).mp hv d hd
    simpa [Bool.or_eq_true, or_assoc] using this
  · rintro ⟨c, rest, rfl, hc, hr⟩
    refine ⟨[c], rest, rfl, (Regex.matches_cls _ _).mpr ⟨c, rfl, hc⟩,
      (Regex.matches_star_cls _ rest).mpr fun d hd => ?_⟩
    simpa [Bool.or_eq_true, or_assoc] using hr d hd

theorem identifier.valid_text_iff (s : List Char) :
    (∃ i : identifier, i.token.valid = true ∧ i.token.text = s) ↔
      (is_identifier_text s ∨ s ∈ reserved_words.map String.toList) := by
  constructor
  · rintro ⟨i, hv, rfl⟩
    cases i with
    | pattern t => exact Or.inl ((identifier_pattern_iff _).mp hv)
    | _ => exact Or.inr (by decide)
  · rintro (h | h)
    · exact ⟨.pattern (String.mk s), (identifier_pattern_iff _).mpr h, rfl⟩
    · simp only [reserved_words, List.map_cons, List.map_nil, List.mem_cons,
        List.mem_singleton, List.not_mem_nil, or_false] at h
      rcases h with h | h | h | h | h | h | h | h | h | h | h | h | h | h
      · exact ⟨.FILTER, rfl, h.symm⟩
      · exact ⟨.ROOT, rfl, h.symm⟩
      · exact ⟨.SOURCE, rfl, h.symm⟩
      · exact ⟨.SCHEMA, rfl, h.symm⟩
      · exact ⟨.NULL, rfl, h.symm⟩
      · exact ⟨.SORT, rfl, h.symm⟩
      · exact ⟨.MEASURE, rfl, h.symm⟩
      · exact ⟨.GROUPING, rfl, h.symm⟩
      · exact ⟨.COUNT, rfl, h.symm⟩
      · exact ⟨.TYPE, rfl, h.symm⟩
      · exact ⟨.EMIT, rfl, h.symm⟩
      · exact ⟨.NAMED, rfl, h.symm⟩
      · exact ⟨.ALL, rfl, h.symm⟩
      · exact ⟨.ANY, rfl, h.symm⟩

theorem letter_not_digit (c : Char) (h : Regex.letter c = true) : Regex.digit c = false := by
  cases hd : Regex.digit c
  · rfl
  · simp only [Regex.letter, Regex.digit, Bool.or_eq_true, Bool.and_eq_true,
      decide_eq_true_eq] at h hd
    exfalso
    rcases h with ⟨h₃, -⟩ | ⟨h₃, -⟩
    · exact absurd (le_trans h₃ hd.2) (by decide)
    · exact absurd (le_trans h₃ hd.2) (by decide)

theorem is_identifier_text_shape (s : List Char) (h : is_identifier_text s) :
    s ≠ [] ∧ (∀ c rest, s = c :: rest → Regex.digit c = false ∧ c ≠ '$') ∧ '_' ∉ s := by
  obtain ⟨c, rest, rfl, hc, hr⟩ := h
  refine ⟨by simp, ?_, ?_⟩
  · intro d rest' e
    simp only [List.cons.injEq] at e
    obtain ⟨rfl, -⟩ := e
    refine ⟨letter_not_digit c hc, ?_⟩
    rintro rfl
    revert hc
    decide
  · intro hm
    rcases List.mem_cons.mp hm with e | hm
    · rw [← e] at hc
      revert hc
      decide
    · have := hr _ hm
      revert this
      decide

theorem string_terminals_col (s : String) (hs : s ∈ string_terminals)
    (hc : ∀ c ∈ s.toList, c ∈ "col_1".toList) : s = "_" := by
  revert s
  decide

theorem Token.mem_texts (t : Token) (l : List Token) (h : t ∈ l) :
    ∀ c ∈ t.text, c ∈ Token.texts l := by
  induction l with
  | nil => simp at h
  | cons u l ih =>
    intro c hc
    rcases List.mem_cons.mp h with rfl | h
    · exact List.mem_append_left _ hc
    · exact List.mem_append_right _ (ih h c hc)

theorem Token.lit_in_col (mid : List Token) (hv : ∀ t ∈ mid, t.valid = true)
    (ht : Token.texts mid = "col_1".toList) :
    ∀ t ∈ mid, ∀ s, t = Token.lit s → s = "_" := by
  intro t hm s e
  subst e
  have hs : s ∈ string_terminals := by
    have := hv _ hm
    simpa [Token.valid] using this
  refine string_terminals_col s hs fun c hc => ?_
  rw [← ht]
  exact Token.mem_texts _ _ hm c hc

theorem Token.lit_cases (m : Token) (h : ∀ s, m = Token.lit s → s = "_") :
    m = Token.lit "_" ∨ (m.is_identifier = false ∧ ∀ s, m ≠ Token.lit s) ∨
      ∃ s, m = Token.word s := by
  cases m with
  | lit s => exact Or.inl (by rw [h s rfl])
  | word s => exact Or.inr (Or.inr ⟨s, rfl⟩)
  | number s => exact Or.inr (Or.inl ⟨rfl, fun _ e => Token.noConfusion e⟩)
  | string s => exact Or.inr (Or.inl ⟨rfl, fun _ e => Token.noConfusion e⟩)
  | uri s => exact Or.inr (Or.inl ⟨rfl, fun _ e => Token.noConfusion e⟩)

theorem plan.emit_column_tokens (mid : List Token)
    (hmid : ∀ t ∈ mid, ∀ s, t = Token.lit s → s = "_") (p : plan)
    (h : p.yield = Token.word "READ" :: Token.lit "RELATION" :: Token.word "r"
      :: Token.lit "\x7b" :: Token.lit "EMIT" :: mid ++ [Token.lit ";", Token.lit "\x7d"]) :
    ∃ s, mid = [Token.word s] := by
  have n₁ := fun i : identifier => i.token_eq_iff_false (t := Token.lit "schema") rfl
  have n₂ := fun i : identifier => i.token_eq_iff_false (t := Token.lit "RELATION") rfl
  have n₃ := fun i : identifier => i.token_eq_iff_false (t := Token.lit "source") rfl
  have n₄ := fun i : identifier => i.token_eq_iff_false (t := Token.lit "PIPELINES") rfl
  have n₅ := fun i : identifier => i.token_eq_iff_false (t := Token.lit "EXTENSION_SPACE") rfl
  have n₆ := fun i : identifier => i.token_eq_iff_false (t := Token.lit "\x7b") rfl
  have n₇ := fun i : identifier => i.token_eq_iff_false (t := Token.lit "\x7d") rfl
  have n₈ := fun i : identifier => i.token_eq_iff_false (t := Token.lit ";") rfl
  have n₉ := fun i : identifier => i.token_eq_iff_false (t := Token.lit "_") rfl
  obtain ⟨ds, sc⟩ := p
  simp only [plan.yield, identifier.yield, List.cons_append, List.nil_append] at h
  rcases ds with _ | ⟨d, ds⟩
  · cases sc <;> simp [rep, opt_lit] at h
  cases d with
  | pipelines p => simp [rep, plan_detail.yield, pipelines.yield, n₄] at h
  | root_relation r => simp [rep, plan_detail.yield, root_relation.yield] at h
  | schema_definition s => simp [rep, plan_detail.yield, schema_definition.yield, n₁] at h
  | source_definition s => simp [rep, plan_detail.yield, source_definition.yield, n₃] at h
  | extension_space e => simp [rep, plan_detail.yield, extension_space.yield, n₅] at h
  | relation rel =>
    obtain ⟨⟨ty⟩, ⟨rn, rs⟩, dets⟩ := rel
    cases rs with
    | some s =>
      simp [rep, plan_detail.yield, relation.yield, relation_type.yield, relation_ref.yield,
        identifier.yield, opt] at h
    | none =>
      simp only [rep, plan_detail.yield, relation.yield, relation_type.yield,
        relation_ref.yield, identifier.yield, opt, List.cons_append, List.nil_append,
        List.append_nil, List.append_assoc, List.cons.injEq, true_and] at h
      obtain ⟨-, -, h⟩ := h
      rcases dets with _ | ⟨d₁, dets⟩
      · simp [rep] at h
      cases d₁ with
      | COMMON => simp [rep, relation_detail.yield] at h
      | BASE_SCHEMA i => simp [rep, relation_detail.yield] at h
      | EXPRESSION e n => simp [rep, relation_detail.yield] at h
      | ADVANCED_EXTENSION => simp [rep, relation_detail.yield] at h
      | source_reference s => simp [rep, relation_detail.yield, source_reference.yield] at h
      | GROUPING e => simp [rep, relation_detail.yield] at h
      | MEASURE ms => simp [rep, relation_detail.yield] at h
      | sort_field s => simp [rep, relation_detail.yield, sort_field.yield] at h
      | COUNT n => simp [rep, relation_detail.yield] at h
      | TYPE i => simp [rep, relation_detail.yield] at h
      | FILTER b e =>
        rcases mid with _ | ⟨m₁, _ | ⟨m₂, mid⟩⟩
        · rcases b with _ | (a | ⟨a, b⟩ | ⟨a, b⟩) <;>
            simp [rep, relation_detail.yield, relation_filter_behavior.yield, identifier.yield,
              opt, n₈] at h
        · have h₁ := hmid m₁ (by simp)
          rcases b with _ | (a | ⟨a, b⟩ | ⟨a, b⟩) <;>
            simp [rep, relation_detail.yield, relation_filter_behavior.yield, identifier.yield,
              opt, n₈] at h
          exact absurd (h₁ _ h.2.1.symm) (by decide)
        · have h₁ := hmid m₁ (by simp)
          have h₂ := hmid m₂ (by simp)
          rcases b with _ | (a | ⟨a, b⟩ | ⟨a, b⟩) <;>
            simp [rep, relation_detail.yield, relation_filter_behavior.yield, identifier.yield,
              opt, n₈] at h
          · exact absurd (h₁ _ h.2.1.symm) (by decide)
          · exact absurd (h₁ _ h.2.1.symm) (by decide)
          · exact absurd (h₂ _ h.2.2.1.symm) (by decide)
      | EMIT cn =>
        obtain ⟨q, n⟩ := cn
        rcases mid with _ | ⟨m₁, _ | ⟨m₂, mid⟩⟩
        · cases q <;>
            simp [rep, relation_detail.yield, column_name.yield, identifier.yield, opt, n₈] at h
        · have h₁ := hmid m₁ (by simp)
          cases q with
          | some q =>
            simp [rep, relation_detail.yield, column_name.yield, identifier.yield, opt] at h
          | none =>
            rcases Token.lit_cases m₁ h₁ with rfl | ⟨hi, -⟩ | ⟨s, rfl⟩
            · simp [rep, relation_detail.yield, column_name.yield, identifier.yield, opt,
                n₉] at h
            · have := fun i : identifier => i.token_eq_iff_false hi
              simp [rep, relation_detail.yield, column_name.yield, identifier.yield, opt,
                this] at h
            · exact ⟨s, rfl⟩
        · have h₂ := hmid m₂ (by simp)
          cases q with
          | some q =>
            simp [rep, relation_detail.yield, column_name.yield, identifier.yield, opt] at h
            exact absurd (h₂ _ h.2.1.symm) (by decide)
          | none =>
            simp [rep, relation_detail.yield, column_name.yield, identifier.yield, opt] at h
            exact absurd (h₂ _ h.2.1.symm) (by decide)

/-- C18: the pattern of `identifier` matches exactly the character sequences that start
with an ASCII letter and continue with ASCII letters, digits or `$`; the rule accepts these
and the fourteen listed words, which have that shape too; so no identifier is empty,
starts with a digit or `$`, or contains an underscore. The name `col_1` is not an
identifier, and however `col_1` is cut into well-formed tokens, `plan` does not derive
`READ RELATION r { EMIT col_1 ; }`; whereas `1_i32` is the constant made of the number 1
and the type suffix i32. -/
theorem identifier_texts :
    (∀ s : List Char, identifier_pattern.matches_ s = true ↔ is_identifier_text s) ∧
    (∀ s : List Char, (∃ i : identifier, i.token.valid = true ∧ i.token.text = s) ↔
      (is_identifier_text s ∨ s ∈ reserved_words.map String.toList)) ∧
    reserved_words.length = 14 ∧
    (∀ w ∈ reserved_words, is_identifier_text w.toList) ∧
    (∀ i : identifier, i.token.valid = true →
      i.token.text ≠ [] ∧
      (∀ c rest, i.token.text = c :: rest → Regex.digit c = false ∧ c ≠ '$') ∧
      '_' ∉ i.token.text) ∧
    (Token.word "col_1").valid = false ∧
    (∀ i : identifier, i.token.valid = true → i.token.text ≠ "col_1".toList) ∧
    (∀ mid : List Token, (∀ t ∈ mid, t.valid = true) → Token.texts mid = "col_1".toList →
      ∀ p : plan, p.yield ≠ Token.word "READ" :: Token.lit "RELATION" :: Token.word "r"
        :: Token.lit "\x7b" :: Token.lit "EMIT" :: mid
          ++ [Token.lit ";", Token.lit "\x7d"]) ∧
    ((constant.number ⟨"1"⟩ (some (.simple_type ⟨.pattern "i32", false, none⟩))).yield
        = [Token.number "1", Token.lit "_", Token.word "i32"] ∧
      List.all [Token.number "1", Token.lit "_", Token.word "i32"] Token.valid = true ∧
      Token.texts [Token.number "1", Token.lit "_", Token.word "i32"] = "1_i32".toList) := by
  have hres : ∀ w ∈ reserved_words, is_identifier_text w.toList := fun w hw =>
    (identifier_pattern_iff _).mp (by revert w; decide)
  have hid : ∀ i : identifier, i.token.valid = true → is_identifier_text i.token.text := by
    intro i hv
    rcases (identifier.valid_text_iff _).mp ⟨i, hv, rfl⟩ with h | h
    · exact h
    · obtain ⟨w, hw, e⟩ := List.mem_map.mp h
      rw [← e]
      exact hres w hw
  refine ⟨identifier_pattern_iff, identifier.valid_text_iff, rfl, hres,
    fun i hv => is_identifier_text_shape _ (hid i hv), by decide, ?_, ?_, rfl, by decide,
    rfl⟩
  · intro i hv e
    have h := (is_identifier_text_shape _ (hid i hv)).2.2
    rw [e] at h
    exact h (by decide)
  · intro mid hv ht p h
    obtain ⟨s, rfl⟩ := plan.emit_column_tokens mid (Token.lit_in_col mid hv ht) p h
    have hs := hv _ (List.mem_singleton_self _)
    simp only [Token.texts, Token.text, List.append_nil] at ht
    rw [Token.valid, ht] at hs
    revert hs
    decide

/-- C18 at the cut `col`, `_`, `1` of the name `col_1`: the three tokens are well formed,
spell `col_1`, and the relation with an EMIT of `col_1` does not yield them. -/
theorem identifier_texts_witness :
    (∀ t ∈ [Token.word "col", Token.lit "_", Token.number "1"], t.valid = true) ∧
    Token.texts [Token.word "col", Token.lit "_", Token.number "1"] = "col_1".toList ∧
    (plan.mk [.relation ⟨⟨.pattern "READ"⟩, ⟨.pattern "r", none⟩,
        [.EMIT ⟨none, .pattern "col_1"⟩]⟩] false).yield
      ≠ Token.word "READ" :: Token.lit "RELATION" :: Token.word "r" :: Token.lit "\x7b"
        :: Token.lit "EMIT" :: [Token.word "col", Token.lit "_", Token.number "1"]
          ++ [Token.lit ";", Token.lit "\x7d"] :=
  ⟨by decide, rfl,
    identifier_texts.2.2.2.2.2.2.2.1 [Token.word "col", Token.lit "_", Token.number "1"]
      (by decide) rfl _⟩

/-! ## C19: the result-type arrow of a MEASURE detail -/

/-- What can follow the expression of a MEASURE detail: `-> type`, `@ identifier`,
`NAMED identifier`, each optional, then `;`. -/
theorem measure_tail_cons (r : Option type) (i n : Option identifier) :
    ∃ t ts, arrow_type r ++ (opt (fun i => Token.lit "@" :: i.yield) i
        ++ (named_clause n ++ [Token.lit ";"])) = t :: ts ∧ t ≠ Token.lit "(" := by
  cases r <;> cases i <;> cases n <;> exact ⟨_, _, rfl, by decide⟩

theorem expression_suffix.rep_yield_nil_of_head (l : List expression_suffix)
    (t : Token) (ts rest : List Token)
    (h : rep expression_suffix.yield l ++ rest = t :: ts) (ht : t.starts_suffix = false) :
    l = [] := by
  rcases expression_suffix.rep_yield_cases l with hl | ⟨x, xs, hx, hs⟩
  · exact hl
  · rw [hx] at h
    simp only [List.cons_append, List.cons.injEq] at h
    rw [h.1, ht] at hs
    exact Bool.noConfusion hs

theorem measure_detail.arrow_two_trees (d : measure_detail)
    (h : d.yield = [Token.lit "MEASURE", Token.word "f", Token.lit "(", Token.lit ")",
        Token.lit "->", Token.word "i32", Token.lit ";"]) :
    d = measure_detail.MEASURE (.function_call (.mk (.pattern "f") none
        (some (.simple_type ⟨.pattern "i32", false, none⟩)))) none none none ∨
    d = measure_detail.MEASURE (.function_call (.mk (.pattern "f") none none))
        (some (.simple_type ⟨.pattern "i32", false, none⟩)) none none := by
  cases d with
  | FILTER e => simp [measure_detail.yield] at h
  | INVOCATION i => simp [measure_detail.yield] at h
  | sort_field s => simp [measure_detail.yield, sort_field.yield] at h
  | MEASURE e r i n =>
    simp only [measure_detail.yield, List.cons_append, List.append_assoc, List.cons.injEq,
      true_and] at h
    obtain ⟨u, us, hu, -⟩ := e.leftmost.primary_yield_cons e.leftmost_is_primary
    have hy := e.yield_eq_leftmost
    rw [hy, hu] at h
    simp only [List.cons_append, List.append_assoc, List.cons.injEq] at h
    obtain ⟨rfl, h⟩ := h
    obtain ⟨t₀, ts₀, hT, hnp⟩ := measure_tail_cons r i n
    rcases e.leftmost.primary_identifier_head e.leftmost_is_primary _ us hu rfl with
      ⟨f, hf, vs, rfl⟩ | ⟨c, hc, hus⟩ | ⟨ty, -, hn, -⟩
    · rw [hf] at hu
      obtain ⟨nm, args, res⟩ := f
      rcases args with _ | ⟨e₁, es, tc⟩
      swap
      · obtain ⟨x, xs, hx, hxs⟩ := e₁.expression_yield_cons
        simp only [expression.yield, function_call.yield, identifier.yield, hx,
          List.cons_append, List.nil_append, List.append_assoc, List.cons.injEq,
          true_and] at hu
        rw [← hu.2] at h
        simp only [List.cons_append, List.cons.injEq, true_and] at h
        rw [h.1] at hxs
        simp [Token.starts_expression, reserved_words] at hxs
      simp only [expression.yield, function_call.yield, identifier.yield,
        List.cons_append, List.nil_append, List.cons.injEq, true_and] at hu
      obtain ⟨hnm, hvs⟩ := hu
      have hnm' := identifier.token_injective (j := .pattern "f") hnm
      subst hnm'
      rw [← hvs] at h
      simp only [List.cons_append, List.cons.injEq, true_and] at h
      cases res with
      | some ty =>
        simp only [arrow_type, opt, List.cons_append, List.append_assoc, List.cons.injEq,
          true_and] at h
        obtain ⟨hty, h⟩ := ty.type_word_then "i32" _ _ _ h (by decide) (by decide)
        have hs := expression_suffix.rep_yield_nil_of_head _ _ _ _ h (by rfl)
        rw [hs] at h
        simp only [rep, List.nil_append] at h
        cases r <;> cases i <;> cases n <;> simp [opt, named_clause, identifier.yield] at h
        left
        rw [e.eq_leftmost_of_suffixes_nil hs, hf, hty]
      | none =>
        simp only [arrow_type, opt, List.nil_append] at h
        have hs := expression_suffix.rep_yield_nil_of_head _ _ _ _ h (by rfl)
        rw [hs] at h
        simp only [rep, List.nil_append] at h
        cases r with
        | none =>
          cases i <;> cases n <;> simp [opt, named_clause, identifier.yield] at h
        | some ty =>
          simp only [arrow_type, opt, List.cons_append, List.cons.injEq, true_and] at h
          obtain ⟨hty, h⟩ := ty.type_word_then "i32" _ _ _ h (by decide) (by decide)
          cases i <;> cases n <;> simp [opt, named_clause, identifier.yield] at h
          right
          rw [e.eq_leftmost_of_suffixes_nil hs, hf, hty]
    · rw [hT] at h
      rcases hus with rfl | ⟨j, rfl⟩
      · simp only [List.nil_append] at h
        have hs := expression_suffix.rep_yield_nil_of_head _ _ _ _ h (by rfl)
        rw [hs] at h
        simp only [rep, List.nil_append, List.cons.injEq] at h
        exact absurd h.1 hnp
      · simp at h
    · simp at hn

/-- C19: `measure_detail` is ambiguous on a result-type arrow.  The input
`MEASURE f ( ) -> i32 ;` is a sequence of valid tokens derived by two distinct trees: in one
`-> i32` is the output type of the function_call `f ( )` and the MEASURE detail has no type
of its own; in the other the function_call has no output type and `-> i32` is the type of
the MEASURE detail.  These are the only two measure_detail trees that derive it. -/
theorem measure_arrow_ambiguity :
    List.all [Token.lit "MEASURE", Token.word "f", Token.lit "(", Token.lit ")",
        Token.lit "->", Token.word "i32", Token.lit ";"] Token.valid = true ∧
    (measure_detail.MEASURE (.function_call (.mk (.pattern "f") none
        (some (.simple_type ⟨.pattern "i32", false, none⟩)))) none none none).yield
      = [Token.lit "MEASURE", Token.word "f", Token.lit "(", Token.lit ")",
        Token.lit "->", Token.word "i32", Token.lit ";"] ∧
    (measure_detail.MEASURE (.function_call (.mk (.pattern "f") none none))
        (some (.simple_type ⟨.pattern "i32", false, none⟩)) none none).yield
      = [Token.lit "MEASURE", Token.word "f", Token.lit "(", Token.lit ")",
        Token.lit "->", Token.word "i32", Token.lit ";"] ∧
    measure_detail.MEASURE (.function_call (.mk (.pattern "f") none
        (some (.simple_type ⟨.pattern "i32", false, none⟩)))) none none none
      ≠ measure_detail.MEASURE (.function_call (.mk (.pattern "f") none none))
        (some (.simple_type ⟨.pattern "i32", false, none⟩)) none none ∧
    (∀ d : measure_detail,
      d.yield = [Token.lit "MEASURE", Token.word "f", Token.lit "(", Token.lit ")",
        Token.lit "->", Token.word "i32", Token.lit ";"] ↔
      (d = measure_detail.MEASURE (.function_call (.mk (.pattern "f") none
        (some (.simple_type ⟨.pattern "i32", false, none⟩)))) none none none ∨
        d = measure_detail.MEASURE (.function_call (.mk (.pattern "f") none none))
        (some (.simple_type ⟨.pattern "i32", false, none⟩)) none none)) := by
  refine ⟨by decide, rfl, rfl, by simp, fun d => ⟨d.arrow_two_trees, fun h => ?_⟩⟩
  rcases h with h | h <;> (rw [h]; rfl)

/-! ## C20: the names of the root relation -/

theorem root_relation.tail_injective :
    ∀ (rest rest' : List identifier) (c c' : Bool),
      commas identifier.yield rest ++ opt_lit c "," ++ [Token.lit "]", Token.lit "\x7d"]
        = commas identifier.yield rest' ++ opt_lit c' "," ++ [Token.lit "]", Token.lit "\x7d"] →
      rest = rest' ∧ c = c'
  | [], [], c, c', h => by cases c <;> cases c' <;> simp [commas, opt_lit] at h ⊢
  | [], i :: rest', c, c', h => by
    have := i.token_eq_iff_false (t := Token.lit "]") rfl
    cases c <;> simp [commas, opt_lit, identifier.yield, this] at h
  | i :: rest, [], c, c', h => by
    have := i.token_eq_iff_false (t := Token.lit "]") rfl
    cases c' <;> simp [commas, opt_lit, identifier.yield, this] at h
  | i :: rest, j :: rest', c, c', h => by
    simp only [commas, identifier.yield, List.cons_append, List.nil_append, List.append_assoc,
      List.cons.injEq, true_and] at h
    obtain ⟨h₁, h₂⟩ := root_relation.tail_injective rest rest' c c'
      (by simpa [List.append_assoc] using h.2)
    rw [identifier.token_injective h.1, h₁, h₂]
    exact ⟨rfl, rfl⟩

theorem root_relation.root_relation_yield_injective (r r' : root_relation)
    (h : r.yield = r'.yield) : r = r' := by
  obtain ⟨f, rest, c⟩ := r
  obtain ⟨f', rest', c'⟩ := r'
  simp only [root_relation.yield, identifier.yield, List.cons_append, List.nil_append,
    List.append_assoc, List.cons.injEq, true_and] at h
  obtain ⟨h₁, h₂⟩ := root_relation.tail_injective rest rest' c c'
    (by simpa [List.append_assoc] using h.2)
  rw [identifier.token_injective h.1, h₁, h₂]

theorem root_relation.rejected (r : root_relation) :
    r.yield ≠ [Token.lit "ROOT", Token.lit "\x7b", Token.lit "NAMES", Token.lit "=", Token.lit "[",
        Token.lit "]", Token.lit "\x7d"] ∧
    r.yield ≠ [Token.lit "ROOT", Token.lit "\x7b", Token.lit "NAMES", Token.lit "=", Token.lit "[",
        Token.lit ",", Token.lit "]", Token.lit "\x7d"] ∧
    r.yield ≠ [Token.lit "ROOT", Token.lit "\x7b", Token.lit "NAMES", Token.lit "=", Token.lit "[",
        Token.word "a", Token.lit ",", Token.lit ",", Token.lit "]", Token.lit "\x7d"] ∧
    r.yield ≠ [Token.lit "ROOT", Token.lit "\x7b", Token.lit "NAMES", Token.lit "=", Token.lit "[",
        Token.string "\"a\"", Token.lit "]", Token.lit "\x7d"] := by
  obtain ⟨f, rest, c⟩ := r
  have n₁ := f.token_eq_iff_false (t := Token.lit "]") rfl
  have n₂ := f.token_eq_iff_false (t := Token.lit ",") rfl
  have n₃ := f.token_eq_iff_false (t := Token.string "\"a\"") rfl
  refine ⟨?_, ?_, ?_, ?_⟩
  · simp [root_relation.yield, identifier.yield, n₁]
  · simp [root_relation.yield, identifier.yield, n₂]
  · rcases rest with _ | ⟨i, rest⟩
    · cases c <;> simp [root_relation.yield, identifier.yield, commas, opt_lit]
    · have n₄ := i.token_eq_iff_false (t := Token.lit ",") rfl
      simp [root_relation.yield, identifier.yield, commas, n₄]
  · simp [root_relation.yield, identifier.yield, n₃]

/-- C20: a root relation names at least one output column.  A root_relation tree has a
first identifier, further identifiers each behind a comma, and an optional trailing comma;
it derives `ROOT { NAMES = [ id1 , ... , idn ,? ] }` with its names in source order, and
the tree is determined by the token sequence.  The inputs `ROOT { NAMES = [ ] }`,
`ROOT { NAMES = [ , ] }`, `ROOT { NAMES = [ a , , ] }` and the one with the string "a" for a
name are not derived; `ROOT { NAMES = [ a , b , ] }` is derived, by the tree with the names
a, b and the trailing comma only. -/
theorem root_relation_names :
    (∀ (i : identifier) (rest : List identifier) (c : Bool),
      (root_relation.mk i rest c).yield
        = [Token.lit "ROOT", Token.lit "\x7b", Token.lit "NAMES", Token.lit "=", Token.lit "["]
          ++ i.yield ++ commas identifier.yield rest ++ opt_lit c ","
          ++ [Token.lit "]", Token.lit "\x7d"] ∧
      (root_relation.mk i rest c).names = i :: rest) ∧
    (∀ r : root_relation, 1 ≤ r.names.length) ∧
    (∀ r r' : root_relation, r.yield = r'.yield → r = r') ∧
    (∀ r : root_relation,
      r.yield ≠ [Token.lit "ROOT", Token.lit "\x7b", Token.lit "NAMES", Token.lit "=", Token.lit "[",
          Token.lit "]", Token.lit "\x7d"] ∧
      r.yield ≠ [Token.lit "ROOT", Token.lit "\x7b", Token.lit "NAMES", Token.lit "=", Token.lit "[",
          Token.lit ",", Token.lit "]", Token.lit "\x7d"] ∧
      r.yield ≠ [Token.lit "ROOT", Token.lit "\x7b", Token.lit "NAMES", Token.lit "=", Token.lit "[",
          Token.word "a", Token.lit ",", Token.lit ",", Token.lit "]", Token.lit "\x7d"] ∧
      r.yield ≠ [Token.lit "ROOT", Token.lit "\x7b", Token.lit "NAMES", Token.lit "=", Token.lit "[",
          Token.string "\"a\"", Token.lit "]", Token.lit "\x7d"]) ∧
    (∀ r : root_relation,
      r.yield = [Token.lit "ROOT", Token.lit "\x7b", Token.lit "NAMES", Token.lit "=", Token.lit "[",
          Token.word "a", Token.lit ",", Token.word "b", Token.lit ",", Token.lit "]", Token.lit "\x7d"] ↔
      r = ⟨.pattern "a", [.pattern "b"], true⟩) ∧
    (root_relation.mk (.pattern "a") [.pattern "b"] true).names
      = [.pattern "a", .pattern "b"] := by
  refine ⟨fun i rest c => ⟨by simp [root_relation.yield], rfl⟩, fun r => by
      simp [root_relation.names],
    root_relation.root_relation_yield_injective, root_relation.rejected,
    fun r => ⟨fun h => ?_, fun h => by rw [h]; rfl⟩, rfl⟩
  exact root_relation.root_relation_yield_injective r ⟨.pattern "a", [.pattern "b"], true⟩ h

/-- C20 at `ROOT { NAMES = [ a , b , ] }`. -/
theorem root_relation_names_witness :
    (root_relation.mk (.pattern "a") [.pattern "b"] true).yield
      = [Token.lit "ROOT", Token.lit "\x7b", Token.lit "NAMES", Token.lit "=", Token.lit "[",
          Token.word "a", Token.lit ",", Token.word "b", Token.lit ",", Token.lit "]", Token.lit "\x7d"] ∧
    root_relation.mk (.pattern "a") [.pattern "b"] true
      = root_relation.mk (.pattern "a") [.pattern "b"] true :=
  ⟨rfl, root_relation_names.2.2.1 _ _ rfl⟩

end Substrait
